import Mathlib

/-!
# PLOON (Path-Level Object Oriented Notation) — verification development

A shallow embedding of the core of the `ploon` serialization library
(schema inference, record encoder, escaping utilities, scanner, schema
reader and record-routing decoder, minify/prettify, configuration
validation), together with theorems settling the frozen claims about it.

Modelling conventions:
* JavaScript strings are `List Char` (`Str`); all string manipulation
  (split, trim, replace, indexOf, slice) is re-implemented over lists with
  JavaScript semantics.  The JS whitespace set is restricted to the ASCII
  whitespace characters that can occur in the documents under study.
* JavaScript numbers are modelled as integers (`Int`).  Every numeric
  value occurring in the analysed inputs is a safe integer, for which
  `String(n)` is exactly the decimal rendering.  A decoded cell that
  matches the decoder's decimal-fraction pattern is kept symbolically
  (`Value.vdec`) rather than as a float; no analysed execution produces
  one.
* `parseInt` may return NaN; NaN-valued depths/indices are modelled as
  `Option Int` with `none` for NaN, and the NaN-poisoned comparisons are
  modelled by `jleb`/`jeqb` below (any comparison with NaN is false).
* Functions that `throw` in the source return `Except Str _`.
* Recursions of the source that are structural on strings/lists are
  embedded directly; the recursions that descend through found sub-values
  (schema generation, record encoding, tree building, schema reading,
  cleanup) are embedded with an explicit fuel parameter; the public entry
  points instantiate the fuel with a bound that dominates the actual
  recursion depth (the source recursions all descend into strictly
  smaller substructures, so any fuel at least the total input size is
  enough).
-/

set_option maxHeartbeats 1000000

namespace Ploon

/-- JavaScript strings as lists of characters. -/
abbrev Str := List Char

/-- Literal brace characters (kept out of string literals). -/
def lbrace : Char := Char.ofNat 123

def rbrace : Char := Char.ofNat 125

/-- ASCII whitespace, the fragment of the JS `trim`/`parseInt` whitespace
set that occurs in the analysed documents. -/
def isWS (c : Char) : Bool :=
  c = ' ' || c = '\n' || c = '\t' || c = '\r'

/-- JS `String.prototype.trim` (both ends). -/
def trimStr (s : Str) : Str :=
  ((s.dropWhile isWS).reverse.dropWhile isWS).reverse

/-- `A.join(sep)` for a list of strings. -/
def joinSep (sep : Str) : List Str → Str
  | [] => []
  | [x] => x
  | x :: xs => x ++ sep ++ joinSep sep xs

/-- JS `s.split(c)` for a single-character separator: always returns at
least one piece, `"".split(c) = [""]`. -/
def jsSplitChar (sep : Char) : Str → List Str
  | [] => [[]]
  | c :: rest =>
    let r := jsSplitChar sep rest
    if c = sep then [] :: r
    else
      match r with
      | h :: t => (c :: h) :: t
      | [] => [[c]]

/-- JS `s.split(pat)` for a string pattern (leftmost, non-overlapping).
JS diverges on an empty pattern; the embedding returns `[s]` there (the
source never calls it with an empty pattern). -/
def jsSplitStr (pat : Str) (s : Str) : List Str :=
  match pat with
  | [] => [s]
  | p :: ps => go p ps 0 s
where
  /-- The first argument counts pattern characters still to skip after a
  match (keeping the recursion structural). -/
  go (p : Char) (ps : Str) : Nat → Str → List Str
    | 0, [] => [[]]
    | 0, c :: rest =>
      if (p :: ps).isPrefixOf (c :: rest) then
        [] :: go p ps ps.length rest
      else
        match go p ps 0 rest with
        | h :: t => (c :: h) :: t
        | [] => [[c]]
    | _ + 1, [] => [[]]
    | n + 1, _ :: rest => go p ps n rest

/-- JS `String.prototype.replace` with a global pattern of literal text
(leftmost, non-overlapping; the replacement is not re-scanned).  An empty
pattern leaves the string unchanged (never called that way). -/
def replaceSub (pat repl : Str) (s : Str) : Str :=
  match pat with
  | [] => s
  | p :: ps => go p ps 0 s
where
  /-- The first argument counts pattern characters still to skip after a
  match (keeping the recursion structural). -/
  go (p : Char) (ps : Str) : Nat → Str → Str
    | 0, [] => []
    | 0, c :: rest =>
      if (p :: ps).isPrefixOf (c :: rest) then
        repl ++ go p ps ps.length rest
      else
        c :: go p ps 0 rest
    | _ + 1, [] => []
    | n + 1, _ :: rest => go p ps n rest

/-- JS `s.indexOf(pat)` (`none` for `-1`). -/
def indexOfStr (pat : Str) (s : Str) : Option Nat :=
  match s with
  | [] => if pat = [] then some 0 else none
  | _ :: rest =>
    if pat.isPrefixOf s then some 0
    else (indexOfStr pat rest).map (· + 1)

/-- JS `s.indexOf(pat, from)`. -/
def indexOfFrom (pat : Str) (s : Str) (start : Nat) : Option Nat :=
  (indexOfStr pat (s.drop start)).map (· + start)

/-- JS `s.slice(a, b)` for `0 ≤ a ≤ b` (the only form the source uses). -/
def sliceStr (s : Str) (a b : Nat) : Str :=
  (s.take b).drop a

/-- Decimal digits of a natural number. -/
def natDigits (n : Nat) : Str :=
  (Nat.toDigits 10 n)

/-- JS `String(n)` for an integer. -/
def intToStr (n : Int) : Str :=
  if n < 0 then '-' :: natDigits n.natAbs else natDigits n.natAbs

/-- The numeric value of a digit list (digits only). -/
def digitsVal (s : Str) : Nat :=
  s.foldl (fun acc c => acc * 10 + (c.toNat - '0'.toNat)) 0

/-- JS `parseInt(s, 10)`: skip leading whitespace, optional sign, then a
non-empty digit prefix; `none` is NaN. -/
def parseIntJS (s : Str) : Option Int :=
  let t := s.dropWhile isWS
  let (neg, t) :=
    match t with
    | '-' :: r => (true, r)
    | '+' :: r => (false, r)
    | _ => (false, t)
  let ds := t.takeWhile (fun c => c.isDigit)
  if ds = [] then none
  else some (if neg then -(digitsVal ds : Int) else (digitsVal ds : Int))

/-- NaN-poisoned `≤` on JS numbers (`none` is NaN). -/
def jleb : Option Int → Option Int → Bool
  | some a, some b => a ≤ b
  | _, _ => false

/-- NaN-poisoned `===` on JS numbers (`none` is NaN). -/
def jeqb : Option Int → Option Int → Bool
  | some a, some b => a = b
  | _, _ => false

/-- JS `x + 1` on a possibly-NaN number. -/
def jadd1 : Option Int → Option Int
  | some a => some (a + 1)
  | none => none

/-! ## The value tree (`JsonValue` of `types.ts`) -/

/-- `JsonValue`: `null | boolean | number | string | JsonValue[] |`
string-keyed object.  Numbers are modelled as integers; `vdec` keeps a
decoded decimal-fraction literal symbolic (see the header). -/
inductive Value where
  | vnull
  | vbool (b : Bool)
  | vnum (n : Int)
  | vdec (lit : Str)
  | vstr (s : Str)
  | varr (items : List Value)
  | vobj (fields : List (Str × Value))
deriving Repr

mutual

/-- Structural boolean equality on values. -/
def vbeq : Value → Value → Bool
  | .vnull, .vnull => true
  | .vbool a, .vbool b => a = b
  | .vnum a, .vnum b => a = b
  | .vdec a, .vdec b => a = b
  | .vstr a, .vstr b => a = b
  | .varr xs, .varr ys => vbeqList xs ys
  | .vobj xs, .vobj ys => vbeqFields xs ys
  | _, _ => false

def vbeqList : List Value → List Value → Bool
  | [], [] => true
  | x :: xs, y :: ys => vbeq x y && vbeqList xs ys
  | _, _ => false

def vbeqFields : List (Str × Value) → List (Str × Value) → Bool
  | [], [] => true
  | (k, v) :: xs, (l, w) :: ys => k = l && vbeq v w && vbeqFields xs ys
  | _, _ => false

end

/-- Key order on object entries used for canonicalization. -/
def keyLe (a b : Str × Value) : Prop := a.1 ≤ b.1

instance : DecidableRel keyLe := fun a b => by
  unfold keyLe; infer_instance

instance : IsTotal (Str × Value) keyLe :=
  ⟨fun a b => le_total a.1 b.1⟩

instance : IsTrans (Str × Value) keyLe :=
  ⟨fun _ _ _ h h' => le_trans h h'⟩

mutual

/-- Canonical form: every object's entries sorted by key (recursively).
Two values are deep-equal ignoring map key order iff their canonical
forms coincide. -/
def canon : Value → Value
  | .vnull => .vnull
  | .vbool b => .vbool b
  | .vnum n => .vnum n
  | .vdec s => .vdec s
  | .vstr s => .vstr s
  | .varr xs => .varr (canonList xs)
  | .vobj xs => .vobj (List.insertionSort keyLe (canonFields xs))

def canonList : List Value → List Value
  | [] => []
  | x :: xs => canon x :: canonList xs

def canonFields : List (Str × Value) → List (Str × Value)
  | [] => []
  | (k, v) :: xs => (k, canon v) :: canonFields xs

end

/-- Deep equality ignoring map key order (the equality of the claims). -/
def veq (a b : Value) : Bool := vbeq (canon a) (canon b)

mutual

/-- Well-formed value: every object has pairwise-distinct keys (always
true of values arising from JS objects). -/
def wfv : Value → Bool
  | .vnull | .vbool _ | .vnum _ | .vdec _ | .vstr _ => true
  | .varr xs => wfvList xs
  | .vobj xs => (xs.map Prod.fst).Nodup && wfvFields xs

def wfvList : List Value → Bool
  | [] => true
  | x :: xs => wfv x && wfvList xs

def wfvFields : List (Str × Value) → Bool
  | [] => true
  | (_, v) :: xs => wfv v && wfvFields xs

end

mutual

/-- Total size of a value, used to instantiate fuel parameters. -/
def vsize : Value → Nat
  | .vnull | .vbool _ | .vnum _ | .vdec _ | .vstr _ => 1
  | .varr xs => 1 + vsizeList xs
  | .vobj xs => 1 + vsizeFields xs

def vsizeList : List Value → Nat
  | [] => 0
  | x :: xs => vsize x + vsizeList xs

def vsizeFields : List (Str × Value) → Nat
  | [] => 0
  | (_, v) :: xs => vsize v + vsizeFields xs

end

/-! ## Configuration (`types.ts`, `constants.ts`) -/

/-- `PloonConfig`.  All delimiter fields are JS strings. -/
structure PloonConfig where
  fieldDelimiter : Str
  pathSeparator : Str
  arraySizeMarker : Str
  recordSeparator : Str
  escapeChar : Str
  schemaOpen : Str
  schemaClose : Str
  fieldsOpen : Str
  fieldsClose : Str
  nestedSeparator : Str
  schemaFieldSeparator : Str
  schemaWhitespace : Str
  optionalFieldMarker : Str
  preserveEmptyFields : Bool
deriving Repr

/-- Standard preset.  The fields through `nestedSeparator` are the
`PLOON_STANDARD` of `constants.ts`.  The remaining fields are absent from
the `constants.ts` under `src/`; they are modelled from the spec (§6
"Configuration" defaults and the documented schema examples, which join
schema fields with a comma): `schemaFieldSeparator` a comma,
`schemaWhitespace` a space, `optionalFieldMarker` a question mark,
`preserveEmptyFields` true. -/
def PLOON_STANDARD : PloonConfig :=
  { fieldDelimiter := ['|']
    pathSeparator := [':']
    arraySizeMarker := ['#']
    recordSeparator := ['\n']
    escapeChar := ['\\']
    schemaOpen := ['[']
    schemaClose := [']']
    fieldsOpen := ['(']
    fieldsClose := [')']
    nestedSeparator := ['|']
    schemaFieldSeparator := [',']
    schemaWhitespace := [' ']
    optionalFieldMarker := ['?']
    preserveEmptyFields := true }

/-- Compact preset: the standard preset with a semicolon record
separator. -/
def PLOON_COMPACT : PloonConfig :=
  { PLOON_STANDARD with recordSeparator := [';'] }

/-- The twelve single-character roles checked by `validateConfig`
(`config.ts` lines 54–67; note `recordSeparator` is not among them). -/
def singleCharFields (c : PloonConfig) : List (Str × Str) :=
  [ (['f','i','e','l','d','D','e','l','i','m','i','t','e','r'], c.fieldDelimiter)
  , (['p','a','t','h','S','e','p','a','r','a','t','o','r'], c.pathSeparator)
  , (['a','r','r','a','y','S','i','z','e','M','a','r','k','e','r'], c.arraySizeMarker)
  , (['e','s','c','a','p','e','C','h','a','r'], c.escapeChar)
  , (['s','c','h','e','m','a','O','p','e','n'], c.schemaOpen)
  , (['s','c','h','e','m','a','C','l','o','s','e'], c.schemaClose)
  , (['f','i','e','l','d','s','O','p','e','n'], c.fieldsOpen)
  , (['f','i','e','l','d','s','C','l','o','s','e'], c.fieldsClose)
  , (['n','e','s','t','e','d','S','e','p','a','r','a','t','o','r'], c.nestedSeparator)
  , (['s','c','h','e','m','a','F','i','e','l','d','S','e','p','a','r','a','t','o','r'], c.schemaFieldSeparator)
  , (['s','c','h','e','m','a','W','h','i','t','e','s','p','a','c','e'], c.schemaWhitespace)
  , (['o','p','t','i','o','n','a','l','F','i','e','l','d','M','a','r','k','e','r'], c.optionalFieldMarker) ]

/-- `addChar` accumulation of `validateConfig`: a map from character
value to the role names using it, in insertion order. -/
def addChar (m : List (Str × List Str)) (char : Str) (field : Str) : List (Str × List Str) :=
  match m with
  | [] => [(char, [field])]
  | (c, fs) :: rest =>
    if c = char then (c, fs ++ [field]) :: rest
    else (c, fs) :: addChar rest char field

/-- `validateConfig` (`config.ts` lines 50–112), returning the collected
error list instead of throwing (the source throws iff the list is
non-empty). -/
def validateConfigErrors (config : PloonConfig) : List Str :=
  let lenErrors :=
    (singleCharFields config).foldr
      (fun (f : Str × Str) acc =>
        if f.2.length ≠ 1 then
          (f.1 ++ (' ' :: ('m' :: 'u' :: 's' :: 't' :: " be exactly 1 character".toList))) :: acc
        else acc) []
  let rsErrors :=
    if config.recordSeparator.length = 0 then
      ["recordSeparator cannot be empty".toList] else []
  let chars :=
    (singleCharFields config).foldl (fun m f => addChar m f.2 f.1) []
  let conflictErrors :=
    chars.foldr
      (fun (e : Str × List Str) acc =>
        if e.2.length > 1 then
          (("Character ".toList) ++ e.1 ++ " is used for multiple purposes: ".toList
            ++ joinSep (", ".toList) e.2) :: acc
        else acc) []
  lenErrors ++ rsErrors ++ conflictErrors

/-! ## String utilities (`shared/string-utils.ts`) -/

mutual

/-- JS `String(value)` on a `JsonValue`. -/
def jsToString : Value → Str
  | .vnull => "null".toList
  | .vbool true => "true".toList
  | .vbool false => "false".toList
  | .vnum n => intToStr n
  | .vdec s => s
  | .vstr s => s
  | .varr xs => joinSep [','] (jsToStringItems xs)
  | .vobj _ => "[object Object]".toList

/-- `Array.prototype.toString` renders `null` elements as empty text. -/
def jsToStringItems : List Value → List Str
  | [] => []
  | .vnull :: xs => [] :: jsToStringItems xs
  | x :: xs => jsToString x :: jsToStringItems xs

end

/-- `escapeValue` (lines 11–37): escape the escape character, the field
delimiter, the record separator and the comma, in that order, each by a
global replace prefixing the escape character.  The source's single- and
multi-character record separator branches perform the same literal
replacement. -/
def escapeValue (value : Str) (config : PloonConfig) : Str :=
  let e := config.escapeChar
  let s1 := replaceSub e (e ++ e) value
  let s2 := replaceSub config.fieldDelimiter (e ++ config.fieldDelimiter) s1
  let s3 := replaceSub config.recordSeparator (e ++ config.recordSeparator) s2
  replaceSub [','] (e ++ [',']) s3

/-- `unescapeValue` (lines 42–65): unescape the field delimiter, the
record separator, the comma, and last the escape character itself. -/
def unescapeValue (value : Str) (config : PloonConfig) : Str :=
  let e := config.escapeChar
  let s1 := replaceSub (e ++ config.fieldDelimiter) config.fieldDelimiter value
  let s2 := replaceSub (e ++ config.recordSeparator) config.recordSeparator s1
  let s3 := replaceSub (e ++ [',']) [','] s2
  replaceSub (e ++ e) e s3

/-- `formatValue` (lines 70–83).  `none` is JS `undefined`. -/
def formatValue (value : Option Value) (config : PloonConfig) (isOptional : Bool) : Str :=
  match value with
  | some .vnull => "null".toList
  | none => if isOptional then [] else "null".toList
  | some v => escapeValue (jsToString v) config

/-- `formatPrimitiveArray` (lines 89–110): `null` elements become empty
text, elements are stringified and escaped, empty elements are dropped
unless `preserveEmpty`, and the results are comma-joined. -/
def formatPrimitiveArray (array : List Value) (config : PloonConfig) (preserveEmpty : Bool) : Str :=
  let elements := array.map (fun item =>
    match item with
    | .vnull => ([] : Str)
    | v => escapeValue (jsToString v) config)
  let elements := if preserveEmpty then elements else elements.filter (· ≠ [])
  joinSep [','] elements

/-- `splitEscaped` (lines 123–156): split on a delimiter, unescaping only
the delimiter and the escape character, keeping other escape sequences.
The empty-delimiter guard avoids the source's divergence there (never
called with an empty delimiter). -/
def splitEscaped (str delim escapeChar : Str) : List Str :=
  go 0 str []
where
  /-- The first argument counts delimiter characters still to skip after
  a delimiter match (keeping the recursion structural). -/
  go : Nat → Str → Str → List Str
    | 0, [], cur => [cur]
    | 0, [c], cur =>
      if delim ≠ [] ∧ delim.isPrefixOf [c] then
        cur :: go (delim.length - 1) [] []
      else [cur ++ [c]]
    | 0, c :: next :: rest2, cur =>
      if [c] = escapeChar then
        if [next] = delim || [next] = escapeChar then go 0 rest2 (cur ++ [next])
        else go 0 rest2 (cur ++ [c, next])
      else if delim ≠ [] ∧ delim.isPrefixOf (c :: next :: rest2) then
        cur :: go (delim.length - 1) (next :: rest2) []
      else go 0 (next :: rest2) (cur ++ [c])
    | _ + 1, [], cur => [cur]
    | n + 1, _ :: rest, cur => go n rest cur

/-! ## Normalization helpers (`encode/normalize.ts`) -/

/-- `isJsonArray`. -/
def isArrV : Value → Bool
  | .varr _ => true
  | _ => false

/-- `isJsonObject` (a non-null object that is not an array). -/
def isObjV : Value → Bool
  | .vobj _ => true
  | _ => false

/-- The entry list of an object value (empty for non-objects). -/
def objFields : Value → List (Str × Value)
  | .vobj fs => fs
  | _ => []

/-- The element list of an array value (empty for non-arrays). -/
def arrItems : Value → List Value
  | .varr xs => xs
  | _ => []

/-- JS `Object.keys(obj)`. -/
def keysOf (v : Value) : List Str := (objFields v).map Prod.fst

/-- JS `obj[key]` (`none` is `undefined`). -/
def lookupV (v : Value) (k : Str) : Option Value :=
  ((objFields v).find? (fun kv => kv.1 = k)).map Prod.snd

/-- `isArrayOfObjects`: every element is an object (vacuously true for
the empty array). -/
def isArrayOfObjects (l : List Value) : Bool := l.all isObjV

/-- An empty array or empty object (the "present-but-empty" test of
`analyzeFields` and the encoder). -/
def isEmptyV : Value → Bool
  | .varr [] => true
  | .vobj [] => true
  | _ => false

/-- JS `Set.prototype.add` on a list kept in insertion order. -/
def insertSet (l : List Str) (x : Str) : List Str :=
  if x ∈ l then l else l ++ [x]

/-- JS default `Array.prototype.sort` on strings (lexicographic). -/
def sortKeys (l : List Str) : List Str :=
  List.insertionSort (· ≤ ·) l

/-- `getAllKeys` (normalize.ts lines 151–161): the sorted union of the
objects' key sets. -/
def getAllKeys (objects : List Value) : List Str :=
  sortKeys (objects.foldl (fun acc o => (keysOf o).foldl insertSet acc) [])

/-- Number of objects carrying `key` (the `fieldCounts` map of
`analyzeFields`; each JS object contributes at most once because its
keys are unique). -/
def fieldCount (objects : List Value) (key : Str) : Nat :=
  objects.countP (fun o => key ∈ keysOf o)

/-- Whether `key` is present-but-empty in some object (the
`fieldEverEmpty` map of `analyzeFields`). -/
def fieldEverEmpty (objects : List Value) (key : Str) : Bool :=
  objects.any (fun o =>
    match lookupV o key with
    | some v => isEmptyV v
    | none => false)

/-- `analyzeFields` (normalize.ts lines 168–207) looked up at one key:
`none` when the key is carried by no object (absent from the map), else
whether the field is optional (missing somewhere or ever empty). -/
def analyzeFields (objects : List Value) (key : Str) : Option Bool :=
  if fieldCount objects key = 0 then none
  else some (decide (fieldCount objects key < objects.length) || fieldEverEmpty objects key)

/-! ## Schema generation (`encode/schema.ts`, the version of `part_006`) -/

/-- `FieldType` of `types.ts`. -/
inductive FT where
  | fprimitive
  | fprimitiveArray
  | farray
  | fobject
deriving Repr, DecidableEq

/-- `SchemaField` (encode side): `nested` carries the representative
array (`varr`) or object (`vobj`) found for the field. -/
structure SchemaField where
  name : Str
  type : FT
  isOptional : Bool
  nested : Option Value
deriving Repr

/-- Loop state of `findNestedArray` / `findNestedObject`. -/
structure FindCounts where
  arrayCount : Nat
  primitiveCount : Nat
  objectCount : Nat
deriving Repr

/-- The loop body of `findNestedArray` (schema.ts lines 328–351). -/
def findNAStep (key : Str) (st : FindCounts × Option (List Value)) (o : Value) :
    FindCounts × Option (List Value) :=
  if key ∈ keysOf o then
    match lookupV o key with
    | some (.varr l) =>
      let fa := match st.2 with
        | none => some l
        | some prev => if prev.length = 0 ∧ l.length > 0 then some l else some prev
      (⟨st.1.arrayCount + 1, st.1.primitiveCount, st.1.objectCount⟩, fa)
    | some (.vobj _) =>
      (⟨st.1.arrayCount, st.1.primitiveCount, st.1.objectCount + 1⟩, st.2)
    | _ =>
      (⟨st.1.arrayCount, st.1.primitiveCount + 1, st.1.objectCount⟩, st.2)
  else st

/-- `findNestedArray` (schema.ts lines 323–358): majority vote over the
present values; prefers a non-empty representative array; only an array
of objects qualifies. -/
def findNestedArray (objects : List Value) (key : Str) : Option (List Value) :=
  let st := objects.foldl (findNAStep key) (⟨0, 0, 0⟩, none)
  if st.1.arrayCount > st.1.primitiveCount ∧ st.1.arrayCount > st.1.objectCount then
    match st.2 with
    | some fa => if fa.length > 0 ∧ isArrayOfObjects fa then some fa else none
    | none => none
  else none

/-- The loop body of `findNestedObject` (schema.ts lines 369–388). -/
def findNOStep (key : Str) (st : FindCounts × Option (List (Str × Value))) (o : Value) :
    FindCounts × Option (List (Str × Value)) :=
  if key ∈ keysOf o then
    match lookupV o key with
    | some (.vobj fs) =>
      let fo := match st.2 with
        | none => some fs
        | some prev => if prev.length = 0 ∧ fs.length > 0 then some fs else some prev
      (⟨st.1.arrayCount, st.1.primitiveCount, st.1.objectCount + 1⟩, fo)
    | some (.varr _) =>
      (⟨st.1.arrayCount + 1, st.1.primitiveCount, st.1.objectCount⟩, st.2)
    | _ =>
      (⟨st.1.arrayCount, st.1.primitiveCount + 1, st.1.objectCount⟩, st.2)
  else st

/-- `findNestedObject` (schema.ts lines 364–393): majority vote; prefers
a non-empty representative object. -/
def findNestedObject (objects : List Value) (key : Str) : Option (List (Str × Value)) :=
  let st := objects.foldl (findNOStep key) (⟨0, 0, 0⟩, none)
  if st.1.objectCount > st.1.primitiveCount ∧ st.1.objectCount > st.1.arrayCount then
    st.2
  else none

/-- The field comparator of `analyzeArrayFields` (schema.ts lines
297–312): primitives (incl. primitive arrays) before complex fields,
required before optional, ties keep discovery order (JS sort is stable).
Modelled as the non-strict relation "compares ≤ 0". -/
def schemaFieldLe (a b : SchemaField) : Prop :=
  let aP := a.type = FT.fprimitive ∨ a.type = FT.fprimitiveArray
  let bP := b.type = FT.fprimitive ∨ b.type = FT.fprimitiveArray
  (aP ∧ ¬bP) ∨ (aP ↔ bP) ∧ (¬a.isOptional ∨ b.isOptional)

instance : DecidableRel schemaFieldLe := fun a b => by
  unfold schemaFieldLe; infer_instance

/-- `analyzeArrayFields` (schema.ts lines 245–317). -/
def analyzeArrayFields (array : List Value) : List SchemaField :=
  if array.length = 0 then []
  else if isArrayOfObjects array then
    let keys := getAllKeys array
    let fields := keys.map (fun key =>
      let isOptional := (analyzeFields array key).getD false
      match findNestedArray array key with
      | some fa => ⟨key, FT.farray, isOptional, some (.varr fa)⟩
      | none =>
        match findNestedObject array key with
        | some fo => ⟨key, FT.fobject, isOptional, some (.vobj fo)⟩
        | none =>
          let firstValue := (array.find? (fun o => key ∈ keysOf o)).bind (lookupV · key)
          match firstValue with
          | some (.varr l) =>
            if l.length = 0 ∨ ¬isArrayOfObjects l then
              ({ name := key, type := FT.fprimitiveArray, isOptional, nested := none } : SchemaField)
            else
              { name := key, type := FT.fprimitive, isOptional, nested := none }
          | _ => { name := key, type := FT.fprimitive, isOptional, nested := none })
    List.insertionSort schemaFieldLe fields
  else []

/-- `formatFieldName` (schema.ts lines 235–240). -/
def formatFieldName (name : Str) (isOptional : Bool) (config : PloonConfig) : Str :=
  if isOptional then name ++ config.optionalFieldMarker else name

mutual

/-- `generateArraySchemaF` (schema.ts lines 55–99), fuelled. -/
def generateArraySchemaF (fuel : Nat) (name : Str) (array : List Value)
    (config : PloonConfig) : Str :=
  match fuel with
  | 0 => []
  | fuel + 1 =>
    let count := array.length
    let fields := analyzeArrayFields array
    let fieldStrings := fields.map (fun f =>
      match f.type, f.nested with
      | FT.farray, some (.varr nested) =>
        generateNestedArraySchemaF fuel f.name nested f.isOptional config
      | FT.fobject, some (.vobj nested) =>
        generateNestedObjectSchemaF fuel f.name nested f.isOptional config
      | FT.fprimitiveArray, _ =>
        formatFieldName f.name f.isOptional config
          ++ config.arraySizeMarker ++ config.fieldsOpen ++ config.fieldsClose
      | _, _ => formatFieldName f.name f.isOptional config)
    let fieldsStr := joinSep config.schemaFieldSeparator fieldStrings
    config.schemaOpen ++ name ++ config.arraySizeMarker ++ intToStr count
      ++ config.schemaClose ++ config.fieldsOpen ++ fieldsStr ++ config.fieldsClose

/-- `generateNestedArraySchemaF` (schema.ts lines 104–140), fuelled. -/
def generateNestedArraySchemaF (fuel : Nat) (name : Str) (array : List Value)
    (isOptional : Bool) (config : PloonConfig) : Str :=
  match fuel with
  | 0 => []
  | fuel + 1 =>
    let count := array.length
    let fields := analyzeArrayFields array
    let fieldStrings := fields.map (fun f =>
      match f.type, f.nested with
      | FT.farray, some (.varr nested) =>
        generateNestedArraySchemaF fuel f.name nested f.isOptional config
      | FT.fobject, some (.vobj nested) =>
        generateNestedObjectSchemaF fuel f.name nested f.isOptional config
      | FT.fprimitiveArray, _ =>
        formatFieldName f.name f.isOptional config
          ++ config.arraySizeMarker ++ config.fieldsOpen ++ config.fieldsClose
      | _, _ => formatFieldName f.name f.isOptional config)
    let fieldsStr := joinSep config.schemaFieldSeparator fieldStrings
    formatFieldName name isOptional config
      ++ config.arraySizeMarker ++ intToStr count
      ++ config.fieldsOpen ++ fieldsStr ++ config.fieldsClose

/-- `generateNestedObjectSchemaF` (schema.ts lines 146–230), fuelled.
The braces are literal in the source. -/
def generateNestedObjectSchemaF (fuel : Nat) (name : Str) (obj : List (Str × Value))
    (isOptional : Bool) (config : PloonConfig) : Str :=
  match fuel with
  | 0 => []
  | fuel + 1 =>
    let keys := sortKeys (obj.map Prod.fst)
    let primitiveKeys := keys.filter (fun key =>
      match lookupV (.vobj obj) key with
      | some (.varr l) => l.length = 0 ∨ ¬isArrayOfObjects l
      | some (.vobj _) => false
      | _ => true)
    let requiredComplexKeys := keys.filter (fun key =>
      match lookupV (.vobj obj) key with
      | some (.varr l) => l.length ≠ 0 ∧ isArrayOfObjects l
      | some (.vobj fs) => fs.length ≠ 0
      | _ => false)
    let optionalComplexKeys := keys.filter (fun key =>
      match lookupV (.vobj obj) key with
      | some (.vobj fs) => fs.length = 0
      | _ => false)
    let primStrings := primitiveKeys.map (fun key =>
      match lookupV (.vobj obj) key with
      | some (.varr _) =>
        key ++ config.arraySizeMarker ++ config.fieldsOpen ++ config.fieldsClose
      | _ => key)
    let reqStrings := requiredComplexKeys.map (fun key =>
      match lookupV (.vobj obj) key with
      | some (.varr l) => generateNestedArraySchemaF fuel key l false config
      | some (.vobj fs) => generateNestedObjectSchemaF fuel key fs false config
      | _ => [])
    let optStrings := optionalComplexKeys.map (fun key =>
      match lookupV (.vobj obj) key with
      | some (.varr l) => generateNestedArraySchemaF fuel key l true config
      | some (.vobj fs) => generateNestedObjectSchemaF fuel key fs true config
      | _ => [])
    let fieldsStr := joinSep config.schemaFieldSeparator (primStrings ++ reqStrings ++ optStrings)
    formatFieldName name isOptional config ++ [lbrace] ++ fieldsStr ++ [rbrace]

end

/-- `findRootArray` of schema.ts (lines 35–50): the data itself if it is
an array (named `root`), else the first array-valued property, else no
array. -/
def findRootArrayS (data : Value) : Str × Option (List Value) :=
  match data with
  | .varr l => ("root".toList, some l)
  | .vobj fs =>
    match fs.find? (fun kv => isArrV kv.2) with
    | some (k, .varr l) => (k, some l)
    | _ => ("root".toList, none)
  | _ => ("root".toList, none)

/-- `generateSchema` (schema.ts lines 13–28); throws when the data holds
no array. -/
def generateSchema (data : Value) (config : PloonConfig) : Except Str Str :=
  match findRootArrayS data with
  | (_, none) =>
    .error "Data must contain at least one array to generate PLOON schema".toList
  | (name, some array) =>
    .ok (generateArraySchemaF (vsize (.varr array) + 1) name array config)

/-! ## Path writer (`encode/path-writer.ts`) -/

/-- A path segment; the stack is kept top-first (the source appends to
an array and reads the last element). -/
inductive PathSeg where
  | parr (index : Int)
  | pobj
deriving Repr

/-- `getCurrentPath`: only the depth (stack length) and the top segment
are rendered. -/
def getCurrentPath (stack : List PathSeg) (config : PloonConfig) : Str :=
  match stack with
  | [] => []
  | top :: _ =>
    let depth := (stack.length : Int)
    match top with
    | .parr i => intToStr depth ++ config.pathSeparator ++ intToStr i
    | .pobj => intToStr depth ++ [' ']

/-! ## Record encoder (`encode/encoder.ts`, current version) -/

/-- `findRootArray` of encoder.ts (lines 41–58): unlike the schema
generator's, this wraps objects without an array property, and bare
primitives, in a one-element array. -/
def findRootArrayEnc (data : Value) : List Value :=
  match data with
  | .varr l => l
  | .vobj fs =>
    match fs.find? (fun kv => isArrV kv.2) with
    | some (_, .varr l) => l
    | _ => [data]
  | _ => [data]

/-- The `fields` construction of `encodeArray` (encoder.ts lines
94–115): classify each key from its first present value; an empty array
defaults to a primitive array. -/
def encoderFields (array : List Value) : List SchemaField :=
  let keys := getAllKeys array
  let fields := keys.map (fun key =>
    let value := (array.find? (fun o => (lookupV o key).isSome)).bind (lookupV · key)
    let isOptional := (analyzeFields array key).getD false
    match value with
    | some (.varr l) =>
      if l.length > 0 ∧ isArrayOfObjects l then
        ({ name := key, type := FT.farray, isOptional, nested := some (.varr l) } : SchemaField)
      else
        { name := key, type := FT.fprimitiveArray, isOptional, nested := none }
    | some (.vobj fs) =>
      { name := key, type := FT.fobject, isOptional, nested := some (.vobj fs) }
    | _ => { name := key, type := FT.fprimitive, isOptional, nested := none })
  List.insertionSort schemaFieldLe fields

/-- One primitive cell of `encodeObject` (encoder.ts lines 191–210):
absent optional field → empty cell; present empty primitive array → a
single comma; present non-empty primitive array → inline serialization;
otherwise the formatted scalar. -/
def primCell (f : SchemaField) (obj : Value) (config : PloonConfig) : Str :=
  let value := lookupV obj f.name
  if f.isOptional ∧ value.isNone then []
  else if f.type = FT.fprimitiveArray ∧ (value.map isArrV).getD false then
    let items := arrItems (value.getD .vnull)
    if items.length = 0 then [',']
    else formatPrimitiveArray items config config.preserveEmptyFields
  else formatValue value config false

/-- `lastPresentOptionalIndex` of `encodeObject` (lines 235–244). -/
def lastPresentOptionalIndex (complexFields : List SchemaField) (obj : Value) : Int :=
  complexFields.enum.foldl
    (fun acc (p : Nat × SchemaField) =>
      if p.2.isOptional ∧ p.2.name ∈ keysOf obj then (p.1 : Int) else acc)
    (-1)

/-- The present-but-empty test of the marker loop (lines 257–264). -/
def complexIsEmpty (f : SchemaField) (v : Value) : Bool :=
  (f.type = FT.farray ∧ isArrV v ∧ (arrItems v).length = 0)
    || (f.type = FT.fobject ∧ isObjV v ∧ (keysOf v).length = 0)

/-- The empty-marker cells of `encodeObject` (lines 246–266): one empty
cell for each optional complex field that is present and empty, up to
the last present optional field. -/
def markerCells (complexFields : List SchemaField) (obj : Value) : List Str :=
  let lp := lastPresentOptionalIndex complexFields obj
  complexFields.enum.filterMap (fun (p : Nat × SchemaField) =>
    if p.2.isOptional ∧ (p.1 : Int) ≤ lp ∧ p.2.name ∈ keysOf obj
        ∧ (((lookupV obj p.2.name).map (complexIsEmpty p.2)).getD false) then
      some ([] : Str)
    else none)

/-- `encodeObject` (encoder.ts lines 176–269). -/
def encodeObject (obj : Value) (fields : List SchemaField) (stack : List PathSeg)
    (config : PloonConfig) : Str :=
  let path := getCurrentPath stack config
  let primitiveFields := fields.filter
    (fun f => f.type = FT.fprimitive || f.type = FT.fprimitiveArray)
  let complexFields := fields.filter
    (fun f => f.type = FT.farray || f.type = FT.fobject)
  joinSep config.fieldDelimiter
    (path :: (primitiveFields.map (primCell · obj config) ++ markerCells complexFields obj))

mutual

/-- `encodeArray` (encoder.ts lines 63–171), fuelled. -/
def encodeArrayF (fuel : Nat) (array : List Value) (stack : List PathSeg)
    (config : PloonConfig) : List Str :=
  match fuel with
  | 0 => []
  | fuel + 1 =>
    if ¬ isArrayOfObjects array then
      -- array of primitives: one record per element
      array.enum.map (fun (p : Nat × Value) =>
        let stack' := PathSeg.parr ((p.1 : Int) + 1) :: stack
        getCurrentPath stack' config ++ config.fieldDelimiter
          ++ formatValue (some p.2) config false)
    else
      let fields := encoderFields array
      array.enum.flatMap (fun (p : Nat × Value) =>
        let obj := p.2
        let stack' := PathSeg.parr ((p.1 : Int) + 1) :: stack
        let record := encodeObject obj fields stack' config
        let nested := fields.flatMap (fun f =>
          if f.type = FT.fprimitive then []
          else
            match f.type, lookupV obj f.name with
            | FT.farray, some (.varr l) => encodeArrayF fuel l stack' config
            | FT.fobject, some (.vobj fs) => encodeNestedObjectF fuel fs stack' config
            | _, _ => [])
        record :: nested)

/-- `encodeNestedObject` (encoder.ts lines 275–390), fuelled. -/
def encodeNestedObjectF (fuel : Nat) (obj : List (Str × Value)) (stack : List PathSeg)
    (config : PloonConfig) : List Str :=
  match fuel with
  | 0 => []
  | fuel + 1 =>
    let stack' := PathSeg.pobj :: stack
    let keys := sortKeys (obj.map Prod.fst)
    let isPrimKey := fun key =>
      match lookupV (.vobj obj) key with
      | some (.varr l) => l.length = 0 || ¬ isArrayOfObjects l
      | some (.vobj _) => false
      | _ => true
    let primitiveKeys := keys.filter isPrimKey
    let complexKeys := keys.filter (fun k => ¬ isPrimKey k)
    let primVals := primitiveKeys.map (fun key =>
      match lookupV (.vobj obj) key with
      | some (.varr l) =>
        if l.length = 0 then [','] else formatPrimitiveArray l config config.preserveEmptyFields
      | v => formatValue v config false)
    let keyIsEmpty := fun key =>
      match lookupV (.vobj obj) key with
      | some (.varr l) => l.length = 0
      | some (.vobj fs) => fs.length = 0
      | _ => false
    let lastNonEmptyIndex : Int := complexKeys.enum.foldl
      (fun acc (p : Nat × Str) => if keyIsEmpty p.2 = false then (p.1 : Int) else acc) (-1)
    let markers := complexKeys.enum.filterMap (fun (p : Nat × Str) =>
      if (p.1 : Int) ≤ lastNonEmptyIndex ∧ keyIsEmpty p.2 = true then some ([] : Str) else none)
    let record := joinSep config.fieldDelimiter
      (getCurrentPath stack' config :: (primVals ++ markers))
    let nested := keys.flatMap (fun key =>
      match lookupV (.vobj obj) key with
      | some (.varr l) =>
        if ¬ (l.length = 0 || ¬ isArrayOfObjects l) then encodeArrayF fuel l stack' config
        else []
      | some (.vobj fs) => encodeNestedObjectF fuel fs stack' config
      | _ => [])
    record :: nested

end

/-- `encode` (encoder.ts lines 20–35): schema, then a doubled record
separator, then the record stream. -/
def encode (data : Value) (config : PloonConfig) : Except Str Str := do
  let schema ← generateSchema data config
  let rootArray := findRootArrayEnc data
  let records := encodeArrayF (vsize (.varr rootArray) + 1) rootArray [] config
  .ok (schema ++ config.recordSeparator ++ config.recordSeparator
    ++ joinSep config.recordSeparator records)

/-! ## Scanner (`decode/scanner.ts`) -/

/-- A scanned record: the raw path cell and the raw data cells. -/
structure ScannedRecord where
  path : Str
  values : List Str
deriving Repr

/-- `scan` (scanner.ts lines 22–68): split on the record separator
(escape-aware), take the first piece as the schema, skip blank pieces
after it, and split every remaining non-blank piece on the field
delimiter into path and values. -/
def scan (ploonString : Str) (config : PloonConfig) :
    Except Str (Str × List ScannedRecord) :=
  let parts := splitEscaped ploonString config.recordSeparator config.escapeChar
  if parts.length < 1 then .error "Invalid PLOON: No schema found".toList
  else
    let schema := trimStr (parts.headD [])
    let skipped := ((parts.drop 1).takeWhile (fun p => trimStr p = [])).length
    let recordParts := parts.drop (1 + skipped)
    let records := recordParts.filterMap (fun part =>
      let trimmed := trimStr part
      if trimmed = [] then none
      else
        match splitEscaped trimmed config.fieldDelimiter config.escapeChar with
        | [] => none
        | path :: values => some (⟨path, values⟩ : ScannedRecord))
    .ok (schema, records)

/-! ## Schema reading (`decode/parser.ts`) -/

mutual

/-- `ParsedSchema`: root name, declared count (`none` is NaN), fields. -/
inductive ParsedSchema where
  | mk : Str → Option Int → List ParsedField → ParsedSchema

/-- `ParsedField` of `decode/parser.ts`. -/
inductive ParsedField where
  | mk : Str → Bool → Bool → Bool → Bool → Option ParsedSchema → ParsedField

end

def ParsedSchema.rootName : ParsedSchema → Str
  | .mk n _ _ => n

def ParsedSchema.count : ParsedSchema → Option Int
  | .mk _ c _ => c

def ParsedSchema.fields : ParsedSchema → List ParsedField
  | .mk _ _ fs => fs

def ParsedField.name : ParsedField → Str
  | .mk n _ _ _ _ _ => n

def ParsedField.isArray : ParsedField → Bool
  | .mk _ a _ _ _ _ => a

def ParsedField.isObject : ParsedField → Bool
  | .mk _ _ o _ _ _ => o

def ParsedField.isPrimitiveArray : ParsedField → Bool
  | .mk _ _ _ p _ _ => p

def ParsedField.isOptional : ParsedField → Bool
  | .mk _ _ _ _ o _ => o

def ParsedField.nested : ParsedField → Option ParsedSchema
  | .mk _ _ _ _ _ n => n

/-- `findMatchingCloseParen` / `findMatchingCloseBrace` (parser.ts lines
299–333): balanced scan from the position after `openPos`; the result is
the position of the matching closing character. -/
def findMatchingClose (str : Str) (openPos : Nat) (openChar closeChar : Str) : Option Nat :=
  go (str.drop (openPos + 1)) (openPos + 1) 1
where
  go : Str → Nat → Nat → Option Nat
    | [], _, _ => none
    | c :: rest, pos, depth =>
      let depth' :=
        if [c] = openChar then depth + 1
        else if [c] = closeChar then depth - 1
        else depth
      if depth' = 0 then some pos else go rest (pos + 1) depth'

/-- The scan of `parseNextField` (parser.ts lines 116–133): consume until
a schema field separator at zero paren depth and zero (literal) brace
depth; returns the consumed prefix and the rest. -/
def scanFieldStr (config : PloonConfig) : Str → Nat → Nat → (Str × Str)
  | [], _, _ => ([], [])
  | c :: rest, depth, braceDepth =>
    if [c] = config.fieldsOpen then
      let (f, r) := scanFieldStr config rest (depth + 1) braceDepth
      (c :: f, r)
    else if [c] = config.fieldsClose then
      let (f, r) := scanFieldStr config rest (depth - 1) braceDepth
      (c :: f, r)
    else if c = lbrace then
      let (f, r) := scanFieldStr config rest depth (braceDepth + 1)
      (c :: f, r)
    else if c = rbrace then
      let (f, r) := scanFieldStr config rest depth (braceDepth - 1)
      (c :: f, r)
    else if [c] = config.schemaFieldSeparator ∧ depth = 0 ∧ braceDepth = 0 then
      ([], c :: rest)
    else
      let (f, r) := scanFieldStr config rest depth braceDepth
      (c :: f, r)

mutual

/-- `parseFields` (parser.ts lines 69–90), fuelled. -/
def parseFieldsF (fuel : Nat) (fieldsStr : Str) (config : PloonConfig) :
    Except Str (List ParsedField) :=
  match fuel with
  | 0 => .ok []
  | fuel + 1 =>
    let s := fieldsStr.dropWhile (fun c => [c] = config.schemaWhitespace)
    if s = [] then .ok []
    else do
      let (raw, rest) := scanFieldStr config s 0 0
      let field ← parseFieldDefinitionF fuel (trimStr raw) config
      let rest := rest.dropWhile
        (fun c => [c] = config.schemaFieldSeparator || [c] = config.schemaWhitespace)
      let more ← parseFieldsF fuel rest config
      .ok (field :: more)

/-- `parseFieldDefinition` (parser.ts lines 141–297), fuelled.  The
object brace is literal in the source. -/
def parseFieldDefinitionF (fuel : Nat) (fieldStr0 : Str) (config : PloonConfig) :
    Except Str ParsedField :=
  match fuel with
  | 0 => .ok (.mk [] false false false false none)
  | fuel + 1 =>
    let arrayMarkerIndex0 := indexOfStr config.arraySizeMarker fieldStr0
    let objectBraceIndex0 := indexOfStr [lbrace] fieldStr0
    -- if both notations occur, the earlier one wins
    let (hasArray, hasObject) :=
      match arrayMarkerIndex0, objectBraceIndex0 with
      | some a, some o => if a < o then (true, false) else (false, true)
      | some _, none => (true, false)
      | none, some _ => (false, true)
      | none, none => (false, false)
    -- optional-marker detection and stripping
    let om := config.optionalFieldMarker
    let (isOptional, fieldStr) :=
      if hasObject then
        let oi := objectBraceIndex0.getD 0
        let beforeBrace := sliceStr fieldStr0 0 oi
        if om.isSuffixOf beforeBrace then
          (true, beforeBrace.take (beforeBrace.length - om.length) ++ fieldStr0.drop oi)
        else (false, fieldStr0)
      else if hasArray then
        let ai := arrayMarkerIndex0.getD 0
        let beforeMarker := sliceStr fieldStr0 0 ai
        if om.isSuffixOf beforeMarker then
          (true, beforeMarker.take (beforeMarker.length - om.length) ++ fieldStr0.drop ai)
        else (false, fieldStr0)
      else
        if om.isSuffixOf fieldStr0 then
          (true, fieldStr0.take (fieldStr0.length - om.length))
        else (false, fieldStr0)
    -- recomputed indices on the stripped text
    let arrayMarkerIndex := indexOfStr config.arraySizeMarker fieldStr
    let objectBraceIndex := indexOfStr [lbrace] fieldStr
    if hasObject then do
      let oi := objectBraceIndex.getD 0
      let name := trimStr (sliceStr fieldStr 0 oi)
      match findMatchingClose fieldStr oi [lbrace] [rbrace] with
      | none => .error ("Unmatched braces in field: ".toList ++ fieldStr)
      | some closePos => do
        let nestedFieldsStr := sliceStr fieldStr (oi + 1) closePos
        let nestedFields ← parseFieldsF fuel nestedFieldsStr config
        .ok (.mk name false true false isOptional
          (some (.mk name (some 0) nestedFields)))
    else if hasArray then do
      let ai := arrayMarkerIndex.getD 0
      let name := trimStr (sliceStr fieldStr 0 ai)
      let openPos0 := ai + config.arraySizeMarker.length
      let openParenPos := indexOfFrom config.fieldsOpen fieldStr openPos0
      let (count, openPos) :=
        match openParenPos with
        | some op =>
          if op > openPos0 then
            (((parseIntJS (sliceStr fieldStr openPos0 op)).getD 0), op)
          else (0, openPos0)
        | none => (0, openPos0)
      match findMatchingClose fieldStr openPos config.fieldsOpen config.fieldsClose with
      | none => .error ("Unmatched parentheses in field: ".toList ++ fieldStr)
      | some closePos => do
        let nestedFieldsStr := trimStr (sliceStr fieldStr (openPos + 1) closePos)
        let nestedFields ← parseFieldsF fuel nestedFieldsStr config
        let isPrimitiveArray := nestedFields.length = 0
        .ok (.mk name true false isPrimitiveArray isOptional
          (some (.mk name (some count) nestedFields)))
    else
      .ok (.mk (trimStr fieldStr) false false false isOptional none)

end

/-- `parseSchema` (parser.ts lines 27–67). -/
def parseSchema (schema : Str) (config : PloonConfig) : Except Str ParsedSchema :=
  let headerStart := indexOfStr config.schemaOpen schema
  let headerEnd := indexOfFrom config.schemaClose schema (headerStart.getD 0)
  match headerStart, headerEnd with
  | some hs, some he => do
    let header := sliceStr schema (hs + 1) he
    let parts := jsSplitStr config.arraySizeMarker header
    let rootName := parts.headD []
    let count : Option Int :=
      match parts.get? 1 with
      | some cs => if cs = [] then some 0 else parseIntJS cs
      | none => some 0
    match indexOfFrom config.fieldsOpen schema he with
    | none => .error "Invalid PLOON schema: No fields found".toList
    | some fieldsStart =>
      match findMatchingClose schema fieldsStart config.fieldsOpen config.fieldsClose with
      | none => .error "Invalid PLOON schema: Unmatched parentheses".toList
      | some fieldsEnd => do
        let fieldsStr := sliceStr schema (fieldsStart + 1) fieldsEnd
        let fields ← parseFieldsF ((schema.length + 2) * (schema.length + 2)) fieldsStr config
        .ok (.mk rootName count fields)
  | _, _ => .error ("Invalid PLOON schema: ".toList ++ schema)

/-! ## Decoder (tree builder of the decoder source) -/

/-- A parsed record path (`parsePath`): NaN-able depth, `index` is
`none` (outer) for object paths / JS `undefined`, `some none` for an
array path whose index is NaN. -/
structure ParsedPath where
  depth : Option Int
  index : Option (Option Int)
  isObject : Bool
deriving Repr

/-- `parsePath` (decoder lines 80–98): no separator → object path,
otherwise split into depth and index; components go through
`parseInt` and may be NaN.  It never throws. -/
def parsePath (path : Str) (separator : Str) : ParsedPath :=
  let trimmed := trimStr path
  if (indexOfStr separator trimmed).isNone then
    { depth := parseIntJS trimmed, index := none, isObject := true }
  else
    let parts := jsSplitStr separator trimmed
    { depth := parseIntJS (parts.headD [])
      index := some (match parts.get? 1 with
        | some t => parseIntJS t
        | none => none)
      isObject := false }

/-- `parseValueFromUnescaped` (decoder lines 594–616): the decimal
number pattern first, then `null`, `true`, `false`, else the text
itself.  An integer match becomes `vnum`; a match with a fraction part
is kept as the symbolic `vdec` (the source takes `parseFloat`). -/
def parseValueFromUnescaped (value : Str) : Value :=
  let body := match value with
    | '-' :: r => r
    | r => r
  let intPart := body.takeWhile (·.isDigit)
  let rest := body.drop intPart.length
  let isIntLit : Bool := !intPart.isEmpty && rest.isEmpty
  let isDecLit : Bool :=
    !intPart.isEmpty &&
      match rest with
      | '.' :: frac => !frac.isEmpty && frac.all (·.isDigit)
      | _ => false
  if isIntLit then
    .vnum (if value.headD ' ' = '-' then -(digitsVal intPart : Int) else (digitsVal intPart : Int))
  else if isDecLit then .vdec value
  else if value = "null".toList then .vnull
  else if value = "true".toList then .vbool true
  else if value = "false".toList then .vbool false
  else .vstr value

/-- `parseValue` (decoder lines 585–588). -/
def parseValue (value : Str) (config : PloonConfig) : Value :=
  parseValueFromUnescaped (unescapeValue value config)

/-- The decoded-but-not-yet-cleaned tree.  The source stores presence
markers in a bookkeeping key directly on the result object and deletes
it during cleanup; the embedding keeps them in the `dobj` node instead
(they are stored only when non-empty, and read back with an empty-set
default, which this representation matches). -/
inductive DVal where
  | dprim (v : Value)
  | darr (items : List DVal)
  | dobj (fields : List (Str × DVal)) (pm : List Str)

mutual

/-- Forget the bookkeeping: a `DVal` as a plain value. -/
def dvalToValue : DVal → Value
  | .dprim v => v
  | .darr items => .varr (dvalList items)
  | .dobj fs _ => .vobj (dvalFields fs)

def dvalList : List DVal → List Value
  | [] => []
  | x :: xs => dvalToValue x :: dvalList xs

def dvalFields : List (Str × DVal) → List (Str × Value)
  | [] => []
  | (k, v) :: xs => (k, dvalToValue v) :: dvalFields xs

end

/-- JS property assignment on an entry list: overwrite in place if the
key exists, else append. -/
def upsert (fs : List (Str × DVal)) (k : Str) (v : DVal) : List (Str × DVal) :=
  if fs.any (fun kv => kv.1 = k) then
    fs.map (fun kv => if kv.1 = k then (kv.1, v) else kv)
  else fs ++ [(k, v)]

/-- The per-field decoding of a primitive cell (decoder lines 430–444):
a single comma is the empty primitive array; otherwise a primitive
array splits on unescaped commas, and a scalar goes through
`parseValue`. -/
def decodePrimField (f : ParsedField) (rawValue : Str) (config : PloonConfig) : DVal :=
  if f.isPrimitiveArray then
    if rawValue = [','] then .dprim (.varr [])
    else
      .dprim (.varr ((splitEscaped rawValue [','] config.escapeChar).map
        parseValueFromUnescaped))
  else .dprim (parseValue rawValue config)

/-- The primitive-consuming loop of `createObjectFromRecord` (decoder
lines 419–445): one cell per primitive field, stopping when the cells
run out; an empty cell for an optional field means "not present". -/
def consumePrims (config : PloonConfig) :
    List ParsedField → List Str → (List (Str × DVal) × List Str)
  | [], vals => ([], vals)
  | _ :: _, [] => ([], [])
  | f :: fs, v :: vs =>
    if f.isOptional ∧ v = [] then consumePrims config fs vs
    else
      let (entries, rest) := consumePrims config fs vs
      ((f.name, decodePrimField f v config) :: entries, rest)

/-- The empty array/object a complex field is initialized to. -/
def emptyFor (f : ParsedField) : DVal :=
  if f.isArray then .darr [] else .dobj [] []

/-- The marker-consuming loop of `createObjectFromRecord` (decoder lines
468–512): read empty cells as markers for successive optional complex
fields; a non-empty cell (or running out after at least one marker) is
the cutoff after which the remaining fields are initialized empty
pending child data; with no markers at all, no optional field is
created. -/
def consumeMarkers :
    List ParsedField → List Str → Nat → Bool → (List (Str × DVal) × List Str)
  | [], _, _, _ => ([], [])
  | f :: fs, vals, markersRead, hitDataField =>
    if hitDataField then
      let (entries, pm) := consumeMarkers fs vals markersRead true
      ((f.name, emptyFor f) :: entries, pm)
    else
      match vals with
      | v :: vs =>
        if v = [] then
          let (entries, pm) := consumeMarkers fs vs (markersRead + 1) false
          ((f.name, emptyFor f) :: entries, f.name :: pm)
        else
          let (entries, pm) := consumeMarkers fs vals markersRead true
          ((f.name, emptyFor f) :: entries, pm)
      | [] =>
        if markersRead > 0 then
          let (entries, pm) := consumeMarkers fs [] markersRead true
          ((f.name, emptyFor f) :: entries, pm)
        else ([], [])

/-- `createObjectFromRecord` (decoder lines 402–528): primitives first,
then optional-complex markers, then required complex fields initialized
empty; returns the entries and the presence markers. -/
def createObjectFromRecord (record : ScannedRecord) (fields : List ParsedField)
    (config : PloonConfig) : List (Str × DVal) × List Str :=
  let primitiveFields := fields.filter
    (fun f => f.isPrimitiveArray || (¬ f.isArray ∧ ¬ f.isObject))
  let complexFields := fields.filter
    (fun f => ¬ f.isPrimitiveArray ∧ (f.isArray || f.isObject))
  let optionalComplexFields := complexFields.filter (·.isOptional)
  let (primEntries, remaining) := consumePrims config primitiveFields record.values
  let (optEntries, pm) := consumeMarkers optionalComplexFields remaining 0 false
  let obj := (primEntries ++ optEntries).foldl (fun acc kv => upsert acc kv.1 kv.2) []
  let obj := complexFields.foldl
    (fun acc f =>
      if ¬ f.isOptional ∧ ¬ acc.any (fun kv => kv.1 = f.name) then
        acc ++ [(f.name, emptyFor f)]
      else acc) obj
  (obj, pm)

/-! ### Record routing -/

/-- `FieldRecordGroup` (decoder lines 136–143). -/
structure FieldRecordGroup where
  fieldName : Str
  fieldIndex : Nat
  isArray : Bool
  isObject : Bool
  records : List ScannedRecord
  recordIndices : List Nat

/-- The group built from the current batch for field `fieldIdx`. -/
def mkGroup (allFields : List ParsedField) (fieldIdx : Nat)
    (batch : List (ScannedRecord × Nat)) : FieldRecordGroup :=
  match allFields.get? fieldIdx with
  | some f =>
    { fieldName := f.name, fieldIndex := fieldIdx, isArray := f.isArray
      isObject := f.isObject, records := batch.map (·.1)
      recordIndices := batch.map (·.2) }
  | none =>
    { fieldName := [], fieldIndex := fieldIdx, isArray := false
      isObject := false, records := batch.map (·.1)
      recordIndices := batch.map (·.2) }

/-- `buildRoutingMap` (decoder lines 145–220): walk the child records,
cutting a field boundary when the array index fails to keep increasing,
when the record kind flips, or when two object records are adjacent;
batches are handed to the eligible fields in order, and records beyond
the last field are dropped. -/
def buildRoutingMap (childRecords : List (ScannedRecord × Nat))
    (allFields : List ParsedField) (presenceMarkers : List Str)
    (pathSeparator : Str) : List FieldRecordGroup :=
  go childRecords [] (some (-1)) false 0
where
  go : List (ScannedRecord × Nat) → List (ScannedRecord × Nat) →
      Option Int → Bool → Nat → List FieldRecordGroup
    | [], batch, _, _, fieldIdx =>
      if !batch.isEmpty ∧ fieldIdx < allFields.length then
        [mkGroup allFields fieldIdx batch]
      else []
    | item :: rest, batch, lastIndex, lastWasObject, fieldIdx =>
      let parsed := parsePath item.1.path pathSeparator
      let currentIndex : Option Int :=
        match parsed.index with
        | some v => v
        | none => some 0
      let isObject := parsed.isObject
      let fieldBoundary : Bool :=
        (!batch.isEmpty && jleb currentIndex lastIndex)
          || (!batch.isEmpty && (isObject != lastWasObject))
          || (lastWasObject && isObject)
      if fieldBoundary then
        if fieldIdx < allFields.length then
          let g := mkGroup allFields fieldIdx batch
          if fieldIdx + 1 ≥ allFields.length then [g]
          else g :: go rest [item] currentIndex isObject (fieldIdx + 1)
        else []
      else go rest (batch ++ [item]) currentIndex isObject fieldIdx

/-- The per-parent child collection of `buildParentChildMap` (decoder
lines 226–258): scan forward, collecting records one level deeper,
stopping at a sibling or ancestor, skipping deeper descendants. -/
def collectKids (sep : Str) (myDepth : Option Int) :
    List ScannedRecord → Nat → List (ScannedRecord × Nat)
  | [], _ => []
  | r :: rest, j =>
    let d := (parsePath r.path sep).depth
    if jeqb d (jadd1 myDepth) then (r, j) :: collectKids sep myDepth rest (j + 1)
    else if jleb d myDepth then []
    else collectKids sep myDepth rest (j + 1)

/-- The eligible complex fields for routing (decoder lines 332–336):
not primitive arrays, and not marked present-but-empty. -/
def eligibleComplexFields (fields : List ParsedField) (pm : List Str) :
    List ParsedField :=
  (fields.filter (fun f => ¬ f.isPrimitiveArray ∧ (f.isArray || f.isObject))).filter
    (fun f => ¬ pm.contains f.name)

/-- One node of the decoded tree, fuelled.  The source builds the tree
breadth-first, mutating each parent object as its children are routed;
since the routing of one parent's children depends only on that
parent's record position, schema fields and presence markers, the
per-subtree recursion below produces the same tree. -/
def buildNodeF (fuel : Nat) (records : List ScannedRecord) (recIdx : Nat)
    (rec : ScannedRecord) (fields : List ParsedField) (level : Int)
    (config : PloonConfig) : DVal :=
  match fuel with
  | 0 => .dobj [] []
  | fuel + 1 =>
    let sep := config.pathSeparator
    let (objEntries, pm) := createObjectFromRecord rec fields config
    let myDepth := (parsePath rec.path sep).depth
    let kids := collectKids sep myDepth (records.drop (recIdx + 1)) (recIdx + 1)
    let myChildren := kids.filter
      (fun rj => jeqb (parsePath rj.1.path sep).depth (some (level + 1)))
    if myChildren.length = 0 then .dobj objEntries pm
    else
      let complexFields := eligibleComplexFields fields pm
      let routing := buildRoutingMap myChildren complexFields pm sep
      if routing.length = 0 then .dobj objEntries pm
      else
        let entries := routing.foldl (fun acc group =>
          match complexFields.get? group.fieldIndex with
          | none => acc
          | some field =>
            if group.isArray then
              let acc :=
                if acc.any (fun kv => kv.1 = field.name) then acc
                else acc ++ [(field.name, DVal.darr [])]
              let nfields := match field.nested with
                | some ns => ns.fields
                | none => []
              let newItems := (group.records.zip group.recordIndices).map
                (fun (rj : ScannedRecord × Nat) =>
                  if nfields.length = 0 then
                    DVal.dprim (match rj.1.values.head? with
                      | some v0 => parseValue v0 config
                      | none => .vnull)
                  else buildNodeF fuel records rj.2 rj.1 nfields (level + 1) config)
              acc.map (fun kv =>
                if kv.1 = field.name then
                  match kv.2 with
                  | .darr old => (kv.1, DVal.darr (old ++ newItems))
                  | other => (kv.1, other)
                else kv)
            else if group.isObject then
              match field.nested, group.records, group.recordIndices with
              | some ns, r :: _, j :: _ =>
                upsert acc field.name (buildNodeF fuel records j r ns.fields (level + 1) config)
              | _, _, _ => acc
            else acc) objEntries
        .dobj entries pm

mutual

/-- Size of a decoded tree, for the cleanup fuel. -/
def dsize : DVal → Nat
  | .dprim _ => 1
  | .darr items => 1 + dsizeList items
  | .dobj fs _ => 1 + dsizeFields fs

def dsizeList : List DVal → Nat
  | [] => 0
  | x :: xs => dsize x + dsizeList xs

def dsizeFields : List (Str × DVal) → Nat
  | [] => 0
  | (_, v) :: xs => dsize v + dsizeFields xs

end

/-- `Array.isArray` on a decoded value. -/
def dvIsArray : DVal → Bool
  | .darr _ => true
  | .dprim (.varr _) => true
  | _ => false

/-- The element count of a decoded array value. -/
def dvArrLen : DVal → Nat
  | .darr items => items.length
  | .dprim (.varr xs) => xs.length
  | _ => 0

/-- `cleanupOptionalFields` (decoder lines 534–580), fuelled: recurse
into complex schema fields, then delete optional complex fields that
ended empty without a presence marker; everything else converts
untouched. -/
def cleanupF (fuel : Nat) (fields : List ParsedField)
    (entries : List (Str × DVal)) (pm : List Str) : List (Str × Value) :=
  match fuel with
  | 0 => []
  | fuel + 1 =>
    entries.filterMap (fun (kv : Str × DVal) =>
      match fields.find? (fun f => f.name = kv.1) with
      | none => some (kv.1, dvalToValue kv.2)
      | some f =>
        if f.isArray ∧ ¬ f.isPrimitiveArray ∧ dvIsArray kv.2 then
          let cleanedItems :=
            match f.nested, kv.2 with
            | some ns, .darr items =>
              items.map (fun it =>
                match it with
                | .dobj gf gpm => Value.vobj (cleanupF fuel ns.fields gf gpm)
                | other => dvalToValue other)
            | _, .darr items => items.map dvalToValue
            | _, .dprim (.varr xs) => xs
            | _, _ => []
          if f.isOptional ∧ dvArrLen kv.2 = 0 ∧ ¬ pm.contains kv.1 then none
          else some (kv.1, Value.varr cleanedItems)
        else
          match kv.2 with
          | .dobj gf gpm =>
            if f.isObject then
              let cleaned :=
                match f.nested with
                | some ns => cleanupF fuel ns.fields gf gpm
                | none => dvalFields gf
              if f.isOptional ∧ cleaned.length = 0 ∧ ¬ pm.contains kv.1 then none
              else some (kv.1, Value.vobj cleaned)
            else some (kv.1, dvalToValue kv.2)
          | _ => some (kv.1, dvalToValue kv.2))

/-- `buildTree` (decoder lines 264–396): every depth-1 array record
becomes a root object, each built with the root schema fields and its
routed descendants, then the cleanup pass runs. -/
def buildTree (records : List ScannedRecord) (schema : ParsedSchema)
    (config : PloonConfig) : List Value :=
  let fuel := records.length + 1
  let roots := records.enum.filterMap (fun (p : Nat × ScannedRecord) =>
    let parsed := parsePath p.2.path config.pathSeparator
    if jeqb parsed.depth (some 1) ∧ ¬ parsed.isObject then some p else none)
  roots.map (fun (p : Nat × ScannedRecord) =>
    match buildNodeF fuel records p.1 p.2 schema.fields 1 config with
    | .dobj fs pm => Value.vobj (cleanupF (dsize (.dobj fs pm) + 1) schema.fields fs pm)
    | other => dvalToValue other)

/-- `decode` (decoder lines 103–131): scan, read the schema, build the
tree, and wrap it under the root name. -/
def decode (ploonString : Str) (config : PloonConfig) : Except Str Value := do
  let (schema, records) ← scan ploonString config
  let parsedSchema ← parseSchema schema config
  .ok (.vobj [(parsedSchema.rootName, .varr (buildTree records parsedSchema config))])

/-! ## Minify / prettify / validate (`core/minify.ts`, `prettify.ts`,
`core/validate.ts`) -/

/-- `minify`: drop blank lines, join with semicolons, strip one trailing
semicolon. -/
def dropTrailingSemi (minified : Str) : Str :=
  if minified.getLast? = some ';' then minified.dropLast else minified

/-- The non-blank lines of `minify` (its `nonEmptyLines`). -/
def minifyKeptLines (ploonString : Str) : List Str :=
  (jsSplitChar '\n' ploonString).filter (fun l => (trimStr l).length > 0)

def minify (ploonString : Str) : Str :=
  dropTrailingSemi (joinSep [';'] (minifyKeptLines ploonString))

/-- `prettify`: split on semicolons; fewer than two pieces is returned
unchanged; else the first piece is the schema, followed by a blank line
and the newline-joined rest. -/
def prettify (ploonString : Str) : Str :=
  let parts := jsSplitChar ';' ploonString
  if parts.length < 2 then ploonString
  else
    match parts with
    | schema :: records => schema ++ '\n' :: '\n' :: joinSep ['\n'] records
    | [] => ploonString

/-- `ValidationResult` of `types.ts`. -/
structure ValidationResult where
  valid : Bool
  errors : List Str
  warnings : List Str

/-- `validate` (core/validate.ts lines 26–69). -/
def validate (ploonString : Str) (config : PloonConfig) : ValidationResult :=
  match scan ploonString config with
  | .error msg => { valid := false, errors := [msg], warnings := [] }
  | .ok (schema, records) =>
    let schemaErrors := if schema = [] then ["No schema found".toList] else []
    let recordWarnings :=
      if records.length = 0 then ["No records found".toList] else []
    let schemaParseErrors :=
      match parseSchema schema config with
      | .error m => [("Schema parsing failed: ".toList ++ m)]
      | .ok _ => []
    let paths := records.map (·.path)
    let uniquePaths := paths.foldl insertSet []
    let dupWarnings :=
      if paths.length ≠ uniquePaths.length then ["Duplicate paths found".toList] else []
    let errors := schemaErrors ++ schemaParseErrors
    { valid := errors.length = 0, errors := errors
      warnings := recordWarnings ++ dupWarnings }

/-! # Claim theorems -/

/-! ## C1 — round-trip law -/

/-- A value tree inside the class of claim C1: one root key, an array of
uniform-shape objects, a plain string value (not null/true/false, not
purely numeric) — but the string ends in a space. -/
def c1Input : Value :=
  .vobj [("r".toList, .varr [.vobj [("a".toList, .vstr "x ".toList)]])]

/-- What the pipeline actually returns for `c1Input`: the scanner trims
every record line, so the trailing space of the final cell is lost. -/
def c1Decoded : Value :=
  .vobj [("r".toList, .varr [.vobj [("a".toList, .vstr "x".toList)]])]

/-- C1.  The round-trip law fails on the code for a value tree inside
the claimed class: for `r = [ (a : "x ") ]` (a non-null string that is
not "null"/"true"/"false" and not purely numeric, in a uniform
one-object array), `decode (encode v)` returns the tree with `"x"`
instead of `"x "` — `scan` trims each record line, so a trailing space
in a record's final cell is destroyed.  The spec's round-trip law (§8)
and the repository's own round-trip test (`parse(stringify(data)) ===
data`) say the value must come back unchanged. -/
theorem c1_roundtrip_trailing_space_lost :
    (encode c1Input PLOON_STANDARD).bind (fun s => decode s PLOON_STANDARD)
        = .ok c1Decoded
      ∧ veq c1Decoded c1Input = false := by
  exact ⟨by rfl, by rfl⟩

/-! ## C3 — presence-marker round-trip -/

/-- An object array whose schema classifies `c` as an optional complex
array (the schema generator prefers the non-empty representative
`[ (x : 2) ]` of the second element), while `c` is explicitly `[]` in
the first element. -/
def c3Input : Value :=
  .vobj [("r".toList, .varr
    [ .vobj [("a".toList, .vnum 1), ("c".toList, .varr [])]
    , .vobj [("a".toList, .vnum 2), ("c".toList, .varr [.vobj [("x".toList, .vnum 2)]])]])]

/-- What the pipeline actually returns for `c3Input`: the key `c`
disappears from both elements. -/
def c3Decoded : Value :=
  .vobj [("r".toList, .varr
    [ .vobj [("a".toList, .vnum 1)]
    , .vobj [("a".toList, .vnum 2)]])]

/-- The schema header generated for `c3Input` declares `c` an optional
complex array field. -/
theorem c3_schema_declares_c_complex :
    generateSchema c3Input PLOON_STANDARD
      = .ok ("[r#2](a,c?#1(x))".toList) := by
  rfl

/-- C3.  Presence-marker round-trip fails on the code: in `c3Input` the
optional complex array field `c` is explicitly `[]` in the first
element, but after `encode` then `decode` the key `c` is not present at
all (and the second element's `c` data is lost too).  The encoder
classifies `c` from its *first present* value (`[]`, hence an inline
primitive array producing a `","` cell and no child records), while the
schema generator prefers the *non-empty* representative (declaring `c`
an optional complex array), so the decoder reads the `","` cell as a
data cutoff, records no presence marker, and the cleanup pass deletes
the field. -/
theorem c3_presence_marker_lost :
    (encode c3Input PLOON_STANDARD).bind (fun s => decode s PLOON_STANDARD)
        = .ok c3Decoded
      ∧ (arrItems ((lookupV c3Input "r".toList).getD .vnull)).headD .vnull
          = .vobj [("a".toList, .vnum 1), ("c".toList, .varr [])]
      ∧ (arrItems ((lookupV c3Decoded "r".toList).getD .vnull)).headD .vnull
          = .vobj [("a".toList, .vnum 1)] := by
  exact ⟨by rfl, by rfl, by rfl⟩

/-! ## C8 — malformed path tokens -/

/-- C8 counterexample.  A document whose record carries the malformed
path token `foo:bar` (non-numeric depth and index): `decode` does not
raise any error — `parsePath` parses the components with `parseInt`,
gets NaN, and the record is silently ignored, so `decode` returns the
value tree `(r : [])`. -/
theorem c8_malformed_path_no_error :
    decode "[r#1](a)\n\nfoo:bar|1".toList PLOON_STANDARD
      = .ok (.vobj [("r".toList, .varr [])]) := by
  rfl

/-- C8 amended.  Records whose parsed path is not an array path of depth
1 never become root objects; when every record is such (in particular
when every path is malformed, i.e. parses to NaN), the tree builder
returns the empty list — no error is raised and no record contributes. -/
theorem c8_malformed_paths_ignored
    (records : List ScannedRecord) (schema : ParsedSchema) (config : PloonConfig)
    (h : ∀ r ∈ records,
      jeqb (parsePath r.path config.pathSeparator).depth (some 1) = false
        ∨ (parsePath r.path config.pathSeparator).isObject = true) :
    buildTree records schema config = [] := by
  unfold buildTree
  have hroots :
      records.enum.filterMap (fun (p : Nat × ScannedRecord) =>
        let parsed := parsePath p.2.path config.pathSeparator
        if jeqb parsed.depth (some 1) ∧ ¬ parsed.isObject then some p else none) = [] := by
    rw [List.filterMap_eq_nil_iff]
    intro p hp
    have hmem : p.2 ∈ records := List.snd_mem_of_mem_enum hp
    rcases h p.2 hmem with h1 | h1
    · simp only [h1, Bool.false_eq_true, false_and, if_false]
    · simp only [h1, not_true_eq_false, and_false, if_false]
  rw [hroots]
  rfl

/-- Witness for `c8_malformed_paths_ignored` at a concrete record list
with a malformed path. -/
theorem c8_malformed_paths_ignored_witness :
    buildTree [⟨"foo:bar".toList, ["1".toList]⟩]
        (.mk "r".toList (some 1) []) PLOON_STANDARD = [] := by
  apply c8_malformed_paths_ignored
  intro r hr
  simp only [List.mem_singleton] at hr
  subst hr
  left
  rfl

/-! ## C10 — output shape of the public pipeline -/

/-- C10 counterexample.  `encode` applied to an object with no
array-valued property does not wrap-and-encode it: `generateSchema` is
called first and throws, so no such input can "decode back as a
one-element list". -/
theorem c10_encode_rejects_arrayless :
    encode (.vobj [("a".toList, .vnum 1)]) PLOON_STANDARD
      = .error "Data must contain at least one array to generate PLOON schema".toList := by
  rfl

/-- C10 amended.  (i) Whenever `decode` succeeds its value is a map with
exactly one key — the root name of the parsed schema header — holding a
list.  (ii) But `encode` never gets to wrap array-less data: whenever
the schema generator's root-array search fails, `encode` throws its
error (the auto-wrapping `findRootArrayEnc` is unreachable for such
inputs). -/
theorem c10_decode_shape_encode_throws :
    (∀ (input : Str) (config : PloonConfig) (v : Value),
       decode input config = .ok v →
       ∃ (sch : Str) (records : List ScannedRecord) (ps : ParsedSchema),
         scan input config = .ok (sch, records)
           ∧ parseSchema sch config = .ok ps
           ∧ v = .vobj [(ps.rootName, .varr (buildTree records ps config))])
    ∧ (∀ (data : Value) (config : PloonConfig),
        (findRootArrayS data).2 = none →
        encode data config
          = .error "Data must contain at least one array to generate PLOON schema".toList) := by
  constructor
  · intro input config v hdec
    unfold decode at hdec
    cases hscan : scan input config with
    | error e =>
      rw [hscan] at hdec
      simp only [Bind.bind, Except.bind] at hdec
      exact Except.noConfusion hdec
    | ok sr =>
      obtain ⟨sch, records⟩ := sr
      rw [hscan] at hdec
      simp only [Bind.bind, Except.bind] at hdec
      cases hps : parseSchema sch config with
      | error e =>
        rw [hps] at hdec
        exact Except.noConfusion hdec
      | ok ps =>
        rw [hps] at hdec
        simp only [Except.ok.injEq] at hdec
        exact ⟨sch, records, ps, rfl, hps, hdec.symm⟩
  · intro data config hroot
    unfold encode generateSchema
    rcases hfr : findRootArrayS data with ⟨name, arrOpt⟩
    rw [hfr] at hroot
    simp only at hroot
    subst hroot
    simp only [Bind.bind, Except.bind]

/-- Witness for `c10_decode_shape_encode_throws`: the decode branch at a
concrete document, the encode branch at a bare primitive. -/
theorem c10_decode_shape_encode_throws_witness :
    (∃ (sch : Str) (records : List ScannedRecord) (ps : ParsedSchema),
       scan "[r#1](a)\n\n1:1|7".toList PLOON_STANDARD = .ok (sch, records)
         ∧ parseSchema sch PLOON_STANDARD = .ok ps
         ∧ (.vobj [("r".toList, .varr [.vobj [("a".toList, .vnum 7)]])] : Value)
             = .vobj [(ps.rootName, .varr (buildTree records ps PLOON_STANDARD))])
    ∧ encode (.vobj [("b".toList, .vbool true)]) PLOON_STANDARD
        = .error "Data must contain at least one array to generate PLOON schema".toList := by
  constructor
  · exact c10_decode_shape_encode_throws.1 _ PLOON_STANDARD _ (by rfl)
  · exact c10_decode_shape_encode_throws.2 _ PLOON_STANDARD (by rfl)

/-! ## C6 — idempotence of minify / prettify -/

/-- A character split never returns the empty list of pieces. -/
theorem jsSplitChar_ne_nil (c : Char) (s : Str) : jsSplitChar c s ≠ [] := by
  cases s with
  | nil => simp [jsSplitChar]
  | cons d rest =>
    simp only [jsSplitChar]
    by_cases hd : d = c
    · simp [hd]
    · simp only [if_neg hd]
      cases jsSplitChar c rest <;> simp

/-- No piece of a character split contains the separator. -/
theorem jsSplitChar_not_mem (c : Char) (s : Str) :
    ∀ p ∈ jsSplitChar c s, c ∉ p := by
  induction s with
  | nil =>
    intro p hp
    simp only [jsSplitChar, List.mem_singleton] at hp
    subst hp; simp
  | cons d rest ih =>
    intro p hp
    simp only [jsSplitChar] at hp
    by_cases hd : d = c
    · simp only [hd, eq_self_iff_true, if_true, List.mem_cons] at hp
      rcases hp with h | h
      · subst h; simp
      · exact ih p h
    · simp only [if_neg hd] at hp
      cases hr : jsSplitChar c rest with
      | nil => exact absurd hr (jsSplitChar_ne_nil c rest)
      | cons h0 t =>
        rw [hr] at hp
        rcases List.mem_cons.mp hp with h | h
        · subst h
          intro hmem
          rcases List.mem_cons.mp hmem with h1 | h1
          · exact hd h1.symm
          · exact ih h0 (by rw [hr]; exact List.mem_cons_self _ _) h1
        · exact ih p (by rw [hr]; exact List.mem_cons_of_mem _ h)

/-- A split on an absent separator is the whole string. -/
theorem jsSplitChar_of_not_mem (c : Char) : ∀ (s : Str), c ∉ s → jsSplitChar c s = [s] := by
  intro s
  induction s with
  | nil => intro _; rfl
  | cons d rest ih =>
    intro h
    simp only [List.mem_cons, not_or] at h
    simp only [jsSplitChar, if_neg (fun hh => h.1 hh.symm : ¬ d = c), ih h.2]

/-- Joining pieces free of `c` with a separator other than `c` stays
free of `c`. -/
theorem joinSep_not_mem (c sep : Char) (hne : c ≠ sep) :
    ∀ parts : List Str, (∀ p ∈ parts, c ∉ p) → c ∉ joinSep [sep] parts := by
  intro parts
  induction parts with
  | nil => intro _; simp [joinSep]
  | cons x xs ih =>
    intro hall
    cases xs with
    | nil => simpa [joinSep] using hall x (by simp)
    | cons y ys =>
      simp only [joinSep, List.append_assoc]
      intro hmem
      rcases List.mem_append.mp hmem with h | h
      · exact hall x (by simp) h
      · rcases List.mem_append.mp h with h1 | h1
        · simp only [List.mem_singleton] at h1; exact hne h1
        · exact ih (fun p hp => hall p (List.mem_cons_of_mem _ hp)) h1

/-- The newline never survives `minify`. -/
theorem minify_no_newline (x : Str) : '\n' ∉ minify x := by
  have hjoin : '\n' ∉ joinSep [';'] (minifyKeptLines x) := by
    apply joinSep_not_mem '\n' ';' (by decide)
    intro p hp
    exact jsSplitChar_not_mem '\n' x p (List.mem_of_mem_filter hp)
  unfold minify dropTrailingSemi
  split
  · intro hmem; exact hjoin (List.dropLast_subset _ hmem)
  · exact hjoin

/-- A string already free of newlines, with some non-whitespace content
and no trailing semicolon, is a fixed point of `minify`. -/
theorem minify_fixed (m : Str) (hn : '\n' ∉ m) (ht : trimStr m ≠ [])
    (he : m.getLast? ≠ some ';') : minify m = m := by
  have hkept : minifyKeptLines m = [m] := by
    unfold minifyKeptLines
    rw [jsSplitChar_of_not_mem '\n' m hn]
    have : (decide ((trimStr m).length > 0)) = true := by
      cases h : trimStr m with
      | nil => exact absurd h ht
      | cons a b => simp
    simp [List.filter_cons, this]
  unfold minify
  rw [hkept]
  have hj : joinSep [';'] [m] = m := rfl
  rw [hj]
  unfold dropTrailingSemi
  rw [if_neg he]

/-- A string free of semicolons is a fixed point of `prettify`. -/
theorem prettify_of_no_semi (s : Str) (h : ';' ∉ s) : prettify s = s := by
  unfold prettify
  rw [jsSplitChar_of_not_mem ';' s h]
  simp

/-- C6 counterexample: a document the library itself validates, on which
`minify` is not idempotent — its record line ends in two semicolons, and
each `minify` application strips one. -/
theorem c6_minify_not_idempotent :
    (validate "[r#1](a)\n\n1:1|v;;".toList PLOON_STANDARD).valid = true
      ∧ minify (minify "[r#1](a)\n\n1:1|v;;".toList)
          ≠ minify "[r#1](a)\n\n1:1|v;;".toList := by
  refine ⟨by rfl, fun h => ?_⟩
  rw [show minify (minify "[r#1](a)\n\n1:1|v;;".toList) = "[r#1](a);1:1|v".toList from rfl,
      show minify "[r#1](a)\n\n1:1|v;;".toList = "[r#1](a);1:1|v;".toList from rfl] at h
  exact absurd h (by decide)

/-- C6 amended.  `prettify` is idempotent on every input.  `minify` is
idempotent on every input whose minified form does not end in a
semicolon and is empty or has non-whitespace content (both always true
of well-formed documents whose last record line does not end in `;;`);
in general each application strips one trailing semicolon. -/
theorem c6_idempotence (x : Str) :
    prettify (prettify x) = prettify x
      ∧ ((minify x).getLast? ≠ some ';' →
          (minify x = [] ∨ trimStr (minify x) ≠ []) →
          minify (minify x) = minify x) := by
  constructor
  · by_cases hlen : (jsSplitChar ';' x).length < 2
    · have hx : prettify x = x := by
        unfold prettify
        simp only [if_pos hlen]
      rw [hx]
      exact hx
    · cases hpx : jsSplitChar ';' x with
      | nil => exact absurd hpx (jsSplitChar_ne_nil ';' x)
      | cons schema records =>
        have hpre : prettify x = schema ++ '\n' :: '\n' :: joinSep ['\n'] records := by
          unfold prettify
          rw [hpx]
          rw [if_neg (by rw [hpx] at hlen; exact hlen)]
        have hfree : ';' ∉ prettify x := by
          rw [hpre]
          intro hmem
          have hpieces := jsSplitChar_not_mem ';' x
          rcases List.mem_append.mp hmem with h | h
          · exact hpieces schema (by rw [hpx]; exact List.mem_cons_self _ _) h
          · rcases List.mem_cons.mp h with h1 | h1
            · exact absurd h1 (by decide)
            · rcases List.mem_cons.mp h1 with h2 | h2
              · exact absurd h2 (by decide)
              · exact joinSep_not_mem ';' '\n' (by decide) records
                  (fun p hp => hpieces p (by rw [hpx]; exact List.mem_cons_of_mem _ hp)) h2
        exact prettify_of_no_semi _ hfree
  · intro hend hne
    rcases hne with hnil | htrim
    · rw [hnil]; rfl
    · exact minify_fixed (minify x) (minify_no_newline x) htrim hend

/-- Witness for `c6_idempotence` at a concrete document. -/
theorem c6_idempotence_witness :
    prettify (prettify "[r#1](a)\n\n1:1|v".toList) = prettify "[r#1](a)\n\n1:1|v".toList
      ∧ minify (minify "[r#1](a)\n\n1:1|v".toList) = minify "[r#1](a)\n\n1:1|v".toList := by
  refine ⟨(c6_idempotence "[r#1](a)\n\n1:1|v".toList).1,
    (c6_idempotence "[r#1](a)\n\n1:1|v".toList).2 ?_ ?_⟩
  · intro h
    rw [show minify "[r#1](a)\n\n1:1|v".toList = "[r#1](a);1:1|v".toList from rfl] at h
    exact absurd h (by decide)
  · right
    intro h
    rw [show trimStr (minify "[r#1](a)\n\n1:1|v".toList) = "[r#1](a);1:1|v".toList from rfl] at h
    exact absurd h (by decide)

/-! ## C4 — primitive-array cell triple state -/

/-- The element encoding of `formatPrimitiveArray`. -/
def primElemCell (config : PloonConfig) (item : Value) : Str :=
  match item with
  | .vnull => []
  | v => escapeValue (jsToString v) config

/-- C4.  The primitive-array cell obeys the documented triple state, and
null elements are kept or dropped per `preserveEmptyFields`:
(0) a field that some object of the array carries and another lacks is
classified optional, so (1) applies to it: (1) an optional field absent
from the object encodes as the empty cell; (2) a present empty array
encodes as the single comma; (3) a present non-empty array encodes via
`formatPrimitiveArray`; (4) there a null element becomes an empty
element that is kept when `preserveEmptyFields` is true and dropped when
it is false; (5) on decode a `","` cell restores the empty array and any
other cell splits on unescaped commas into its elements. -/
theorem c4_primitive_array_triple_state :
    (∀ (objects : List Value) (key : Str) (o : Value), o ∈ objects →
       key ∉ keysOf o → fieldCount objects key ≠ 0 →
       (analyzeFields objects key).getD false = true)
    ∧ (∀ (f : SchemaField) (obj : Value) (config : PloonConfig),
        f.isOptional = true → lookupV obj f.name = none →
        primCell f obj config = [])
    ∧ (∀ (f : SchemaField) (obj : Value) (config : PloonConfig),
        f.type = FT.fprimitiveArray → lookupV obj f.name = some (.varr []) →
        primCell f obj config = [','])
    ∧ (∀ (f : SchemaField) (obj : Value) (config : PloonConfig) (items : List Value),
        f.type = FT.fprimitiveArray → lookupV obj f.name = some (.varr items) →
        items ≠ [] →
        primCell f obj config
          = formatPrimitiveArray items config config.preserveEmptyFields)
    ∧ (∀ (a b : List Value) (config : PloonConfig),
        formatPrimitiveArray (a ++ .vnull :: b) config true
            = joinSep [','] (a.map (primElemCell config) ++ [] :: b.map (primElemCell config))
          ∧ formatPrimitiveArray (a ++ .vnull :: b) config false
              = formatPrimitiveArray (a ++ b) config false)
    ∧ (∀ (f : ParsedField) (config : PloonConfig) (raw : Str),
        f.isPrimitiveArray = true →
        decodePrimField f [','] config = .dprim (.varr [])
          ∧ (raw ≠ [','] →
             decodePrimField f raw config
               = .dprim (.varr ((splitEscaped raw [','] config.escapeChar).map
                   parseValueFromUnescaped)))) := by
  refine ⟨?_, ?_, ?_, ?_, ?_, ?_⟩
  · intro objects key o ho habs hcnt
    have hlt : fieldCount objects key < objects.length := by
      have hle : fieldCount objects key ≤ objects.length := List.countP_le_length _
      rcases lt_or_eq_of_le hle with h | h
      · exact h
      · exfalso
        have hall := (List.countP_eq_length).mp h o ho
        simp only [decide_eq_true_eq] at hall
        exact habs hall
    unfold analyzeFields
    rw [if_neg hcnt]
    simp [hlt]
  · intro f obj config hopt habs
    unfold primCell
    rw [habs, hopt]
    simp
  · intro f obj config htype hlook
    unfold primCell
    rw [hlook, htype]
    rw [if_neg (by simp)]
    rw [if_pos (by simp [isArrV])]
    simp [arrItems]
  · intro f obj config items htype hlook hne
    unfold primCell
    rw [hlook, htype]
    rw [if_neg (by simp)]
    rw [if_pos (by simp [isArrV])]
    rw [if_neg (by simp [arrItems, List.length_eq_zero, hne])]
    simp [arrItems]
  · intro a b config
    constructor
    · unfold formatPrimitiveArray
      simp only [if_true, List.map_append, List.map_cons]
      rfl
    · unfold formatPrimitiveArray
      simp only [Bool.false_eq_true, if_false, List.map_append, List.map_cons,
        List.filter_append, List.filter_cons]
      simp
  · intro f config raw hprim
    constructor
    · unfold decodePrimField
      rw [hprim]
      simp
    · intro hne
      unfold decodePrimField
      rw [hprim]
      simp only [if_true]
      rw [if_neg hne]

/-- Witness for `c4_primitive_array_triple_state` at concrete fields,
objects and cells. -/
theorem c4_primitive_array_triple_state_witness :
    ((analyzeFields [.vobj [("t".toList, .varr [])], .vobj []] "t".toList).getD false = true)
      ∧ primCell ⟨"t".toList, FT.fprimitiveArray, true, none⟩ (.vobj []) PLOON_STANDARD = []
      ∧ primCell ⟨"t".toList, FT.fprimitiveArray, true, none⟩
          (.vobj [("t".toList, .varr [])]) PLOON_STANDARD = [',']
      ∧ primCell ⟨"t".toList, FT.fprimitiveArray, false, none⟩
          (.vobj [("t".toList, .varr [.vnum 5])]) PLOON_STANDARD
          = formatPrimitiveArray [.vnum 5] PLOON_STANDARD true
      ∧ formatPrimitiveArray [.vstr "a".toList, .vnull, .vstr "b".toList] PLOON_STANDARD true
          = joinSep [','] (["a".toList] ++ [] :: ["b".toList])
      ∧ formatPrimitiveArray [.vstr "a".toList, .vnull, .vstr "b".toList] PLOON_STANDARD false
          = formatPrimitiveArray [.vstr "a".toList, .vstr "b".toList] PLOON_STANDARD false
      ∧ decodePrimField (.mk "t".toList true false true false none) [','] PLOON_STANDARD
          = .dprim (.varr [])
      ∧ decodePrimField (.mk "t".toList true false true false none) "x\\,y,z".toList PLOON_STANDARD
          = .dprim (.varr ((splitEscaped "x\\,y,z".toList [','] ['\\']).map
              parseValueFromUnescaped)) := by
  refine ⟨?_, ?_, ?_, ?_, ?_, ?_, ?_, ?_⟩
  · exact c4_primitive_array_triple_state.1
      [.vobj [("t".toList, .varr [])], .vobj []] "t".toList (.vobj [])
      (by simp) (by simp [keysOf, objFields]) (by decide)
  · exact c4_primitive_array_triple_state.2.1 _ _ _ rfl rfl
  · exact c4_primitive_array_triple_state.2.2.1 _ _ _ rfl rfl
  · exact c4_primitive_array_triple_state.2.2.2.1 _ _ _ _ rfl rfl (by simp)
  · exact ((c4_primitive_array_triple_state.2.2.2.2.1
      [.vstr "a".toList] [.vstr "b".toList] PLOON_STANDARD).1 : _)
  · exact (c4_primitive_array_triple_state.2.2.2.2.1
      [.vstr "a".toList] [.vstr "b".toList] PLOON_STANDARD).2
  · exact (c4_primitive_array_triple_state.2.2.2.2.2 (.mk "t".toList true false true false none) PLOON_STANDARD [] rfl).1
  · exact (c4_primitive_array_triple_state.2.2.2.2.2 (.mk "t".toList true false true false none) PLOON_STANDARD "x\\,y,z".toList rfl).2 (by decide)

/-! ## C7 — escaping round trip

The four escape passes each prefix the escape character to every
occurrence of one target character; over single-character delimiters the
whole of `escapeValue` is therefore a per-character encoding
(`encChar`), and each unescape pass removes one target's escape prefix.
-/

/-- Per-character concatenation map. -/
def cmap (f : Char → Str) : Str → Str
  | [] => []
  | c :: s => f c ++ cmap f s

/-- The per-character encoding realised by `escapeValue`: specials get
the escape prefix. -/
def encChar (esc : Char) (specials : List Char) (c : Char) : Str :=
  if c ∈ specials then [esc, c] else [c]

theorem cmap_append (f : Char → Str) (a b : Str) :
    cmap f (a ++ b) = cmap f a ++ cmap f b := by
  induction a with
  | nil => rfl
  | cons c rest ih => simp [cmap, ih]

theorem cmap_congr (f g : Char → Str) (h : ∀ c, f c = g c) (s : Str) :
    cmap f s = cmap g s := by
  induction s with
  | nil => rfl
  | cons c rest ih => simp [cmap, h c, ih]

theorem cmap_cmap (f g : Char → Str) (s : Str) :
    cmap f (cmap g s) = cmap (fun c => cmap f (g c)) s := by
  induction s with
  | nil => rfl
  | cons c rest ih => simp [cmap, cmap_append, ih]

/-- A single-character global replace is a per-character map. -/
theorem replaceSub_single (t : Char) (repl : Str) (s : Str) :
    replaceSub [t] repl s = cmap (fun c => if c = t then repl else [c]) s := by
  show replaceSub.go repl t [] 0 s = _
  induction s with
  | nil => rfl
  | cons c rest ih =>
    by_cases hc : c = t
    · subst hc
      simp only [replaceSub.go, cmap, if_pos rfl]
      rw [if_pos (by simp [List.isPrefixOf])]
      simp only [List.length_nil]
      rw [ih]
      simp
    · simp only [replaceSub.go, cmap]
      rw [if_neg (by simp [List.isPrefixOf]; intro h; exact absurd h.symm hc), ih,
        if_neg hc]
      rfl

/-- Nothing encodes to the empty string. -/
theorem cmap_encChar_eq_nil (esc : Char) (specials : List Char) :
    ∀ s, cmap (encChar esc specials) s = [] → s = [] := by
  intro s h
  cases s with
  | nil => rfl
  | cons c s' =>
    exfalso
    simp only [cmap, encChar] at h
    by_cases hc : c ∈ specials
    · rw [if_pos hc] at h; simp at h
    · rw [if_neg hc] at h; simp at h

/-- An unescape pass (`esc t → t`) undoes the encoding of `t`,
leaving the other specials encoded. -/
theorem replaceSub_unescape_pass (esc t : Char) (specials specials' : List Char)
    (hesc : esc ∈ specials) (ht : t ∈ specials) (hte : t ≠ esc)
    (hsp : ∀ c, c ∈ specials' ↔ (c ∈ specials ∧ c ≠ t)) :
    ∀ s, replaceSub [esc, t] [t] (cmap (encChar esc specials) s)
      = cmap (encChar esc specials') s := by
  have hhead : ∀ s y rest, cmap (encChar esc specials) s = y :: rest →
      (y = esc ∨ y ∉ specials) := by
    intro s y rest h
    cases s with
    | nil => exact absurd h (by simp [cmap])
    | cons c s' =>
      simp only [cmap, encChar] at h
      by_cases hc : c ∈ specials
      · rw [if_pos hc] at h
        simp only [List.cons_append, List.cons.injEq] at h
        exact Or.inl h.1.symm
      · rw [if_neg hc] at h
        simp only [List.cons_append, List.nil_append, List.cons.injEq] at h
        exact Or.inr (h.1 ▸ hc)
  have hstep : ∀ (x : Char) (T : Str), x ≠ esc →
      replaceSub.go [t] esc [t] 0 (x :: T)
        = x :: replaceSub.go [t] esc [t] 0 T := by
    intro x T hx
    cases T with
    | nil =>
      simp only [replaceSub.go]
      rw [if_neg (by simp [List.isPrefixOf])]
    | cons y R =>
      simp only [replaceSub.go]
      rw [if_neg (by
        simp only [List.isPrefixOf, Bool.and_eq_true, beq_iff_eq, List.isPrefixOf_nil_left,
          and_true]
        intro h
        exact absurd h.1.symm hx)]
  have hstepEsc : ∀ (T : Str), (∀ y rest, T = y :: rest → y ≠ t) →
      replaceSub.go [t] esc [t] 0 (esc :: T)
        = esc :: replaceSub.go [t] esc [t] 0 T := by
    intro T hT
    cases T with
    | nil =>
      simp only [replaceSub.go]
      rw [if_neg (by simp [List.isPrefixOf])]
    | cons y R =>
      have hy : y ≠ t := hT y R rfl
      simp only [replaceSub.go]
      rw [if_neg (by
        simp only [List.isPrefixOf, Bool.and_eq_true, beq_iff_eq, List.isPrefixOf_nil_left,
          and_true]
        intro h
        exact absurd h.2.symm hy)]
  intro s
  show replaceSub.go [t] esc [t] 0 (cmap (encChar esc specials) s)
    = cmap (encChar esc specials') s
  induction s with
  | nil => rfl
  | cons c s' ih =>
    have hheadT : ∀ y rest, cmap (encChar esc specials) s' = y :: rest → y ≠ t := by
      intro y rest h
      rcases hhead s' y rest h with h1 | h1
      · exact h1 ▸ (Ne.symm hte)
      · intro hyt
        exact h1 (hyt ▸ ht)
    simp only [cmap, encChar]
    by_cases hc : c ∈ specials
    · rw [if_pos hc]
      by_cases hct : c = t
      · -- the target: encoded [esc, t], unescaped back to [t]
        rw [hct]
        simp only [List.cons_append, List.nil_append]
        rw [show replaceSub.go [t] esc [t] 0
              (esc :: t :: cmap (encChar esc specials) s')
            = [t] ++ replaceSub.go [t] esc [t] 1
                (t :: cmap (encChar esc specials) s') from by
          simp only [replaceSub.go]
          rw [if_pos (by simp [List.isPrefixOf])]]
        rw [show replaceSub.go [t] esc [t] 1
              (t :: cmap (encChar esc specials) s')
            = replaceSub.go [t] esc [t] 0 (cmap (encChar esc specials) s') from rfl]
        rw [ih, if_neg (fun h => ((hsp t).mp h).2 rfl)]
      · by_cases hce : c = esc
        · -- a literal escape char, encoded [esc, esc]: both survive
          rw [hce]
          have hct' : esc ≠ t := fun h => hct (hce.trans h)
          simp only [List.cons_append, List.nil_append]
          rw [show replaceSub.go [t] esc [t] 0
                (esc :: esc :: cmap (encChar esc specials) s')
              = esc :: replaceSub.go [t] esc [t] 0
                  (esc :: cmap (encChar esc specials) s') from by
            simp only [replaceSub.go]
            rw [if_neg (by
              simp only [List.isPrefixOf, Bool.and_eq_true, beq_iff_eq,
                List.isPrefixOf_nil_left, and_true]
              intro h
              exact absurd h.2.symm hct')]]
          rw [hstepEsc _ hheadT, ih,
            if_pos ((hsp esc).mpr ⟨hce ▸ hc, hct'⟩)]
          rfl
        · -- another special, encoded [esc, c]: both survive
          simp only [List.cons_append, List.nil_append]
          rw [show replaceSub.go [t] esc [t] 0
                (esc :: c :: cmap (encChar esc specials) s')
              = esc :: replaceSub.go [t] esc [t] 0
                  (c :: cmap (encChar esc specials) s') from by
            simp only [replaceSub.go]
            rw [if_neg (by
              simp only [List.isPrefixOf, Bool.and_eq_true, beq_iff_eq,
                List.isPrefixOf_nil_left, and_true]
              intro h
              exact absurd h.2.symm hct)]]
          rw [hstep c _ hce, ih, if_pos ((hsp c).mpr ⟨hc, hct⟩)]
          rfl
    · rw [if_neg hc]
      have hce : c ≠ esc := fun h => hc (h ▸ hesc)
      simp only [List.cons_append, List.nil_append]
      rw [hstep c _ hce, ih,
        if_neg (fun h => hc ((hsp c).mp h).1)]
      rfl

/-- The last unescape pass (`esc esc → esc`) removes the remaining
encoding entirely. -/
theorem replaceSub_unescape_esc (esc : Char) (specials : List Char)
    (hsp : ∀ c, c ∈ specials ↔ c = esc) :
    ∀ s, replaceSub [esc, esc] [esc] (cmap (encChar esc specials) s) = s := by
  intro s
  show replaceSub.go [esc] esc [esc] 0 (cmap (encChar esc specials) s) = s
  induction s with
  | nil => rfl
  | cons c s' ih =>
    simp only [cmap, encChar]
    by_cases hc : c ∈ specials
    · have hce : c = esc := (hsp c).mp hc
      rw [if_pos hc, hce]
      simp only [List.cons_append, List.nil_append]
      rw [show replaceSub.go [esc] esc [esc] 0
            (esc :: esc :: cmap (encChar esc specials) s')
          = [esc] ++ replaceSub.go [esc] esc [esc] 1
              (esc :: cmap (encChar esc specials) s') from by
        simp only [replaceSub.go]
        rw [if_pos (by simp [List.isPrefixOf])]]
      rw [show replaceSub.go [esc] esc [esc] 1
            (esc :: cmap (encChar esc specials) s')
          = replaceSub.go [esc] esc [esc] 0 (cmap (encChar esc specials) s') from rfl]
      rw [ih]
      rfl
    · have hce : c ≠ esc := fun h => hc ((hsp c).mpr h)
      rw [if_neg hc]
      simp only [List.cons_append, List.nil_append]
      have hstep2 : replaceSub.go [esc] esc [esc] 0 (c :: cmap (encChar esc specials) s')
          = c :: replaceSub.go [esc] esc [esc] 0 (cmap (encChar esc specials) s') := by
        cases hT : cmap (encChar esc specials) s' with
        | nil =>
          simp only [replaceSub.go]
          rw [if_neg (by simp [List.isPrefixOf])]
        | cons y R =>
          simp only [replaceSub.go]
          rw [if_neg (by
            simp only [List.isPrefixOf, Bool.and_eq_true, beq_iff_eq,
              List.isPrefixOf_nil_left, and_true]
            intro h
            exact absurd h.1.symm hce)]
      rw [hstep2, ih]

/-- `escapeValue` over a single-character configuration is the
per-character encoding of the escape character, the field delimiter,
the record separator and the comma. -/
theorem escapeValue_eq_cmap (config : PloonConfig) (esc delim sep : Char)
    (he : config.escapeChar = [esc]) (hd : config.fieldDelimiter = [delim])
    (hs : config.recordSeparator = [sep])
    (hde : delim ≠ esc) (hse : sep ≠ esc) (hsd : sep ≠ delim)
    (hce : ',' ≠ esc) (hcd : ',' ≠ delim) (hcs : ',' ≠ sep) (s : Str) :
    escapeValue s config = cmap (encChar esc [esc, delim, sep, ',']) s := by
  unfold escapeValue
  rw [he, hd, hs]
  show replaceSub [','] [esc, ',']
      (replaceSub [sep] [esc, sep]
        (replaceSub [delim] [esc, delim]
          (replaceSub [esc] [esc, esc] s)))
    = cmap (encChar esc [esc, delim, sep, ',']) s
  rw [replaceSub_single esc [esc, esc], replaceSub_single delim [esc, delim],
    replaceSub_single sep [esc, sep], replaceSub_single ',' [esc, ','],
    cmap_cmap, cmap_cmap, cmap_cmap]
  apply cmap_congr
  intro c
  have hde' : esc ≠ delim := Ne.symm hde
  have hse' : esc ≠ sep := Ne.symm hse
  have hsd' : delim ≠ sep := Ne.symm hsd
  have hce' : esc ≠ ',' := Ne.symm hce
  have hcd' : delim ≠ ',' := Ne.symm hcd
  have hcs' : sep ≠ ',' := Ne.symm hcs
  by_cases h1 : c = esc
  · subst h1
    simp [cmap, encChar, hde', hse', hce']
  · by_cases h2 : c = delim
    · subst h2
      simp [cmap, encChar, h1, hse', hsd', hce', hcd']
    · by_cases h3 : c = sep
      · subst h3
        simp [cmap, encChar, h1, h2, hce', hcd', hcs']
      · by_cases h4 : c = ','
        · subst h4
          simp [cmap, encChar, h1, h2, h3]
        · simp [cmap, encChar, h1, h2, h3, h4]

/-- Escaping then unescaping is the identity, for any single-character
configuration with pairwise distinct special characters. -/
theorem unescape_escape_id (config : PloonConfig) (esc delim sep : Char)
    (he : config.escapeChar = [esc]) (hd : config.fieldDelimiter = [delim])
    (hs : config.recordSeparator = [sep])
    (hde : delim ≠ esc) (hse : sep ≠ esc) (hsd : sep ≠ delim)
    (hce : ',' ≠ esc) (hcd : ',' ≠ delim) (hcs : ',' ≠ sep) (s : Str) :
    unescapeValue (escapeValue s config) config = s := by
  rw [escapeValue_eq_cmap config esc delim sep he hd hs hde hse hsd hce hcd hcs]
  unfold unescapeValue
  rw [he, hd, hs]
  show replaceSub [esc, esc] [esc]
      (replaceSub [esc, ','] [',']
        (replaceSub [esc, sep] [sep]
          (replaceSub [esc, delim] [delim]
            (cmap (encChar esc [esc, delim, sep, ',']) s))))
    = s
  rw [replaceSub_unescape_pass esc delim [esc, delim, sep, ','] [esc, sep, ',']
    (by simp) (by simp) hde
    (by
      intro c
      simp only [List.mem_cons, List.not_mem_nil, or_false]
      constructor
      · rintro (rfl | rfl | rfl)
        · exact ⟨Or.inl rfl, Ne.symm hde⟩
        · exact ⟨Or.inr (Or.inr (Or.inl rfl)), hsd⟩
        · exact ⟨Or.inr (Or.inr (Or.inr rfl)), hcd⟩
      · rintro ⟨(rfl | rfl | rfl | rfl), hne⟩
        · exact Or.inl rfl
        · exact absurd rfl hne
        · exact Or.inr (Or.inl rfl)
        · exact Or.inr (Or.inr rfl))]
  rw [replaceSub_unescape_pass esc sep [esc, sep, ','] [esc, ',']
    (by simp) (by simp) hse
    (by
      intro c
      simp only [List.mem_cons, List.not_mem_nil, or_false]
      constructor
      · rintro (rfl | rfl)
        · exact ⟨Or.inl rfl, Ne.symm hse⟩
        · exact ⟨Or.inr (Or.inr rfl), hcs⟩
      · rintro ⟨(rfl | rfl | rfl), hne⟩
        · exact Or.inl rfl
        · exact absurd rfl hne
        · exact Or.inr rfl)]
  rw [replaceSub_unescape_pass esc ',' [esc, ','] [esc]
    (by simp) (by simp) hce
    (by
      intro c
      simp only [List.mem_cons, List.not_mem_nil, or_false]
      constructor
      · rintro rfl
        exact ⟨Or.inl rfl, Ne.symm hce⟩
      · rintro ⟨(rfl | rfl), hne⟩
        · rfl
        · exact absurd rfl hne)]
  exact replaceSub_unescape_esc esc [esc] (by simp) s

/-- C7.  For every string containing the field delimiter, the record
separators of both presets, a comma, and the escape character, escaping
then unescaping restores the exact original, under both presets (in
fact the hypotheses are not needed: the composition is the identity on
every string). -/
theorem c7_escaping_roundtrip (s : Str)
    (hdelim : '|' ∈ s) (hnl : '\n' ∈ s) (hsemi : ';' ∈ s)
    (hcomma : ',' ∈ s) (hesc : '\\' ∈ s) :
    unescapeValue (escapeValue s PLOON_STANDARD) PLOON_STANDARD = s
      ∧ unescapeValue (escapeValue s PLOON_COMPACT) PLOON_COMPACT = s := by
  constructor
  · exact unescape_escape_id PLOON_STANDARD '\\' '|' '\n' rfl rfl rfl
      (by decide) (by decide) (by decide) (by decide) (by decide) (by decide) s
  · exact unescape_escape_id PLOON_COMPACT '\\' '|' ';' rfl rfl rfl
      (by decide) (by decide) (by decide) (by decide) (by decide) (by decide) s

/-- Witness for `c7_escaping_roundtrip` at a concrete string holding
all five special characters. -/
theorem c7_escaping_roundtrip_witness :
    unescapeValue (escapeValue "a|b\nc;d,e\\f".toList PLOON_STANDARD) PLOON_STANDARD
        = "a|b\nc;d,e\\f".toList
      ∧ unescapeValue (escapeValue "a|b\nc;d,e\\f".toList PLOON_COMPACT) PLOON_COMPACT
          = "a|b\nc;d,e\\f".toList := by
  exact c7_escaping_roundtrip "a|b\nc;d,e\\f".toList
    (by decide) (by decide) (by decide) (by decide) (by decide)

/-! ## C9 — configuration validation -/

/-- The number of single-character roles of `config` using the
character `x`. -/
def countKey (fs : List (Str × Str)) (x : Str) : Nat :=
  (fs.filter (fun f => f.2 = x)).length

/-- The configuration constraints of the claim: every single-character
role is exactly one character, no two roles share a character, and the
record separator is non-empty; `configViolation` is their negation. -/
def configViolation (config : PloonConfig) : Prop :=
  (∃ f ∈ singleCharFields config, f.2.length ≠ 1)
    ∨ config.recordSeparator = []
    ∨ (∃ x, 2 ≤ countKey (singleCharFields config) x)

/-- The group size recorded for `x` in an `addChar` map. -/
def mapCount (m : List (Str × List Str)) (x : Str) : Nat :=
  match m.find? (fun e => e.1 = x) with
  | some e => e.2.length
  | none => 0

theorem addChar_mapCount (m : List (Str × List Str)) (ch f : Str) (x : Str) :
    mapCount (addChar m ch f) x = mapCount m x + (if ch = x then 1 else 0) := by
  induction m with
  | nil =>
    by_cases hx : ch = x
    · simp [addChar, mapCount, hx]
    · simp [addChar, mapCount, hx]
  | cons e rest ih =>
    obtain ⟨c, fs⟩ := e
    by_cases hc : c = ch
    · subst hc
      by_cases hx : c = x
      · simp [addChar, mapCount, hx]
      · simp [addChar, mapCount, hx, ih]
    · simp only [addChar, if_neg hc]
      by_cases hx : c = x
      · subst hx
        have hchx : ¬ ch = c := fun h => hc h.symm
        simp [mapCount, if_neg hchx, hchx]
      · simp only [mapCount, List.find?]
        rw [show (decide (c = x)) = false by simp [hx]]
        simp only [mapCount] at ih
        exact ih

theorem foldl_addChar_mapCount (fs : List (Str × Str)) (m : List (Str × List Str)) (x : Str) :
    mapCount (fs.foldl (fun m f => addChar m f.2 f.1) m) x
      = mapCount m x + countKey fs x := by
  induction fs generalizing m with
  | nil => simp [countKey]
  | cons f rest ih =>
    simp only [List.foldl_cons]
    rw [ih, addChar_mapCount]
    unfold countKey
    by_cases hx : f.2 = x
    · simp only [List.filter_cons, hx]
      simp only [decide_True, if_true, List.length_cons]
      omega
    · simp only [List.filter_cons, hx]
      simp only [decide_False, Bool.false_eq_true, if_false]
      omega

theorem foldr_cond_ne_nil {α : Type} (p : α → Prop) [DecidablePred p]
    (e : α → Str) (l : List α) (h : ∃ a ∈ l, p a) :
    l.foldr (fun a acc => if p a then e a :: acc else acc) [] ≠ [] := by
  induction l with
  | nil => simp at h
  | cons a rest ih =>
    obtain ⟨b, hb, hpb⟩ := h
    simp only [List.foldr_cons]
    rcases List.mem_cons.mp hb with h1 | h1
    · subst h1
      rw [if_pos hpb]
      simp
    · by_cases hpa : p a
      · rw [if_pos hpa]; simp
      · rw [if_neg hpa]
        exact ih ⟨b, h1, hpb⟩

/-- C9 counterexample.  A configuration in which two roles share the
same character (`fieldDelimiter = pathSeparator = ":"`): `validateConfig`
would report it, but neither `stringify` nor `parse` invokes
`validateConfig`, and both `encode` and `decode` run to completion on
the invalid configuration — no configuration error is raised before (or
during) encode/decode work. -/
def badSharedCharConfig : PloonConfig :=
  { PLOON_STANDARD with fieldDelimiter := [':'] }

theorem c9_validation_never_invoked :
    validateConfigErrors badSharedCharConfig ≠ []
      ∧ encode (.vobj [("r".toList, .varr [.vobj [("a".toList, .vnum 1)]])])
          badSharedCharConfig = .ok "[r#1](a)\n\n1:1:1".toList
      ∧ decode "[r#1](a)\n\n1:1:7".toList badSharedCharConfig
          = .ok (.vobj [("r".toList, .varr [])]) := by
  refine ⟨?_, by rfl, by rfl⟩
  intro h
  rw [show validateConfigErrors badSharedCharConfig
      = ["Character : is used for multiple purposes: fieldDelimiter, pathSeparator".toList]
    from rfl] at h
  exact absurd h (by simp)

/-- C9 amended.  `validateConfig` does detect every violating
configuration — a role of the wrong width, an empty record separator, or
a character shared by two of the twelve single-character roles each put
an entry in its error list (and the source throws exactly when that
list is non-empty).  But nothing on the `stringify`/`parse` paths calls
it: see `c9_validation_never_invoked` for an invalid configuration on
which encode and decode run to completion. -/
theorem c9_validateConfig_detects (config : PloonConfig)
    (h : configViolation config) : validateConfigErrors config ≠ [] := by
  unfold validateConfigErrors
  intro hnil
  rcases List.append_eq_nil.mp hnil with ⟨h12, h3⟩
  rcases List.append_eq_nil.mp h12 with ⟨h1, h2⟩
  rcases h with hlen | hrs | hconf
  · exact foldr_cond_ne_nil (fun f => f.2.length ≠ 1) _ (singleCharFields config) hlen h1
  · rw [if_pos (by rw [hrs]; rfl)] at h2
    exact absurd h2 (by simp)
  · obtain ⟨x, hx⟩ := hconf
    have hcount := foldl_addChar_mapCount (singleCharFields config) [] x
    rw [show mapCount [] x = 0 from rfl, Nat.zero_add] at hcount
    set chars := (singleCharFields config).foldl (fun m f => addChar m f.2 f.1) [] with hchars
    have hfind : ∃ e ∈ chars, e.2.length > 1 := by
      unfold mapCount at hcount
      cases hf : chars.find? (fun e => e.1 = x) with
      | none =>
        rw [hf] at hcount
        simp only at hcount
        omega
      | some e =>
        rw [hf] at hcount
        simp only at hcount
        exact ⟨e, List.mem_of_find?_eq_some hf, by omega⟩
    exact foldr_cond_ne_nil (fun (e : Str × List Str) => e.2.length > 1) _ chars hfind h3

/-- Witness for `c9_validateConfig_detects` at the shared-character
configuration. -/
theorem c9_validateConfig_detects_witness :
    validateConfigErrors badSharedCharConfig ≠ [] := by
  apply c9_validateConfig_detects
  right; right
  exact ⟨[':'], by decide⟩

/-! ## C2 — record routing

A declarative restatement of the routing step, following the spec's
words: a field boundary falls between two consecutive child records
exactly when the array index fails to keep increasing, the record kind
flips, or both records are object records; the runs between boundaries
are handed, in order, to the eligible fields (the caller passes the
complex fields that are neither primitive arrays nor presence-marked),
and runs beyond the last field are dropped.
-/

/-- The current index the router compares (an object path counts 0, an
array path uses its possibly-NaN parsed index). -/
def routeIdx (sep : Str) (r : ScannedRecord) : Option Int :=
  match (parsePath r.path sep).index with
  | some v => v
  | none => some 0

/-- The spec's field-boundary predicate between consecutive records. -/
def specBoundary (sep : Str) (prev cur : ScannedRecord) : Bool :=
  jleb (routeIdx sep cur) (routeIdx sep prev)
    || ((parsePath cur.path sep).isObject != (parsePath prev.path sep).isObject)
    || ((parsePath prev.path sep).isObject && (parsePath cur.path sep).isObject)

/-- The maximal boundary-free runs of the child records. -/
def specChunks (sep : Str) : List (ScannedRecord × Nat) → List (List (ScannedRecord × Nat))
  | [] => []
  | x :: xs => go x [x] xs
where
  go (prev : ScannedRecord × Nat) (acc : List (ScannedRecord × Nat)) :
      List (ScannedRecord × Nat) → List (List (ScannedRecord × Nat))
    | [] => [acc]
    | y :: ys =>
      if specBoundary sep prev.1 y.1 then acc :: go y [y] ys
      else go y (acc ++ [y]) ys

/-- The spec's routing: the boundary-free runs are assigned, in schema
order, to the eligible fields; extra runs are dropped. -/
def routeSpec (childRecords : List (ScannedRecord × Nat))
    (allFields : List ParsedField) (sep : Str) : List FieldRecordGroup :=
  ((specChunks sep childRecords).take allFields.length).enum.map
    (fun (p : Nat × List (ScannedRecord × Nat)) => mkGroup allFields p.1 p.2)

/-- Shifting the enumeration start of a routed chunk list shifts the
assigned field indices. -/
theorem map_enumFrom_mkGroup (allFields : List ParsedField) (fieldIdx : Nat)
    (l : List (List (ScannedRecord × Nat))) :
    (List.enumFrom 1 l).map
        (fun (p : Nat × List (ScannedRecord × Nat)) => mkGroup allFields (fieldIdx + p.1) p.2)
      = l.enum.map
          (fun (p : Nat × List (ScannedRecord × Nat)) =>
            mkGroup allFields (fieldIdx + 1 + p.1) p.2) := by
  have key : ∀ (l : List (List (ScannedRecord × Nat))) (m : Nat),
      (List.enumFrom (m + 1) l).map
          (fun (p : Nat × List (ScannedRecord × Nat)) => mkGroup allFields (fieldIdx + p.1) p.2)
        = (List.enumFrom m l).map
            (fun (p : Nat × List (ScannedRecord × Nat)) =>
              mkGroup allFields (fieldIdx + 1 + p.1) p.2) := by
    intro l
    induction l with
    | nil => intro m; rfl
    | cons a t ih =>
      intro m
      simp only [List.enumFrom, List.map_cons]
      rw [ih (m + 1)]
      congr 2
      omega
  have := key l 0
  simpa [List.enum] using this

/-- With no fields to route to, the router drops everything. -/
theorem brm_go_nil_fields (allFields : List ParsedField) (sep : Str)
    (hlen : allFields.length = 0) :
    ∀ (rest batch : List (ScannedRecord × Nat)) (lastIndex : Option Int)
      (lastWasObject : Bool),
      buildRoutingMap.go allFields sep rest batch lastIndex lastWasObject 0 = [] := by
  intro rest
  induction rest with
  | nil =>
    intro batch lastIndex lastWasObject
    simp only [buildRoutingMap.go]
    rw [if_neg (fun h => absurd h.2 (by omega))]
  | cons y ys ih =>
    intro batch lastIndex lastWasObject
    simp only [buildRoutingMap.go]
    split
    · rw [if_neg (by omega)]
    · exact ih _ _ _

/-- The router's loop, started on a non-empty batch whose last element
is `prev`, produces exactly the remaining boundary-free runs assigned to
the remaining fields. -/
theorem brm_go_spec (allFields : List ParsedField) (sep : Str) :
    ∀ (rest : List (ScannedRecord × Nat)) (prev : ScannedRecord × Nat)
      (acc : List (ScannedRecord × Nat)) (fieldIdx : Nat),
      acc ≠ [] → fieldIdx < allFields.length →
      buildRoutingMap.go allFields sep rest acc (routeIdx sep prev.1)
          ((parsePath prev.1.path sep).isObject) fieldIdx
        = ((specChunks.go sep prev acc rest).take (allFields.length - fieldIdx)).enum.map
            (fun (p : Nat × List (ScannedRecord × Nat)) =>
              mkGroup allFields (fieldIdx + p.1) p.2) := by
  intro rest
  induction rest with
  | nil =>
    intro prev acc fieldIdx hacc hlt
    simp only [buildRoutingMap.go, specChunks.go]
    rw [if_pos ⟨by simpa using hacc, hlt⟩]
    rw [List.take_of_length_le (by simp; omega)]
    simp [List.enum_cons]
  | cons y ys ih =>
    intro prev acc fieldIdx hacc hlt
    simp only [buildRoutingMap.go, specChunks.go]
    by_cases hb : specBoundary sep prev.1 y.1
    · have hcode : ((!acc.isEmpty && jleb (routeIdx sep y.1) (routeIdx sep prev.1))
          || (!acc.isEmpty && ((parsePath y.1.path sep).isObject
              != (parsePath prev.1.path sep).isObject))
          || ((parsePath prev.1.path sep).isObject
              && (parsePath y.1.path sep).isObject)) = true := by
        have hne : (!acc.isEmpty) = true := by simpa using hacc
        unfold specBoundary at hb
        simp only [hne, Bool.true_and, Bool.or_eq_true] at hb ⊢
        rcases hb with (h | h) | h
        · exact Or.inl (Or.inl h)
        · exact Or.inl (Or.inr h)
        · exact Or.inr h
      rw [show (match (parsePath y.1.path sep).index with
            | some v => v
            | none => some 0) = routeIdx sep y.1 from rfl] at *
      simp only [hcode, if_true, hb]
      rw [if_pos hlt]
      by_cases hlast : fieldIdx + 1 ≥ allFields.length
      · rw [if_pos hlast]
        rw [show allFields.length - fieldIdx = 1 by omega]
        simp [List.enum_cons]
      · rw [if_neg hlast]
        rw [ih y [y] (fieldIdx + 1) (by simp) (by omega)]
        rw [show allFields.length - fieldIdx
            = (allFields.length - (fieldIdx + 1)) + 1 by omega]
        rw [List.take_succ_cons, List.enum_cons, List.map_cons]
        congr 1
        exact (map_enumFrom_mkGroup allFields fieldIdx _).symm
    · have hcode : ((!acc.isEmpty && jleb (routeIdx sep y.1) (routeIdx sep prev.1))
          || (!acc.isEmpty && ((parsePath y.1.path sep).isObject
              != (parsePath prev.1.path sep).isObject))
          || ((parsePath prev.1.path sep).isObject
              && (parsePath y.1.path sep).isObject)) = false := by
        have hb' : specBoundary sep prev.1 y.1 = false := by
          simpa using hb
        unfold specBoundary at hb'
        rcases Bool.or_eq_false_iff.mp hb' with ⟨hAB, hC⟩
        rcases Bool.or_eq_false_iff.mp hAB with ⟨hA, hB⟩
        simp [hA, hB, hC]
      rw [show (match (parsePath y.1.path sep).index with
            | some v => v
            | none => some 0) = routeIdx sep y.1 from rfl] at *
      simp only [hcode, if_false, hb]
      exact ih y (acc ++ [y]) fieldIdx (by simp) hlt

/-- C2.  The decoder's routing step is exactly the spec's: boundaries
fall where the array index resets, the record kind flips, or two object
records are adjacent, and the runs between boundaries are assigned in
schema order to the eligible fields (the tree builder passes exactly
the complex fields that are neither primitive arrays nor
presence-marked — see `eligibleComplexFields`). -/
theorem c2_routing_is_specified (childRecords : List (ScannedRecord × Nat))
    (allFields : List ParsedField) (presenceMarkers : List Str) (sep : Str) :
    buildRoutingMap childRecords allFields presenceMarkers sep
      = routeSpec childRecords allFields sep := by
  cases childRecords with
  | nil =>
    unfold buildRoutingMap routeSpec specChunks
    simp [buildRoutingMap.go]
  | cons x xs =>
    by_cases hlen : allFields.length = 0
    · unfold buildRoutingMap routeSpec
      rw [brm_go_nil_fields allFields sep hlen]
      rw [hlen]
      simp
    · unfold buildRoutingMap routeSpec specChunks
      rw [show buildRoutingMap.go allFields sep (x :: xs) [] (some (-1)) false 0
          = buildRoutingMap.go allFields sep xs [x] (routeIdx sep x.1)
              ((parsePath x.1.path sep).isObject) 0 from by
        simp only [buildRoutingMap.go]
        rw [if_neg (by simp)]
        rfl]
      rw [brm_go_spec allFields sep xs x [x] 0 (by simp) (by omega)]
      simp

/-! ## C5: schema-header determinism under key reordering -/

mutual

/-- `vbeq` is sound for propositional equality. -/
theorem vbeq_sound : ∀ (a b : Value), vbeq a b = true → a = b
  | .vnull, .vnull, _ => rfl
  | .vbool _, .vbool _, h => by
    simp only [vbeq, decide_eq_true_eq] at h
    rw [h]
  | .vnum _, .vnum _, h => by
    simp only [vbeq, decide_eq_true_eq] at h
    rw [h]
  | .vdec _, .vdec _, h => by
    simp only [vbeq, decide_eq_true_eq] at h
    rw [h]
  | .vstr _, .vstr _, h => by
    simp only [vbeq, decide_eq_true_eq] at h
    rw [h]
  | .varr xs, .varr ys, h => by
    rw [vbeqList_sound xs ys (by simpa [vbeq] using h)]
  | .vobj xs, .vobj ys, h => by
    rw [vbeqFields_sound xs ys (by simpa [vbeq] using h)]
  | .vnull, .vbool _, h => nomatch h
  | .vnull, .vnum _, h => nomatch h
  | .vnull, .vdec _, h => nomatch h
  | .vnull, .vstr _, h => nomatch h
  | .vnull, .varr _, h => nomatch h
  | .vnull, .vobj _, h => nomatch h
  | .vbool _, .vnull, h => nomatch h
  | .vbool _, .vnum _, h => nomatch h
  | .vbool _, .vdec _, h => nomatch h
  | .vbool _, .vstr _, h => nomatch h
  | .vbool _, .varr _, h => nomatch h
  | .vbool _, .vobj _, h => nomatch h
  | .vnum _, .vnull, h => nomatch h
  | .vnum _, .vbool _, h => nomatch h
  | .vnum _, .vdec _, h => nomatch h
  | .vnum _, .vstr _, h => nomatch h
  | .vnum _, .varr _, h => nomatch h
  | .vnum _, .vobj _, h => nomatch h
  | .vdec _, .vnull, h => nomatch h
  | .vdec _, .vbool _, h => nomatch h
  | .vdec _, .vnum _, h => nomatch h
  | .vdec _, .vstr _, h => nomatch h
  | .vdec _, .varr _, h => nomatch h
  | .vdec _, .vobj _, h => nomatch h
  | .vstr _, .vnull, h => nomatch h
  | .vstr _, .vbool _, h => nomatch h
  | .vstr _, .vnum _, h => nomatch h
  | .vstr _, .vdec _, h => nomatch h
  | .vstr _, .varr _, h => nomatch h
  | .vstr _, .vobj _, h => nomatch h
  | .varr _, .vnull, h => nomatch h
  | .varr _, .vbool _, h => nomatch h
  | .varr _, .vnum _, h => nomatch h
  | .varr _, .vdec _, h => nomatch h
  | .varr _, .vstr _, h => nomatch h
  | .varr _, .vobj _, h => nomatch h
  | .vobj _, .vnull, h => nomatch h
  | .vobj _, .vbool _, h => nomatch h
  | .vobj _, .vnum _, h => nomatch h
  | .vobj _, .vdec _, h => nomatch h
  | .vobj _, .vstr _, h => nomatch h
  | .vobj _, .varr _, h => nomatch h

theorem vbeqList_sound : ∀ (a b : List Value), vbeqList a b = true → a = b
  | [], [], _ => rfl
  | x :: xs, y :: ys, h => by
    simp only [vbeqList, Bool.and_eq_true] at h
    rw [vbeq_sound x y h.1, vbeqList_sound xs ys h.2]
  | [], _ :: _, h => nomatch h
  | _ :: _, [], h => nomatch h

theorem vbeqFields_sound : ∀ (a b : List (Str × Value)), vbeqFields a b = true → a = b
  | [], [], _ => rfl
  | (k, v) :: xs, (l, w) :: ys, h => by
    simp only [vbeqFields, Bool.and_eq_true, decide_eq_true_eq] at h
    rw [h.1.1, vbeq_sound v w h.1.2, vbeqFields_sound xs ys h.2]
  | [], _ :: _, h => nomatch h
  | _ :: _, [], h => nomatch h

end

/-- `canonList` is mapping `canon`. -/
theorem canonList_eq_map : ∀ l, canonList l = l.map canon
  | [] => rfl
  | x :: xs => by rw [canonList, List.map_cons, canonList_eq_map xs]

/-- `canonFields` canonicalizes each entry value in place. -/
theorem canonFields_eq_map : ∀ l, canonFields l = l.map (fun kv => (kv.1, canon kv.2))
  | [] => rfl
  | (k, v) :: xs => by rw [canonFields, List.map_cons, canonFields_eq_map xs]

/-- `canonFields` keeps the keys (in order). -/
theorem canonFields_map_fst (l : List (Str × Value)) :
    (canonFields l).map Prod.fst = l.map Prod.fst := by
  rw [canonFields_eq_map, List.map_map]
  rfl

/-- The canonical-equality relation: two values are deep-equal ignoring
object key order. -/
def crel (a b : Value) : Prop := canon a = canon b

/-- Equal maps give pointwise-related lists. -/
theorem forall2_of_map_eq {α β : Type} (f : α → β) :
    ∀ (l1 l2 : List α), l1.map f = l2.map f →
      List.Forall₂ (fun a b => f a = f b) l1 l2
  | [], [], _ => List.Forall₂.nil
  | x :: xs, y :: ys, h => by
    simp only [List.map_cons, List.cons.injEq] at h
    exact List.Forall₂.cons h.1 (forall2_of_map_eq f xs ys h.2)
  | [], _ :: _, h => by simp at h
  | _ :: _, [], h => by simp at h

/-- Pointwise-related lists have equal maps. -/
theorem map_eq_of_forall2 {α β : Type} {f : α → β} :
    ∀ {l1 l2 : List α}, List.Forall₂ (fun a b => f a = f b) l1 l2 →
      l1.map f = l2.map f := by
  intro l1 l2 h
  induction h with
  | nil => rfl
  | cons hab _ ih => simp only [List.map_cons, ih, hab]

/-- `canon` preserves objecthood. -/
theorem isObjV_canon (v : Value) : isObjV (canon v) = isObjV v := by
  cases v <;> rfl

/-- `canon` preserves arrayhood. -/
theorem isArrV_canon (v : Value) : isArrV (canon v) = isArrV v := by
  cases v <;> rfl

/-- `canon` preserves emptiness. -/
theorem isEmptyV_canon (v : Value) : isEmptyV (canon v) = isEmptyV v := by
  cases v with
  | varr xs => cases xs <;> rfl
  | vobj xs =>
    cases xs with
    | nil => rfl
    | cons p xs =>
      have hlen : (List.insertionSort keyLe (canonFields (p :: xs))).length
          = (canonFields (p :: xs)).length := List.length_insertionSort _ _
      cases hs : List.insertionSort keyLe (canonFields (p :: xs)) with
      | nil => rw [hs] at hlen; simp [canonFields] at hlen
      | cons q L =>
        rcases p with ⟨k, v⟩
        show isEmptyV (.vobj (List.insertionSort keyLe (canonFields ((k, v) :: xs)))) = _
        rw [hs]
        rfl
  | _ => rfl

/-- Canonically equal values are equally objects. -/
theorem isObjV_rel {a b : Value} (h : crel a b) : isObjV a = isObjV b := by
  rw [← isObjV_canon a, h, isObjV_canon]

/-- Canonically equal values are equally arrays. -/
theorem isArrV_rel {a b : Value} (h : crel a b) : isArrV a = isArrV b := by
  rw [← isArrV_canon a, h, isArrV_canon]

/-- Canonically equal values are equally empty. -/
theorem isEmptyV_rel {a b : Value} (h : crel a b) : isEmptyV a = isEmptyV b := by
  rw [← isEmptyV_canon a, h, isEmptyV_canon]

/-- `find?` by key commutes with canonicalizing the values. -/
theorem find?_key_canonFields (k : Str) :
    ∀ (fs : List (Str × Value)),
      (canonFields fs).find? (fun kv => kv.1 = k)
        = Option.map (fun kv : Str × Value => (kv.1, canon kv.2))
            (fs.find? (fun kv => kv.1 = k))
  | [] => rfl
  | (a, v) :: fs => by
    rw [canonFields]
    by_cases ha : a = k
    · rw [List.find?_cons_of_pos _ (by simp [ha]), List.find?_cons_of_pos _ (by simp [ha])]
      rfl
    · rw [List.find?_cons_of_neg _ (by simp [ha]), List.find?_cons_of_neg _ (by simp [ha])]
      exact find?_key_canonFields k fs

/-- On association lists with distinct keys, `find?` by key is
permutation-invariant. -/
theorem perm_find?_keys (k : Str) :
    ∀ {l1 l2 : List (Str × Value)}, List.Perm l1 l2 →
      (l1.map Prod.fst).Nodup →
      l1.find? (fun kv => kv.1 = k) = l2.find? (fun kv => kv.1 = k) := by
  intro l1 l2 p
  induction p with
  | nil => intro _; rfl
  | cons x p ih =>
    intro nd
    simp only [List.map_cons, List.nodup_cons] at nd
    by_cases hx : x.1 = k
    · rw [List.find?_cons_of_pos _ (by simp [hx]), List.find?_cons_of_pos _ (by simp [hx])]
    · rw [List.find?_cons_of_neg _ (by simp [hx]), List.find?_cons_of_neg _ (by simp [hx])]
      exact ih nd.2
  | swap x y l =>
    intro nd
    simp only [List.map_cons, List.nodup_cons, List.mem_cons] at nd
    have hxy : y.1 ≠ x.1 := fun h => nd.1 (Or.inl h)
    by_cases hy : y.1 = k <;> by_cases hx : x.1 = k
    · exact absurd (hy.trans hx.symm) hxy
    · rw [List.find?_cons_of_pos _ (by simp [hy]),
        List.find?_cons_of_neg _ (by simp [hx]),
        List.find?_cons_of_pos _ (by simp [hy])]
    · rw [List.find?_cons_of_neg _ (by simp [hy]),
        List.find?_cons_of_pos _ (by simp [hx]),
        List.find?_cons_of_pos _ (by simp [hx])]
    · rw [List.find?_cons_of_neg _ (by simp [hy]),
        List.find?_cons_of_neg _ (by simp [hx]),
        List.find?_cons_of_neg _ (by simp [hx]),
        List.find?_cons_of_neg _ (by simp [hy])]
  | trans p1 p2 ih1 ih2 =>
    intro nd
    rw [ih1 nd, ih2 (((p1.map Prod.fst).nodup_iff).mp nd)]

/-- Key-sorted canonical fields determine lookups up to
canonicalization; only the left-hand key list needs to be duplicate-free. -/
theorem lookup_canonEq {fs1 fs2 : List (Str × Value)}
    (hs : List.insertionSort keyLe (canonFields fs1)
        = List.insertionSort keyLe (canonFields fs2))
    (nd1 : (fs1.map Prod.fst).Nodup) (k : Str) :
    Option.map canon (lookupV (.vobj fs1) k) = Option.map canon (lookupV (.vobj fs2) k) := by
  have hperm : List.Perm (canonFields fs1) (canonFields fs2) := by
    have h1 := (List.perm_insertionSort keyLe (canonFields fs1)).symm
    have h2 := List.perm_insertionSort keyLe (canonFields fs2)
    rw [hs] at h1
    exact h1.trans h2
  have ndc : ((canonFields fs1).map Prod.fst).Nodup := by
    rw [canonFields_map_fst]; exact nd1
  have hf := perm_find?_keys k hperm ndc
  rw [find?_key_canonFields, find?_key_canonFields] at hf
  show Option.map canon ((fs1.find? (fun kv => kv.1 = k)).map Prod.snd)
      = Option.map canon ((fs2.find? (fun kv => kv.1 = k)).map Prod.snd)
  cases h1 : fs1.find? (fun kv => kv.1 = k) with
  | none =>
    cases h2 : fs2.find? (fun kv => kv.1 = k) with
    | none => rfl
    | some b => rw [h1, h2] at hf; exact absurd hf (by simp)
  | some a =>
    cases h2 : fs2.find? (fun kv => kv.1 = k) with
    | none => rw [h1, h2] at hf; exact absurd hf (by simp)
    | some b =>
      rw [h1, h2] at hf
      simp only [Option.map_some', Option.some.injEq, Prod.mk.injEq] at hf
      simp only [Option.map_some', Option.some.injEq]
      exact hf.2

/-- Canonically equal values have the same keys up to permutation. -/
theorem keysOf_rel {a b : Value} (h : crel a b) : List.Perm (keysOf a) (keysOf b) := by
  cases a <;> cases b <;> try exact List.Perm.refl ([] : List Str)
  all_goals try (exfalso; simp [crel, canon] at h; done)
  next fs1 fs2 =>
  have hs : List.insertionSort keyLe (canonFields fs1)
      = List.insertionSort keyLe (canonFields fs2) := by
    simpa [crel, canon] using h
  have hperm : List.Perm (canonFields fs1) (canonFields fs2) := by
    have h1 := (List.perm_insertionSort keyLe (canonFields fs1)).symm
    have h2 := List.perm_insertionSort keyLe (canonFields fs2)
    rw [hs] at h1
    exact h1.trans h2
  have hp := hperm.map Prod.fst
  rw [canonFields_map_fst, canonFields_map_fst] at hp
  exact hp

/-- Canonically equal values carry the same keys. -/
theorem mem_keysOf_rel {a b : Value} (h : crel a b) (k : Str) :
    k ∈ keysOf a ↔ k ∈ keysOf b :=
  (keysOf_rel h).mem_iff

/-- A key present in the key list is found by `lookupV`. -/
theorem lookup_isSome_of_mem :
    ∀ (fs : List (Str × Value)) (k : Str), k ∈ fs.map Prod.fst →
      (lookupV (.vobj fs) k).isSome = true
  | [], k, h => by simp at h
  | (a, v) :: fs, k, h => by
    simp only [List.map_cons, List.mem_cons] at h
    show ((((a, v) :: fs).find? (fun kv => kv.1 = k)).map Prod.snd).isSome = true
    by_cases ha : a = k
    · rw [List.find?_cons_of_pos _ (by simp [ha])]
      rfl
    · rw [List.find?_cons_of_neg _ (by simp [ha])]
      have hk : k ∈ fs.map Prod.fst := by
        rcases h with h | h
        · exact absurd h.symm ha
        · exact h
      exact lookup_isSome_of_mem fs k hk

/-- Members of a well-formed list are well-formed. -/
theorem wfvList_mem : ∀ (l : List Value), wfvList l = true → ∀ v ∈ l, wfv v = true
  | [], _, v, hv => by simp at hv
  | x :: xs, h, v, hv => by
    simp only [wfvList, Bool.and_eq_true] at h
    rcases List.mem_cons.mp hv with rfl | hv
    · exact h.1
    · exact wfvList_mem xs h.2 v hv

/-- A list of well-formed values is a well-formed list. -/
theorem wfvList_of_forall : ∀ (l : List Value), (∀ v ∈ l, wfv v = true) → wfvList l = true
  | [], _ => rfl
  | x :: xs, h => by
    simp only [wfvList, Bool.and_eq_true]
    exact ⟨h x (by simp), wfvList_of_forall xs (fun v hv => h v (by simp [hv]))⟩

/-- Entry values of well-formed fields are well-formed. -/
theorem wfvFields_mem : ∀ (fs : List (Str × Value)), wfvFields fs = true →
    ∀ kv ∈ fs, wfv kv.2 = true
  | [], _, kv, hkv => by simp at hkv
  | (a, w) :: fs, h, kv, hkv => by
    simp only [wfvFields, Bool.and_eq_true] at h
    rcases List.mem_cons.mp hkv with rfl | hkv
    · exact h.1
    · exact wfvFields_mem fs h.2 kv hkv

/-- A successful lookup in a well-formed object returns a well-formed
value. -/
theorem wfv_lookup {fs : List (Str × Value)} (h : wfv (.vobj fs) = true) {k : Str}
    {v : Value} (hl : lookupV (.vobj fs) k = some v) : wfv v = true := by
  simp only [wfv, Bool.and_eq_true] at h
  have hl' : (fs.find? (fun kv => kv.1 = k)).map Prod.snd = some v := hl
  cases hf : fs.find? (fun kv => kv.1 = k) with
  | none => rw [hf] at hl'; exact absurd hl' (by simp)
  | some kv =>
    rw [hf] at hl'
    simp only [Option.map_some', Option.some.injEq] at hl'
    have hmem := List.mem_of_find?_eq_some hf
    have hw := wfvFields_mem fs h.2 kv hmem
    rw [← hl']
    exact hw

/-- The key list of a well-formed object is duplicate-free. -/
theorem wfv_nodup {fs : List (Str × Value)} (h : wfv (.vobj fs) = true) :
    (fs.map Prod.fst).Nodup := by
  simp only [wfv, Bool.and_eq_true] at h
  exact of_decide_eq_true h.1

/-- Canonically equal well-formed values have canonically equal lookups. -/
theorem lookupV_rel {a b : Value} (h : crel a b) (w1 : wfv a = true) (k : Str) :
    Option.map canon (lookupV a k) = Option.map canon (lookupV b k) := by
  cases a <;> cases b <;> try rfl
  all_goals try (exfalso; simp [crel, canon] at h; done)
  next fs1 fs2 =>
  have hs : List.insertionSort keyLe (canonFields fs1)
      = List.insertionSort keyLe (canonFields fs2) := by
    simpa [crel, canon] using h
  exact lookup_canonEq hs (wfv_nodup w1) k

/-- `countP` is invariant across pointwise canonically equal lists for
canon-invariant predicates. -/
theorem countP_rel {p : Value → Bool} :
    ∀ {l1 l2 : List Value}, List.Forall₂ crel l1 l2 →
      (∀ a b, a ∈ l1 → b ∈ l2 → crel a b → p a = p b) →
      l1.countP p = l2.countP p := by
  intro l1 l2 h
  induction h with
  | nil => intro _; rfl
  | @cons a b la lb hab htl ih =>
    intro hp
    rw [List.countP_cons, List.countP_cons,
      ih (fun x y hx hy => hp x y (by simp [hx]) (by simp [hy])),
      hp a b (by simp) (by simp) hab]

/-- `any` is invariant across pointwise canonically equal lists for
canon-invariant predicates. -/
theorem any_rel {p : Value → Bool} :
    ∀ {l1 l2 : List Value}, List.Forall₂ crel l1 l2 →
      (∀ a b, a ∈ l1 → b ∈ l2 → crel a b → p a = p b) →
      l1.any p = l2.any p := by
  intro l1 l2 h
  induction h with
  | nil => intro _; rfl
  | @cons a b la lb hab htl ih =>
    intro hp
    rw [List.any_cons, List.any_cons,
      ih (fun x y hx hy => hp x y (by simp [hx]) (by simp [hy])),
      hp a b (by simp) (by simp) hab]

/-- `find?` over pointwise canonically equal lists: both fail, or both
return canonically equal members. -/
theorem find?_rel {p : Value → Bool} :
    ∀ {l1 l2 : List Value}, List.Forall₂ crel l1 l2 →
      (∀ a b, a ∈ l1 → b ∈ l2 → crel a b → p a = p b) →
      (l1.find? p = none ∧ l2.find? p = none) ∨
        ∃ a b, l1.find? p = some a ∧ l2.find? p = some b ∧ crel a b ∧ a ∈ l1 ∧ b ∈ l2 := by
  intro l1 l2 h
  induction h with
  | nil => intro _; exact Or.inl ⟨rfl, rfl⟩
  | @cons a b la lb hab htl ih =>
    intro hp
    by_cases hpa : p a = true
    · have hpb : p b = true := by rw [← hp a b (by simp) (by simp) hab]; exact hpa
      exact Or.inr ⟨a, b, by rw [List.find?_cons_of_pos _ hpa],
        by rw [List.find?_cons_of_pos _ hpb], hab, by simp, by simp⟩
    · have hpb : ¬p b = true := by rw [← hp a b (by simp) (by simp) hab]; exact hpa
      rcases ih (fun x y hx hy => hp x y (by simp [hx]) (by simp [hy])) with
        ⟨h1, h2⟩ | ⟨x, y, h1, h2, hr, hx, hy⟩
      · exact Or.inl ⟨by rw [List.find?_cons_of_neg _ hpa, h1],
          by rw [List.find?_cons_of_neg _ hpb, h2]⟩
      · exact Or.inr ⟨x, y, by rw [List.find?_cons_of_neg _ hpa, h1],
          by rw [List.find?_cons_of_neg _ hpb, h2], hr, by simp [hx], by simp [hy]⟩

/-- `fieldCount` only depends on canonical forms. -/
theorem fieldCount_rel {l1 l2 : List Value} (h : List.Forall₂ crel l1 l2) (k : Str) :
    fieldCount l1 k = fieldCount l2 k := by
  unfold fieldCount
  exact countP_rel h (fun a b _ _ hab => by
    simp only [decide_eq_decide]
    exact mem_keysOf_rel hab k)

/-- `fieldEverEmpty` only depends on canonical forms of well-formed
values. -/
theorem fieldEverEmpty_rel {l1 l2 : List Value} (h : List.Forall₂ crel l1 l2)
    (w1 : ∀ a ∈ l1, wfv a = true) (k : Str) :
    fieldEverEmpty l1 k = fieldEverEmpty l2 k := by
  unfold fieldEverEmpty
  apply any_rel h
  intro a b ha hb hab
  have hl := lookupV_rel hab (w1 a ha) k
  cases h1 : lookupV a k with
  | none =>
    cases h2 : lookupV b k with
    | none => rfl
    | some v => rw [h1, h2] at hl; exact absurd hl (by simp)
  | some v1 =>
    cases h2 : lookupV b k with
    | none => rw [h1, h2] at hl; exact absurd hl (by simp)
    | some v2 =>
      rw [h1, h2] at hl
      simp only [Option.map_some', Option.some.injEq] at hl
      exact isEmptyV_rel hl

/-- `analyzeFields` only depends on canonical forms of well-formed
values. -/
theorem analyzeFields_rel {l1 l2 : List Value} (h : List.Forall₂ crel l1 l2)
    (w1 : ∀ a ∈ l1, wfv a = true) (k : Str) :
    analyzeFields l1 k = analyzeFields l2 k := by
  unfold analyzeFields
  rw [fieldCount_rel h k, fieldEverEmpty_rel h w1 k, h.length_eq]

/-- Membership in `insertSet`. -/
theorem mem_insertSet {l : List Str} {x y : Str} : x ∈ insertSet l y ↔ x ∈ l ∨ x = y := by
  unfold insertSet
  by_cases hy : y ∈ l
  · rw [if_pos hy]
    constructor
    · exact fun h => Or.inl h
    · rintro (h | rfl)
      · exact h
      · exact hy
  · rw [if_neg hy]
    simp [List.mem_append]

/-- `insertSet` preserves distinctness. -/
theorem nodup_insertSet {l : List Str} {y : Str} (h : l.Nodup) : (insertSet l y).Nodup := by
  unfold insertSet
  by_cases hy : y ∈ l
  · rw [if_pos hy]; exact h
  · rw [if_neg hy]
    simp [List.nodup_append, h, hy]

/-- Membership after folding `insertSet` over a key list. -/
theorem foldl_insertSet_mem : ∀ (keys acc : List Str) (x : Str),
    x ∈ keys.foldl insertSet acc ↔ x ∈ acc ∨ x ∈ keys
  | [], acc, x => by simp
  | k :: keys, acc, x => by
    rw [List.foldl_cons, foldl_insertSet_mem keys (insertSet acc k) x]
    simp only [mem_insertSet, List.mem_cons]
    tauto

/-- Distinctness after folding `insertSet`. -/
theorem foldl_insertSet_nodup : ∀ (keys acc : List Str), acc.Nodup →
    (keys.foldl insertSet acc).Nodup
  | [], _, h => h
  | k :: keys, acc, h => by
    rw [List.foldl_cons]
    exact foldl_insertSet_nodup keys (insertSet acc k) (nodup_insertSet h)

/-- Membership in the accumulated key-set of `getAllKeys`. -/
theorem foldl_keys_mem : ∀ (objs : List Value) (acc : List Str) (x : Str),
    x ∈ objs.foldl (fun acc o => (keysOf o).foldl insertSet acc) acc
      ↔ x ∈ acc ∨ ∃ o ∈ objs, x ∈ keysOf o
  | [], acc, x => by simp
  | o :: objs, acc, x => by
    rw [List.foldl_cons, foldl_keys_mem objs _ x, foldl_insertSet_mem]
    simp only [List.mem_cons]
    constructor
    · rintro ((h | h) | ⟨o', ho', h⟩)
      · exact Or.inl h
      · exact Or.inr ⟨o, Or.inl rfl, h⟩
      · exact Or.inr ⟨o', Or.inr ho', h⟩
    · rintro (h | ⟨o', ho' | ho', h⟩)
      · exact Or.inl (Or.inl h)
      · exact Or.inl (Or.inr (ho' ▸ h))
      · exact Or.inr ⟨o', ho', h⟩

/-- Distinctness of the accumulated key-set of `getAllKeys`. -/
theorem foldl_keys_nodup : ∀ (objs : List Value) (acc : List Str), acc.Nodup →
    (objs.foldl (fun acc o => (keysOf o).foldl insertSet acc) acc).Nodup
  | [], _, h => h
  | o :: objs, acc, h => by
    rw [List.foldl_cons]
    exact foldl_keys_nodup objs _ (foldl_insertSet_nodup _ acc h)

/-- Key occurrence across pointwise canonically equal object lists. -/
theorem exists_keys_rel {x : Str} :
    ∀ {l1 l2 : List Value}, List.Forall₂ crel l1 l2 →
      ((∃ o ∈ l1, x ∈ keysOf o) ↔ ∃ o ∈ l2, x ∈ keysOf o) := by
  intro l1 l2 h
  induction h with
  | nil => simp
  | @cons a b la lb hab htl ih =>
    simp only [List.mem_cons]
    constructor
    · rintro ⟨o, rfl | ho, hk⟩
      · exact ⟨b, Or.inl rfl, (mem_keysOf_rel hab x).mp hk⟩
      · rcases ih.mp ⟨o, ho, hk⟩ with ⟨o', ho', hk'⟩
        exact ⟨o', Or.inr ho', hk'⟩
    · rintro ⟨o, rfl | ho, hk⟩
      · exact ⟨a, Or.inl rfl, (mem_keysOf_rel hab x).mpr hk⟩
      · rcases ih.mpr ⟨o, ho, hk⟩ with ⟨o', ho', hk'⟩
        exact ⟨o', Or.inr ho', hk'⟩

/-- Sorting is permutation-invariant. -/
theorem sortKeys_perm_eq {l1 l2 : List Str} (p : List.Perm l1 l2) :
    sortKeys l1 = sortKeys l2 := by
  unfold sortKeys
  exact List.eq_of_perm_of_sorted
    ((List.perm_insertionSort _ l1).trans (p.trans (List.perm_insertionSort _ l2).symm))
    (List.sorted_insertionSort _ l1)
    (List.sorted_insertionSort _ l2)

/-- `getAllKeys` only depends on canonical forms: key reordering inside
the objects does not change the sorted key union. -/
theorem getAllKeys_rel {l1 l2 : List Value} (h : List.Forall₂ crel l1 l2) :
    getAllKeys l1 = getAllKeys l2 := by
  unfold getAllKeys
  apply sortKeys_perm_eq
  refine (List.perm_ext_iff_of_nodup ?_ ?_).mpr ?_
  · exact foldl_keys_nodup l1 [] List.nodup_nil
  · exact foldl_keys_nodup l2 [] List.nodup_nil
  · intro x
    rw [foldl_keys_mem, foldl_keys_mem]
    simp only [List.not_mem_nil, false_or]
    exact exists_keys_rel h

/-- `all` is invariant across pointwise canonically equal lists for
canon-invariant predicates. -/
theorem all_rel {p : Value → Bool} :
    ∀ {l1 l2 : List Value}, List.Forall₂ crel l1 l2 →
      (∀ a b, a ∈ l1 → b ∈ l2 → crel a b → p a = p b) →
      l1.all p = l2.all p := by
  intro l1 l2 h
  induction h with
  | nil => intro _; rfl
  | @cons a b la lb hab htl ih =>
    intro hp
    rw [List.all_cons, List.all_cons,
      ih (fun x y hx hy => hp x y (by simp [hx]) (by simp [hy])),
      hp a b (by simp) (by simp) hab]

/-- `isArrayOfObjects` only depends on canonical forms. -/
theorem isArrayOfObjects_rel {l1 l2 : List Value} (h : List.map canon l1 = List.map canon l2) :
    isArrayOfObjects l1 = isArrayOfObjects l2 := by
  unfold isArrayOfObjects
  exact all_rel (forall2_of_map_eq canon l1 l2 h) (fun a b _ _ hab => isObjV_rel hab)

/-- A key in the key list of any value is found by `lookupV`. -/
theorem lookupV_isSome_of_mem_keys {o : Value} {k : Str} (h : k ∈ keysOf o) :
    (lookupV o k).isSome = true := by
  cases o <;> first
    | exact lookup_isSome_of_mem _ _ h
    | simp [keysOf, objFields] at h

/-- A successful lookup in any well-formed value is well-formed. -/
theorem wfv_lookupV {o v : Value} {k : Str} (wo : wfv o = true)
    (hl : lookupV o k = some v) : wfv v = true := by
  cases o <;> first
    | exact wfv_lookup wo hl
    | simp [lookupV, objFields] at hl

/-- The loop body of `findNestedArray` preserves the canonical state
relation: equal counts, canonically equal representative candidate. -/
theorem findNAStep_rel (key : Str) {o1 o2 : Value} (ho : crel o1 o2) (w1 : wfv o1 = true)
    {s t : FindCounts × Option (List Value)} (hc : s.1 = t.1)
    (hopt : s.2.map (List.map canon) = t.2.map (List.map canon)) :
    (findNAStep key s o1).1 = (findNAStep key t o2).1 ∧
      (findNAStep key s o1).2.map (List.map canon)
        = (findNAStep key t o2).2.map (List.map canon) := by
  unfold findNAStep
  by_cases hk : key ∈ keysOf o1
  · have hk2 : key ∈ keysOf o2 := (mem_keysOf_rel ho key).mp hk
    rw [if_pos hk, if_pos hk2]
    have hl := lookupV_rel ho w1 key
    have hsome := lookupV_isSome_of_mem_keys hk
    cases h1 : lookupV o1 key with
    | none => rw [h1] at hsome; exact absurd hsome (by simp)
    | some v1 =>
      cases h2 : lookupV o2 key with
      | none => rw [h1, h2] at hl; exact absurd hl (by simp)
      | some v2 =>
        rw [h1, h2] at hl
        simp only [Option.map_some', Option.some.injEq] at hl
        cases v1 <;> cases v2 <;> try (exfalso; simp [canon] at hl; done)
        all_goals try exact ⟨by rw [hc], hopt⟩
        next l1 l2 =>
        have hm : List.map canon l1 = List.map canon l2 := by
          simpa [canon, canonList_eq_map] using hl
        have hlen : l1.length = l2.length := by
          have := congrArg List.length hm
          simpa using this
        refine ⟨by rw [hc], ?_⟩
        show (match s.2 with
            | none => some l1
            | some prev => if prev.length = 0 ∧ l1.length > 0 then some l1 else some prev).map
              (List.map canon)
          = (match t.2 with
            | none => some l2
            | some prev => if prev.length = 0 ∧ l2.length > 0 then some l2 else some prev).map
              (List.map canon)
        cases hs2 : s.2 with
        | none =>
          cases ht2 : t.2 with
          | none => simp [hm]
          | some p2 => rw [hs2, ht2] at hopt; exact absurd hopt (by simp)
        | some p1 =>
          cases ht2 : t.2 with
          | none => rw [hs2, ht2] at hopt; exact absurd hopt (by simp)
          | some p2 =>
            rw [hs2, ht2] at hopt
            simp only [Option.map_some', Option.some.injEq] at hopt
            have hplen : p1.length = p2.length := by
              have := congrArg List.length hopt
              simpa using this
            show Option.map (List.map canon)
                (if p1.length = 0 ∧ l1.length > 0 then some l1 else some p1)
              = Option.map (List.map canon)
                (if p2.length = 0 ∧ l2.length > 0 then some l2 else some p2)
            by_cases hcond : p1.length = 0 ∧ l1.length > 0
            · rw [if_pos hcond, if_pos (by rw [← hplen, ← hlen]; exact hcond)]
              simp [hm]
            · rw [if_neg hcond, if_neg (by rw [← hplen, ← hlen]; exact hcond)]
              simp [hopt]
  · rw [if_neg hk, if_neg (fun hh => hk ((mem_keysOf_rel ho key).mpr hh))]
    exact ⟨hc, hopt⟩

/-- Folding the `findNestedArray` loop preserves the state relation. -/
theorem findNA_foldl_rel (key : Str) :
    ∀ {l1 l2 : List Value}, List.Forall₂ crel l1 l2 → (∀ a ∈ l1, wfv a = true) →
      ∀ (s t : FindCounts × Option (List Value)), s.1 = t.1 →
        s.2.map (List.map canon) = t.2.map (List.map canon) →
        (l1.foldl (findNAStep key) s).1 = (l2.foldl (findNAStep key) t).1 ∧
          (l1.foldl (findNAStep key) s).2.map (List.map canon)
            = (l2.foldl (findNAStep key) t).2.map (List.map canon) := by
  intro l1 l2 h
  induction h with
  | nil => intro _ s t hc hopt; exact ⟨hc, hopt⟩
  | @cons a b la lb hab htl ih =>
    intro hw s t hc hopt
    rw [List.foldl_cons, List.foldl_cons]
    have hstep := findNAStep_rel key hab (hw a (by simp)) hc hopt
    exact ih (fun v hv => hw v (by simp [hv])) _ _ hstep.1 hstep.2

/-- `findNestedArray` only depends on the canonical forms of the objects
(up to canonicalizing the chosen representative array). -/
theorem findNestedArray_rel (key : Str) {l1 l2 : List Value}
    (hf : List.Forall₂ crel l1 l2) (hw : ∀ a ∈ l1, wfv a = true) :
    (findNestedArray l1 key).map (List.map canon)
      = (findNestedArray l2 key).map (List.map canon) := by
  simp only [findNestedArray]
  obtain ⟨h1, h2⟩ := findNA_foldl_rel key hf hw ⟨⟨0, 0, 0⟩, none⟩ ⟨⟨0, 0, 0⟩, none⟩ rfl rfl
  generalize hg1 : List.foldl (findNAStep key) ⟨⟨0, 0, 0⟩, none⟩ l1 = S1 at h1 h2 ⊢
  generalize hg2 : List.foldl (findNAStep key) ⟨⟨0, 0, 0⟩, none⟩ l2 = S2 at h1 h2 ⊢
  rw [h1]
  by_cases hcond : S2.1.arrayCount > S2.1.primitiveCount ∧ S2.1.arrayCount > S2.1.objectCount
  · rw [if_pos hcond, if_pos hcond]
    cases hs : S1.2 with
    | none =>
      cases ht : S2.2 with
      | none => rfl
      | some fa2 => rw [hs, ht] at h2; exact absurd h2 (by simp)
    | some fa1 =>
      cases ht : S2.2 with
      | none => rw [hs, ht] at h2; exact absurd h2 (by simp)
      | some fa2 =>
        rw [hs, ht] at h2
        simp only [Option.map_some', Option.some.injEq] at h2
        have hlen : fa1.length = fa2.length := by
          have := congrArg List.length h2
          simpa using this
        show Option.map (List.map canon)
            (if fa1.length > 0 ∧ isArrayOfObjects fa1 = true then some fa1 else none)
          = Option.map (List.map canon)
            (if fa2.length > 0 ∧ isArrayOfObjects fa2 = true then some fa2 else none)
        by_cases hc2 : fa1.length > 0 ∧ isArrayOfObjects fa1
        · rw [if_pos hc2, if_pos (by rw [← hlen, ← isArrayOfObjects_rel h2]; exact hc2)]
          simp [h2]
        · rw [if_neg hc2, if_neg (by rw [← hlen, ← isArrayOfObjects_rel h2]; exact hc2)]
  · rw [if_neg hcond, if_neg hcond]

/-- The `findNestedArray` loop body preserves well-formedness of the
representative candidate. -/
theorem findNAStep_wf (key : Str) {o : Value} {s : FindCounts × Option (List Value)}
    (wo : wfv o = true) (hs : ∀ l0, s.2 = some l0 → ∀ v ∈ l0, wfv v = true) :
    ∀ l0, (findNAStep key s o).2 = some l0 → ∀ v ∈ l0, wfv v = true := by
  unfold findNAStep
  by_cases hk : key ∈ keysOf o
  · rw [if_pos hk]
    cases h1 : lookupV o key with
    | none => exact hs
    | some v =>
      cases v with
      | vnull => exact hs
      | vbool b => exact hs
      | vnum n => exact hs
      | vdec d => exact hs
      | vstr t => exact hs
      | vobj fs => exact hs
      | varr la =>
        have hw0 : ∀ u ∈ la, wfv u = true := by
          have := wfv_lookupV wo h1
          exact wfvList_mem la (by simpa [wfv] using this)
        intro l0 hl
        cases hs2 : s.2 with
        | none =>
          rw [hs2] at hl
          have hl' : some la = some l0 := hl
          rw [← Option.some.inj hl']
          exact hw0
        | some prev =>
          rw [hs2] at hl
          have hl' : (if prev.length = 0 ∧ la.length > 0 then some la else some prev)
              = some l0 := hl
          by_cases hcond : prev.length = 0 ∧ la.length > 0
          · rw [if_pos hcond] at hl'
            rw [← Option.some.inj hl']
            exact hw0
          · rw [if_neg hcond] at hl'
            rw [← Option.some.inj hl']
            exact hs prev hs2
  · rw [if_neg hk]
    exact hs

/-- Folding the `findNestedArray` loop preserves well-formedness. -/
theorem findNA_foldl_wf (key : Str) : ∀ (l : List Value) (s : FindCounts × Option (List Value)),
    (∀ a ∈ l, wfv a = true) → (∀ l0, s.2 = some l0 → ∀ v ∈ l0, wfv v = true) →
    ∀ l0, (l.foldl (findNAStep key) s).2 = some l0 → ∀ v ∈ l0, wfv v = true
  | [], _, _, hs => hs
  | o :: l, s, hw, hs => by
    rw [List.foldl_cons]
    exact findNA_foldl_wf key l _ (fun a ha => hw a (by simp [ha]))
      (findNAStep_wf key (hw o (by simp)) hs)

/-- The representative array chosen by `findNestedArray` from well-formed
objects has well-formed elements. -/
theorem findNestedArray_wf (key : Str) {l : List Value} (hw : ∀ a ∈ l, wfv a = true)
    {fa : List Value} (hfa : findNestedArray l key = some fa) :
    ∀ v ∈ fa, wfv v = true := by
  simp only [findNestedArray] at hfa
  have hwf := findNA_foldl_wf key l ⟨⟨0, 0, 0⟩, none⟩ hw
    (by intro l0 h; exact absurd h (by simp))
  generalize hg : List.foldl (findNAStep key) ⟨⟨0, 0, 0⟩, none⟩ l = S at hfa hwf
  by_cases hcond : S.1.arrayCount > S.1.primitiveCount ∧ S.1.arrayCount > S.1.objectCount
  · rw [if_pos hcond] at hfa
    cases hs : S.2 with
    | none => rw [hs] at hfa; exact absurd hfa (by simp)
    | some fa0 =>
      rw [hs] at hfa
      have hfa2 : (if fa0.length > 0 ∧ isArrayOfObjects fa0 = true then some fa0 else none)
          = some fa := hfa
      by_cases hc2 : fa0.length > 0 ∧ isArrayOfObjects fa0 = true
      · rw [if_pos hc2] at hfa2
        rw [← Option.some.inj hfa2]
        exact hwf fa0 hs
      · rw [if_neg hc2] at hfa2
        exact absurd hfa2 (by simp)
  · rw [if_neg hcond] at hfa
    exact absurd hfa (by simp)

/-- Key-sorted canonical form of an object's field list (the object part
of `canon`). -/
def sortCF (fs : List (Str × Value)) : List (Str × Value) :=
  List.insertionSort keyLe (canonFields fs)

/-- `sortCF` preserves the number of entries. -/
theorem sortCF_length (fs : List (Str × Value)) : (sortCF fs).length = fs.length := by
  unfold sortCF
  rw [List.length_insertionSort, canonFields_eq_map, List.length_map]

/-- The loop body of `findNestedObject` preserves the canonical state
relation. -/
theorem findNOStep_rel (key : Str) {o1 o2 : Value} (ho : crel o1 o2) (w1 : wfv o1 = true)
    {s t : FindCounts × Option (List (Str × Value))} (hc : s.1 = t.1)
    (hopt : s.2.map sortCF = t.2.map sortCF) :
    (findNOStep key s o1).1 = (findNOStep key t o2).1 ∧
      (findNOStep key s o1).2.map sortCF = (findNOStep key t o2).2.map sortCF := by
  unfold findNOStep
  by_cases hk : key ∈ keysOf o1
  · have hk2 : key ∈ keysOf o2 := (mem_keysOf_rel ho key).mp hk
    rw [if_pos hk, if_pos hk2]
    have hl := lookupV_rel ho w1 key
    have hsome := lookupV_isSome_of_mem_keys hk
    cases h1 : lookupV o1 key with
    | none => rw [h1] at hsome; exact absurd hsome (by simp)
    | some v1 =>
      cases h2 : lookupV o2 key with
      | none => rw [h1, h2] at hl; exact absurd hl (by simp)
      | some v2 =>
        rw [h1, h2] at hl
        simp only [Option.map_some', Option.some.injEq] at hl
        cases v1 <;> cases v2 <;> try (exfalso; simp [canon] at hl; done)
        all_goals try exact ⟨by rw [hc], hopt⟩
        next fs1 fs2 =>
        have hsf : sortCF fs1 = sortCF fs2 := by
          simpa [canon, sortCF] using hl
        have hlen : fs1.length = fs2.length := by
          rw [← sortCF_length fs1, ← sortCF_length fs2, hsf]
        refine ⟨by rw [hc], ?_⟩
        show (match s.2 with
            | none => some fs1
            | some prev => if prev.length = 0 ∧ fs1.length > 0 then some fs1 else some prev).map
              sortCF
          = (match t.2 with
            | none => some fs2
            | some prev => if prev.length = 0 ∧ fs2.length > 0 then some fs2 else some prev).map
              sortCF
        cases hs2 : s.2 with
        | none =>
          cases ht2 : t.2 with
          | none => simp [hsf]
          | some p2 => rw [hs2, ht2] at hopt; exact absurd hopt (by simp)
        | some p1 =>
          cases ht2 : t.2 with
          | none => rw [hs2, ht2] at hopt; exact absurd hopt (by simp)
          | some p2 =>
            rw [hs2, ht2] at hopt
            simp only [Option.map_some', Option.some.injEq] at hopt
            have hplen : p1.length = p2.length := by
              rw [← sortCF_length p1, ← sortCF_length p2, hopt]
            show Option.map sortCF
                (if p1.length = 0 ∧ fs1.length > 0 then some fs1 else some p1)
              = Option.map sortCF
                (if p2.length = 0 ∧ fs2.length > 0 then some fs2 else some p2)
            by_cases hcond : p1.length = 0 ∧ fs1.length > 0
            · rw [if_pos hcond, if_pos (by rw [← hplen, ← hlen]; exact hcond)]
              simp [hsf]
            · rw [if_neg hcond, if_neg (by rw [← hplen, ← hlen]; exact hcond)]
              simp [hopt]
  · rw [if_neg hk, if_neg (fun hh => hk ((mem_keysOf_rel ho key).mpr hh))]
    exact ⟨hc, hopt⟩

/-- Folding the `findNestedObject` loop preserves the state relation. -/
theorem findNO_foldl_rel (key : Str) :
    ∀ {l1 l2 : List Value}, List.Forall₂ crel l1 l2 → (∀ a ∈ l1, wfv a = true) →
      ∀ (s t : FindCounts × Option (List (Str × Value))), s.1 = t.1 →
        s.2.map sortCF = t.2.map sortCF →
        (l1.foldl (findNOStep key) s).1 = (l2.foldl (findNOStep key) t).1 ∧
          (l1.foldl (findNOStep key) s).2.map sortCF
            = (l2.foldl (findNOStep key) t).2.map sortCF := by
  intro l1 l2 h
  induction h with
  | nil => intro _ s t hc hopt; exact ⟨hc, hopt⟩
  | @cons a b la lb hab htl ih =>
    intro hw s t hc hopt
    rw [List.foldl_cons, List.foldl_cons]
    have hstep := findNOStep_rel key hab (hw a (by simp)) hc hopt
    exact ih (fun v hv => hw v (by simp [hv])) _ _ hstep.1 hstep.2

/-- `findNestedObject` only depends on the canonical forms of the
objects (up to canonicalizing the chosen representative object). -/
theorem findNestedObject_rel (key : Str) {l1 l2 : List Value}
    (hf : List.Forall₂ crel l1 l2) (hw : ∀ a ∈ l1, wfv a = true) :
    (findNestedObject l1 key).map sortCF = (findNestedObject l2 key).map sortCF := by
  simp only [findNestedObject]
  obtain ⟨h1, h2⟩ := findNO_foldl_rel key hf hw ⟨⟨0, 0, 0⟩, none⟩ ⟨⟨0, 0, 0⟩, none⟩ rfl rfl
  generalize hg1 : List.foldl (findNOStep key) ⟨⟨0, 0, 0⟩, none⟩ l1 = S1 at h1 h2 ⊢
  generalize hg2 : List.foldl (findNOStep key) ⟨⟨0, 0, 0⟩, none⟩ l2 = S2 at h1 h2 ⊢
  rw [h1]
  by_cases hcond : S2.1.objectCount > S2.1.primitiveCount ∧ S2.1.objectCount > S2.1.arrayCount
  · rw [if_pos hcond, if_pos hcond]
    exact h2
  · rw [if_neg hcond, if_neg hcond]

/-- The `findNestedObject` loop body preserves well-formedness of the
representative candidate. -/
theorem findNOStep_wf (key : Str) {o : Value} {s : FindCounts × Option (List (Str × Value))}
    (wo : wfv o = true) (hs : ∀ fs, s.2 = some fs → wfv (.vobj fs) = true) :
    ∀ fs, (findNOStep key s o).2 = some fs → wfv (.vobj fs) = true := by
  unfold findNOStep
  by_cases hk : key ∈ keysOf o
  · rw [if_pos hk]
    cases h1 : lookupV o key with
    | none => exact hs
    | some v =>
      cases v with
      | vnull => exact hs
      | vbool b => exact hs
      | vnum n => exact hs
      | vdec d => exact hs
      | vstr t => exact hs
      | varr la => exact hs
      | vobj fs0 =>
        have hw0 : wfv (.vobj fs0) = true := wfv_lookupV wo h1
        intro fs hl
        cases hs2 : s.2 with
        | none =>
          rw [hs2] at hl
          have hl' : some fs0 = some fs := hl
          rw [← Option.some.inj hl']
          exact hw0
        | some prev =>
          rw [hs2] at hl
          have hl' : (if prev.length = 0 ∧ fs0.length > 0 then some fs0 else some prev)
              = some fs := hl
          by_cases hcond : prev.length = 0 ∧ fs0.length > 0
          · rw [if_pos hcond] at hl'
            rw [← Option.some.inj hl']
            exact hw0
          · rw [if_neg hcond] at hl'
            rw [← Option.some.inj hl']
            exact hs prev hs2
  · rw [if_neg hk]
    exact hs

/-- Folding the `findNestedObject` loop preserves well-formedness. -/
theorem findNO_foldl_wf (key : Str) :
    ∀ (l : List Value) (s : FindCounts × Option (List (Str × Value))),
    (∀ a ∈ l, wfv a = true) → (∀ fs, s.2 = some fs → wfv (.vobj fs) = true) →
    ∀ fs, (l.foldl (findNOStep key) s).2 = some fs → wfv (.vobj fs) = true
  | [], _, _, hs => hs
  | o :: l, s, hw, hs => by
    rw [List.foldl_cons]
    exact findNO_foldl_wf key l _ (fun a ha => hw a (by simp [ha]))
      (findNOStep_wf key (hw o (by simp)) hs)

/-- The representative object chosen by `findNestedObject` from
well-formed objects is well-formed. -/
theorem findNestedObject_wf (key : Str) {l : List Value} (hw : ∀ a ∈ l, wfv a = true)
    {fo : List (Str × Value)} (hfo : findNestedObject l key = some fo) :
    wfv (.vobj fo) = true := by
  simp only [findNestedObject] at hfo
  have hwf := findNO_foldl_wf key l ⟨⟨0, 0, 0⟩, none⟩ hw
    (by intro fs h; exact absurd h (by simp))
  generalize hg : List.foldl (findNOStep key) ⟨⟨0, 0, 0⟩, none⟩ l = S at hfo hwf
  by_cases hcond : S.1.objectCount > S.1.primitiveCount ∧ S.1.objectCount > S.1.arrayCount
  · rw [if_pos hcond] at hfo
    exact hwf fo hfo
  · rw [if_neg hcond] at hfo
    exact absurd hfo (by simp)

/-- Relation between schema fields from two runs on canonically equal
data: equal name, type and optionality; canonically equal, well-formed
representatives. -/
def sfRel (f g : SchemaField) : Prop :=
  f.name = g.name ∧ f.type = g.type ∧ f.isOptional = g.isOptional ∧
    f.nested.map canon = g.nested.map canon ∧
    (∀ v, f.nested = some v → wfv v = true) ∧
    (∀ v, g.nested = some v → wfv v = true)

/-- `orderedInsert` transports a relation that determines the order. -/
theorem orderedInsert_forall2 {α : Type} {R : α → α → Prop} {le : α → α → Prop}
    [DecidableRel le]
    (hle : ∀ a b a' b', R a a' → R b b' → (le a b ↔ le a' b')) :
    ∀ {l1 l2 : List α} {a b : α}, R a b → List.Forall₂ R l1 l2 →
      List.Forall₂ R (List.orderedInsert le a l1) (List.orderedInsert le b l2) := by
  intro l1 l2 a b hab h
  induction h with
  | nil => exact List.Forall₂.cons hab List.Forall₂.nil
  | @cons c d lc ld hcd htl ih =>
    by_cases hl : le a c
    · rw [List.orderedInsert, if_pos hl,
        List.orderedInsert, if_pos ((hle a c b d hab hcd).mp hl)]
      exact List.Forall₂.cons hab (List.Forall₂.cons hcd htl)
    · rw [List.orderedInsert, if_neg hl,
        List.orderedInsert, if_neg (fun hh => hl ((hle a c b d hab hcd).mpr hh))]
      exact List.Forall₂.cons hcd ih

/-- `insertionSort` transports a relation that determines the order. -/
theorem insertionSort_forall2 {α : Type} {R : α → α → Prop} {le : α → α → Prop}
    [DecidableRel le]
    (hle : ∀ a b a' b', R a a' → R b b' → (le a b ↔ le a' b')) :
    ∀ {l1 l2 : List α}, List.Forall₂ R l1 l2 →
      List.Forall₂ R (List.insertionSort le l1) (List.insertionSort le l2) := by
  intro l1 l2 h
  induction h with
  | nil => exact List.Forall₂.nil
  | @cons a b la lb hab htl ih =>
    rw [List.insertionSort, List.insertionSort]
    exact orderedInsert_forall2 hle hab ih

/-- The schema-field comparator only reads the components fixed by
`sfRel`. -/
theorem schemaFieldLe_rel {a b a' b' : SchemaField} (ha : sfRel a a') (hb : sfRel b b') :
    schemaFieldLe a b ↔ schemaFieldLe a' b' := by
  unfold schemaFieldLe
  rw [ha.2.1, hb.2.1, ha.2.2.1, hb.2.2.1]

/-- Mapping two functions over the same list, pointwise related. -/
theorem forall2_map_same {α β : Type} {R : β → β → Prop} {F G : α → β} :
    ∀ (l : List α), (∀ x ∈ l, R (F x) (G x)) → List.Forall₂ R (l.map F) (l.map G)
  | [], _ => List.Forall₂.nil
  | x :: xs, h =>
    List.Forall₂.cons (h x (by simp))
      (forall2_map_same xs (fun y hy => h y (by simp [hy])))

/-- `analyzeArrayFields` produces pointwise `sfRel`-related field lists
on canonically equal well-formed arrays. -/
theorem analyzeArrayFields_rel {l1 l2 : List Value} (hf : List.Forall₂ crel l1 l2)
    (hw1 : ∀ a ∈ l1, wfv a = true) (hw2 : ∀ a ∈ l2, wfv a = true) :
    List.Forall₂ sfRel (analyzeArrayFields l1) (analyzeArrayFields l2) := by
  unfold analyzeArrayFields
  have hlen : l1.length = l2.length := hf.length_eq
  by_cases h0 : l1.length = 0
  · have h0b : l2.length = 0 := by rw [← hlen]; exact h0
    rw [if_pos h0, if_pos h0b]
    exact List.Forall₂.nil
  · have h0b : ¬l2.length = 0 := by rw [← hlen]; exact h0
    rw [if_neg h0, if_neg h0b]
    have hao : isArrayOfObjects l1 = isArrayOfObjects l2 :=
      isArrayOfObjects_rel (map_eq_of_forall2 hf)
    by_cases hobj : isArrayOfObjects l1 = true
    · have hobjb : isArrayOfObjects l2 = true := by rw [← hao]; exact hobj
      rw [if_pos hobj, if_pos hobjb]
      have hkeys : getAllKeys l1 = getAllKeys l2 := getAllKeys_rel hf
      refine @insertionSort_forall2 SchemaField sfRel schemaFieldLe _
        (fun a b a' b' ha hb => schemaFieldLe_rel ha hb) _ _ ?_
      rw [← hkeys]
      apply forall2_map_same
      intro key hkmem
      simp only []
      have hopt : (analyzeFields l1 key).getD false = (analyzeFields l2 key).getD false := by
        rw [analyzeFields_rel hf hw1 key]
      have hna := findNestedArray_rel key hf hw1
      cases hna1 : findNestedArray l1 key with
      | some fa1 =>
        cases hna2 : findNestedArray l2 key with
        | none => rw [hna1, hna2] at hna; exact absurd hna (by simp)
        | some fa2 =>
          rw [hna1, hna2] at hna
          simp only [Option.map_some', Option.some.injEq] at hna
          refine ⟨rfl, rfl, hopt, ?_, ?_, ?_⟩
          · simp only [Option.map_some', Option.some.injEq]
            show canon (.varr fa1) = canon (.varr fa2)
            simp [canon, canonList_eq_map, hna]
          · intro v hv
            have hv2 : some (Value.varr fa1) = some v := hv
            rw [← Option.some.inj hv2]
            have : wfvList fa1 = true := wfvList_of_forall fa1 (findNestedArray_wf key hw1 hna1)
            simpa [wfv] using this
          · intro v hv
            have hv2 : some (Value.varr fa2) = some v := hv
            rw [← Option.some.inj hv2]
            have : wfvList fa2 = true := wfvList_of_forall fa2 (findNestedArray_wf key hw2 hna2)
            simpa [wfv] using this
      | none =>
        cases hna2 : findNestedArray l2 key with
        | some fa2 => rw [hna1, hna2] at hna; exact absurd hna (by simp)
        | none =>
          have hno := findNestedObject_rel key hf hw1
          cases hno1 : findNestedObject l1 key with
          | some fo1 =>
            cases hno2 : findNestedObject l2 key with
            | none => rw [hno1, hno2] at hno; exact absurd hno (by simp)
            | some fo2 =>
              rw [hno1, hno2] at hno
              simp only [Option.map_some', Option.some.injEq] at hno
              refine ⟨rfl, rfl, hopt, ?_, ?_, ?_⟩
              · simp only [Option.map_some', Option.some.injEq]
                show canon (.vobj fo1) = canon (.vobj fo2)
                show Value.vobj (List.insertionSort keyLe (canonFields fo1))
                    = Value.vobj (List.insertionSort keyLe (canonFields fo2))
                have : sortCF fo1 = sortCF fo2 := hno
                simpa [sortCF] using this
              · intro v hv
                have hv2 : some (Value.vobj fo1) = some v := hv
                rw [← Option.some.inj hv2]
                exact findNestedObject_wf key hw1 hno1
              · intro v hv
                have hv2 : some (Value.vobj fo2) = some v := hv
                rw [← Option.some.inj hv2]
                exact findNestedObject_wf key hw2 hno2
          | none =>
            cases hno2 : findNestedObject l2 key with
            | some fo2 => rw [hno1, hno2] at hno; exact absurd hno (by simp)
            | none =>
              have hfr := @find?_rel (fun o => decide (key ∈ keysOf o)) l1 l2 hf
                (fun a b _ _ hab => by
                  simp only [decide_eq_decide]
                  exact mem_keysOf_rel hab key)
              rcases hfr with ⟨hf1, hf2⟩ | ⟨o1, o2, hf1, hf2, hrel, hm1, hm2⟩
              · rw [hf1, hf2]
                exact ⟨rfl, rfl, hopt, rfl,
                  fun v hv => absurd hv (by simp),
                  fun v hv => absurd hv (by simp)⟩
              · rw [hf1, hf2]
                rw [show ((some o1).bind fun x => lookupV x key) = lookupV o1 key from rfl,
                  show ((some o2).bind fun x => lookupV x key) = lookupV o2 key from rfl]
                have hlk := lookupV_rel hrel (hw1 o1 hm1) key
                cases hv1 : lookupV o1 key with
                | none =>
                  cases hv2 : lookupV o2 key with
                  | none =>
                    exact ⟨rfl, rfl, hopt, rfl,
                      fun v hv => absurd hv (by simp),
                      fun v hv => absurd hv (by simp)⟩
                  | some w2 => rw [hv1, hv2] at hlk; exact absurd hlk (by simp)
                | some w1 =>
                  cases hv2 : lookupV o2 key with
                  | none => rw [hv1, hv2] at hlk; exact absurd hlk (by simp)
                  | some w2 =>
                    rw [hv1, hv2] at hlk
                    simp only [Option.map_some', Option.some.injEq] at hlk
                    cases w1 <;> cases w2 <;> try (exfalso; simp [canon] at hlk; done)
                    all_goals try
                      exact ⟨rfl, rfl, hopt, rfl,
                        fun v hv => absurd hv (by simp),
                        fun v hv => absurd hv (by simp)⟩
                    next la lb =>
                    have hm : List.map canon la = List.map canon lb := by
                      simpa [canon, canonList_eq_map] using hlk
                    have hlen2 : la.length = lb.length := by
                      have := congrArg List.length hm
                      simpa using this
                    show sfRel
                      (if la.length = 0 ∨ ¬isArrayOfObjects la = true then
                        ⟨key, FT.fprimitiveArray, (analyzeFields l1 key).getD false, none⟩
                      else ⟨key, FT.fprimitive, (analyzeFields l1 key).getD false, none⟩)
                      (if lb.length = 0 ∨ ¬isArrayOfObjects lb = true then
                        ⟨key, FT.fprimitiveArray, (analyzeFields l2 key).getD false, none⟩
                      else ⟨key, FT.fprimitive, (analyzeFields l2 key).getD false, none⟩)
                    by_cases hcnd : la.length = 0 ∨ ¬isArrayOfObjects la = true
                    · rw [if_pos hcnd,
                        if_pos (by rw [← hlen2, ← isArrayOfObjects_rel hm]; exact hcnd)]
                      exact ⟨rfl, rfl, hopt, rfl,
                        fun v hv => absurd hv (by simp),
                        fun v hv => absurd hv (by simp)⟩
                    · rw [if_neg hcnd,
                        if_neg (by rw [← hlen2, ← isArrayOfObjects_rel hm]; exact hcnd)]
                      exact ⟨rfl, rfl, hopt, rfl,
                        fun v hv => absurd hv (by simp),
                        fun v hv => absurd hv (by simp)⟩
    · have hobjb : ¬isArrayOfObjects l2 = true := by rw [← hao]; exact hobj
      rw [if_neg hobj, if_neg hobjb]
      exact List.Forall₂.nil

/-- `vsizeFields` as a sum over entry value sizes. -/
theorem vsizeFields_eq_sum : ∀ (l : List (Str × Value)),
    vsizeFields l = (l.map (fun kv => vsize kv.2)).sum
  | [] => rfl
  | (k, v) :: xs => by
    rw [vsizeFields, List.map_cons, List.sum_cons, vsizeFields_eq_sum xs]

/-- `vsizeFields` is permutation-invariant. -/
theorem vsizeFields_perm {l1 l2 : List (Str × Value)} (p : List.Perm l1 l2) :
    vsizeFields l1 = vsizeFields l2 := by
  rw [vsizeFields_eq_sum, vsizeFields_eq_sum]
  exact (p.map (fun kv => vsize kv.2)).sum_eq

mutual

/-- `canon` preserves `vsize`. -/
theorem vsize_canon : ∀ (v : Value), vsize (canon v) = vsize v
  | .vnull => rfl
  | .vbool _ => rfl
  | .vnum _ => rfl
  | .vdec _ => rfl
  | .vstr _ => rfl
  | .varr xs => by
    show 1 + vsizeList (canonList xs) = 1 + vsizeList xs
    rw [vsizeList_canon xs]
  | .vobj xs => by
    show 1 + vsizeFields (List.insertionSort keyLe (canonFields xs)) = 1 + vsizeFields xs
    rw [vsizeFields_perm (List.perm_insertionSort keyLe (canonFields xs)), vsizeFields_canon xs]

theorem vsizeList_canon : ∀ (l : List Value), vsizeList (canonList l) = vsizeList l
  | [] => rfl
  | x :: xs => by
    show vsize (canon x) + vsizeList (canonList xs) = vsize x + vsizeList xs
    rw [vsize_canon x, vsizeList_canon xs]

theorem vsizeFields_canon : ∀ (l : List (Str × Value)),
    vsizeFields (canonFields l) = vsizeFields l
  | [] => rfl
  | (k, v) :: xs => by
    show vsize (canon v) + vsizeFields (canonFields xs) = vsize v + vsizeFields xs
    rw [vsize_canon v, vsizeFields_canon xs]

end

/-- Mapping a relation-respecting function over pointwise related lists. -/
theorem map_eq_of_rel {α β : Type} {R : α → α → Prop} {F : α → β} :
    ∀ {l1 l2 : List α}, List.Forall₂ R l1 l2 → (∀ a b, R a b → F a = F b) →
      l1.map F = l2.map F := by
  intro l1 l2 h
  induction h with
  | nil => intro _; rfl
  | @cons a b la lb hab htl ih =>
    intro hF
    rw [List.map_cons, List.map_cons, hF a b hab, ih hF]

/-- The per-field schema string of the array generators only depends on
the `sfRel`-class of the field, given that the nested generators do so
at the next fuel level. -/
theorem sfField_string_rel (cfg : PloonConfig) (fuel : Nat)
    (ihNA : ∀ (name : Str) (l1 l2 : List Value) (opt : Bool), List.Forall₂ crel l1 l2 →
      (∀ a ∈ l1, wfv a = true) → (∀ a ∈ l2, wfv a = true) →
      generateNestedArraySchemaF fuel name l1 opt cfg
        = generateNestedArraySchemaF fuel name l2 opt cfg)
    (ihNO : ∀ (name : Str) (fs1 fs2 : List (Str × Value)) (opt : Bool),
      sortCF fs1 = sortCF fs2 → wfv (.vobj fs1) = true → wfv (.vobj fs2) = true →
      generateNestedObjectSchemaF fuel name fs1 opt cfg
        = generateNestedObjectSchemaF fuel name fs2 opt cfg)
    {f g : SchemaField} (hfg : sfRel f g) :
    (match f.type, f.nested with
      | FT.farray, some (.varr nested) =>
        generateNestedArraySchemaF fuel f.name nested f.isOptional cfg
      | FT.fobject, some (.vobj nested) =>
        generateNestedObjectSchemaF fuel f.name nested f.isOptional cfg
      | FT.fprimitiveArray, _ =>
        formatFieldName f.name f.isOptional cfg
          ++ cfg.arraySizeMarker ++ cfg.fieldsOpen ++ cfg.fieldsClose
      | _, _ => formatFieldName f.name f.isOptional cfg)
    = (match g.type, g.nested with
      | FT.farray, some (.varr nested) =>
        generateNestedArraySchemaF fuel g.name nested g.isOptional cfg
      | FT.fobject, some (.vobj nested) =>
        generateNestedObjectSchemaF fuel g.name nested g.isOptional cfg
      | FT.fprimitiveArray, _ =>
        formatFieldName g.name g.isOptional cfg
          ++ cfg.arraySizeMarker ++ cfg.fieldsOpen ++ cfg.fieldsClose
      | _, _ => formatFieldName g.name g.isOptional cfg) := by
  obtain ⟨hname, htype, hopt2, hnest, hwf, hwg⟩ := hfg
  cases f with
  | mk fname ftype fopt fnest =>
  cases g with
  | mk gname gtype gopt gnest =>
  dsimp only at hname htype hopt2 hnest hwf hwg ⊢
  subst hname
  subst htype
  subst hopt2
  cases ftype with
  | fprimitive =>
    cases fnest with
    | none =>
      cases gnest with
      | none => rfl
      | some v2 => cases v2 <;> rfl
    | some v1 =>
      cases gnest with
      | none => cases v1 <;> rfl
      | some v2 => cases v1 <;> cases v2 <;> rfl
  | fprimitiveArray =>
    cases fnest with
    | none =>
      cases gnest with
      | none => rfl
      | some v2 => cases v2 <;> rfl
    | some v1 =>
      cases gnest with
      | none => cases v1 <;> rfl
      | some v2 => cases v1 <;> cases v2 <;> rfl
  | farray =>
    cases fnest with
    | none =>
      cases gnest with
      | none => rfl
      | some v2 => exact absurd hnest (by simp)
    | some v1 =>
      cases gnest with
      | none => exact absurd hnest (by simp)
      | some v2 =>
        simp only [Option.map_some', Option.some.injEq] at hnest
        cases v1 <;> cases v2 <;> try (exfalso; simp [canon] at hnest; done)
        all_goals try rfl
        next n1 n2 =>
        have hm : List.map canon n1 = List.map canon n2 := by
          simpa [canon, canonList_eq_map] using hnest
        exact ihNA fname n1 n2 fopt (forall2_of_map_eq canon n1 n2 hm)
          (wfvList_mem n1 (by simpa [wfv] using hwf (Value.varr n1) rfl))
          (wfvList_mem n2 (by simpa [wfv] using hwg (Value.varr n2) rfl))
  | fobject =>
    cases fnest with
    | none =>
      cases gnest with
      | none => rfl
      | some v2 => exact absurd hnest (by simp)
    | some v1 =>
      cases gnest with
      | none => exact absurd hnest (by simp)
      | some v2 =>
        simp only [Option.map_some', Option.some.injEq] at hnest
        cases v1 <;> cases v2 <;> try (exfalso; simp [canon] at hnest; done)
        all_goals try rfl
        next fsa fsb =>
        have hsf : sortCF fsa = sortCF fsb := by
          simpa [canon, sortCF] using hnest
        exact ihNO fname fsa fsb fopt hsf (hwf (Value.vobj fsa) rfl) (hwg (Value.vobj fsb) rfl)

/-- All three schema generators depend only on the canonical forms of
well-formed inputs, at every fuel level. -/
theorem genSchema_rel (cfg : PloonConfig) : ∀ (fuel : Nat),
    (∀ (name : Str) (l1 l2 : List Value), List.Forall₂ crel l1 l2 →
      (∀ a ∈ l1, wfv a = true) → (∀ a ∈ l2, wfv a = true) →
      generateArraySchemaF fuel name l1 cfg = generateArraySchemaF fuel name l2 cfg) ∧
    (∀ (name : Str) (l1 l2 : List Value) (opt : Bool), List.Forall₂ crel l1 l2 →
      (∀ a ∈ l1, wfv a = true) → (∀ a ∈ l2, wfv a = true) →
      generateNestedArraySchemaF fuel name l1 opt cfg
        = generateNestedArraySchemaF fuel name l2 opt cfg) ∧
    (∀ (name : Str) (fs1 fs2 : List (Str × Value)) (opt : Bool),
      sortCF fs1 = sortCF fs2 → wfv (.vobj fs1) = true → wfv (.vobj fs2) = true →
      generateNestedObjectSchemaF fuel name fs1 opt cfg
        = generateNestedObjectSchemaF fuel name fs2 opt cfg) := by
  intro fuel
  induction fuel with
  | zero =>
    exact ⟨fun _ _ _ _ _ _ => rfl, fun _ _ _ _ _ _ _ => rfl, fun _ _ _ _ _ _ _ => rfl⟩
  | succ fuel ih =>
    obtain ⟨ihA, ihNA, ihNO⟩ := ih
    refine ⟨?_, ?_, ?_⟩
    · intro name l1 l2 hf hw1 hw2
      have hfields := analyzeArrayFields_rel hf hw1 hw2
      have hFB : (analyzeArrayFields l1).map (fun f =>
            match f.type, f.nested with
            | FT.farray, some (.varr nested) =>
              generateNestedArraySchemaF fuel f.name nested f.isOptional cfg
            | FT.fobject, some (.vobj nested) =>
              generateNestedObjectSchemaF fuel f.name nested f.isOptional cfg
            | FT.fprimitiveArray, _ =>
              formatFieldName f.name f.isOptional cfg
                ++ cfg.arraySizeMarker ++ cfg.fieldsOpen ++ cfg.fieldsClose
            | _, _ => formatFieldName f.name f.isOptional cfg)
          = (analyzeArrayFields l2).map (fun f =>
            match f.type, f.nested with
            | FT.farray, some (.varr nested) =>
              generateNestedArraySchemaF fuel f.name nested f.isOptional cfg
            | FT.fobject, some (.vobj nested) =>
              generateNestedObjectSchemaF fuel f.name nested f.isOptional cfg
            | FT.fprimitiveArray, _ =>
              formatFieldName f.name f.isOptional cfg
                ++ cfg.arraySizeMarker ++ cfg.fieldsOpen ++ cfg.fieldsClose
            | _, _ => formatFieldName f.name f.isOptional cfg) :=
        map_eq_of_rel hfields (fun a b hab => sfField_string_rel cfg fuel ihNA ihNO hab)
      show cfg.schemaOpen ++ name ++ cfg.arraySizeMarker ++ intToStr l1.length
            ++ cfg.schemaClose ++ cfg.fieldsOpen
            ++ joinSep cfg.schemaFieldSeparator ((analyzeArrayFields l1).map (fun f =>
            match f.type, f.nested with
            | FT.farray, some (.varr nested) =>
              generateNestedArraySchemaF fuel f.name nested f.isOptional cfg
            | FT.fobject, some (.vobj nested) =>
              generateNestedObjectSchemaF fuel f.name nested f.isOptional cfg
            | FT.fprimitiveArray, _ =>
              formatFieldName f.name f.isOptional cfg
                ++ cfg.arraySizeMarker ++ cfg.fieldsOpen ++ cfg.fieldsClose
            | _, _ => formatFieldName f.name f.isOptional cfg))
            ++ cfg.fieldsClose
        = cfg.schemaOpen ++ name ++ cfg.arraySizeMarker ++ intToStr l2.length
            ++ cfg.schemaClose ++ cfg.fieldsOpen
            ++ joinSep cfg.schemaFieldSeparator ((analyzeArrayFields l2).map (fun f =>
            match f.type, f.nested with
            | FT.farray, some (.varr nested) =>
              generateNestedArraySchemaF fuel f.name nested f.isOptional cfg
            | FT.fobject, some (.vobj nested) =>
              generateNestedObjectSchemaF fuel f.name nested f.isOptional cfg
            | FT.fprimitiveArray, _ =>
              formatFieldName f.name f.isOptional cfg
                ++ cfg.arraySizeMarker ++ cfg.fieldsOpen ++ cfg.fieldsClose
            | _, _ => formatFieldName f.name f.isOptional cfg))
            ++ cfg.fieldsClose
      rw [hf.length_eq, hFB]
    · intro name l1 l2 opt hf hw1 hw2
      have hfields := analyzeArrayFields_rel hf hw1 hw2
      have hFB : (analyzeArrayFields l1).map (fun f =>
            match f.type, f.nested with
            | FT.farray, some (.varr nested) =>
              generateNestedArraySchemaF fuel f.name nested f.isOptional cfg
            | FT.fobject, some (.vobj nested) =>
              generateNestedObjectSchemaF fuel f.name nested f.isOptional cfg
            | FT.fprimitiveArray, _ =>
              formatFieldName f.name f.isOptional cfg
                ++ cfg.arraySizeMarker ++ cfg.fieldsOpen ++ cfg.fieldsClose
            | _, _ => formatFieldName f.name f.isOptional cfg)
          = (analyzeArrayFields l2).map (fun f =>
            match f.type, f.nested with
            | FT.farray, some (.varr nested) =>
              generateNestedArraySchemaF fuel f.name nested f.isOptional cfg
            | FT.fobject, some (.vobj nested) =>
              generateNestedObjectSchemaF fuel f.name nested f.isOptional cfg
            | FT.fprimitiveArray, _ =>
              formatFieldName f.name f.isOptional cfg
                ++ cfg.arraySizeMarker ++ cfg.fieldsOpen ++ cfg.fieldsClose
            | _, _ => formatFieldName f.name f.isOptional cfg) :=
        map_eq_of_rel hfields (fun a b hab => sfField_string_rel cfg fuel ihNA ihNO hab)
      show formatFieldName name opt cfg ++ cfg.arraySizeMarker ++ intToStr l1.length
            ++ cfg.fieldsOpen
            ++ joinSep cfg.schemaFieldSeparator ((analyzeArrayFields l1).map (fun f =>
            match f.type, f.nested with
            | FT.farray, some (.varr nested) =>
              generateNestedArraySchemaF fuel f.name nested f.isOptional cfg
            | FT.fobject, some (.vobj nested) =>
              generateNestedObjectSchemaF fuel f.name nested f.isOptional cfg
            | FT.fprimitiveArray, _ =>
              formatFieldName f.name f.isOptional cfg
                ++ cfg.arraySizeMarker ++ cfg.fieldsOpen ++ cfg.fieldsClose
            | _, _ => formatFieldName f.name f.isOptional cfg))
            ++ cfg.fieldsClose
        = formatFieldName name opt cfg ++ cfg.arraySizeMarker ++ intToStr l2.length
            ++ cfg.fieldsOpen
            ++ joinSep cfg.schemaFieldSeparator ((analyzeArrayFields l2).map (fun f =>
            match f.type, f.nested with
            | FT.farray, some (.varr nested) =>
              generateNestedArraySchemaF fuel f.name nested f.isOptional cfg
            | FT.fobject, some (.vobj nested) =>
              generateNestedObjectSchemaF fuel f.name nested f.isOptional cfg
            | FT.fprimitiveArray, _ =>
              formatFieldName f.name f.isOptional cfg
                ++ cfg.arraySizeMarker ++ cfg.fieldsOpen ++ cfg.fieldsClose
            | _, _ => formatFieldName f.name f.isOptional cfg))
            ++ cfg.fieldsClose
      rw [hf.length_eq, hFB]
    · intro name fs1 fs2 opt hs hwv1 hwv2
      have hnd1 := wfv_nodup hwv1
      have hcrel : crel (.vobj fs1) (.vobj fs2) := congrArg Value.vobj hs
      have hkeys : sortKeys (fs1.map Prod.fst) = sortKeys (fs2.map Prod.fst) :=
        sortKeys_perm_eq (keysOf_rel hcrel)
      have hlook : ∀ k, Option.map canon (lookupV (.vobj fs1) k)
          = Option.map canon (lookupV (.vobj fs2) k) := fun k => lookup_canonEq hs hnd1 k
      have hlk : ∀ k, (lookupV (.vobj fs1) k = none ∧ lookupV (.vobj fs2) k = none)
          ∨ ∃ u1 u2, lookupV (.vobj fs1) k = some u1 ∧ lookupV (.vobj fs2) k = some u2
              ∧ canon u1 = canon u2 := by
        intro k
        have h := hlook k
        cases h1 : lookupV (.vobj fs1) k with
        | none =>
          cases h2 : lookupV (.vobj fs2) k with
          | none => exact Or.inl ⟨rfl, rfl⟩
          | some u2 => rw [h1, h2] at h; exact absurd h (by simp)
        | some u1 =>
          cases h2 : lookupV (.vobj fs2) k with
          | none => rw [h1, h2] at h; exact absurd h (by simp)
          | some u2 =>
            rw [h1, h2] at h
            simp only [Option.map_some', Option.some.injEq] at h
            exact Or.inr ⟨u1, u2, rfl, rfl, h⟩
      have hP : ∀ k, (match lookupV (.vobj fs1) k with
            | some (.varr l) => l.length = 0 ∨ ¬isArrayOfObjects l
            | some (.vobj _) => false
            | _ => true : Bool)
          = (match lookupV (.vobj fs2) k with
            | some (.varr l) => l.length = 0 ∨ ¬isArrayOfObjects l
            | some (.vobj _) => false
            | _ => true : Bool) := by
        intro k
        rcases hlk k with ⟨h1, h2⟩ | ⟨u1, u2, h1, h2, hc⟩
        · rw [h1, h2]
        · rw [h1, h2]
          cases u1 <;> cases u2 <;> try (exfalso; simp [canon] at hc; done)
          all_goals try rfl
          next la lb =>
          have hm : List.map canon la = List.map canon lb := by
            simpa [canon, canonList_eq_map] using hc
          have hlen2 : la.length = lb.length := by
            have := congrArg List.length hm
            simpa using this
          show decide (la.length = 0 ∨ ¬isArrayOfObjects la = true)
            = decide (lb.length = 0 ∨ ¬isArrayOfObjects lb = true)
          rw [hlen2, isArrayOfObjects_rel hm]
      have hQ : ∀ k, (match lookupV (.vobj fs1) k with
            | some (.varr l) => l.length ≠ 0 ∧ isArrayOfObjects l
            | some (.vobj fs) => fs.length ≠ 0
            | _ => false : Bool)
          = (match lookupV (.vobj fs2) k with
            | some (.varr l) => l.length ≠ 0 ∧ isArrayOfObjects l
            | some (.vobj fs) => fs.length ≠ 0
            | _ => false : Bool) := by
        intro k
        rcases hlk k with ⟨h1, h2⟩ | ⟨u1, u2, h1, h2, hc⟩
        · rw [h1, h2]
        · rw [h1, h2]
          cases u1 <;> cases u2 <;> try (exfalso; simp [canon] at hc; done)
          all_goals try rfl
          next la lb =>
            have hm : List.map canon la = List.map canon lb := by
              simpa [canon, canonList_eq_map] using hc
            have hlen2 : la.length = lb.length := by
              have := congrArg List.length hm
              simpa using this
            show decide (la.length ≠ 0 ∧ isArrayOfObjects la = true)
              = decide (lb.length ≠ 0 ∧ isArrayOfObjects lb = true)
            rw [hlen2, isArrayOfObjects_rel hm]
          next fsa fsb =>
            have hsf : sortCF fsa = sortCF fsb := by
              simpa [canon, sortCF] using hc
            have hlenf : fsa.length = fsb.length := by
              rw [← sortCF_length fsa, ← sortCF_length fsb, hsf]
            show decide (fsa.length ≠ 0) = decide (fsb.length ≠ 0)
            rw [hlenf]
      have hR : ∀ k, (match lookupV (.vobj fs1) k with
            | some (.vobj fs) => fs.length = 0
            | _ => false : Bool)
          = (match lookupV (.vobj fs2) k with
            | some (.vobj fs) => fs.length = 0
            | _ => false : Bool) := by
        intro k
        rcases hlk k with ⟨h1, h2⟩ | ⟨u1, u2, h1, h2, hc⟩
        · rw [h1, h2]
        · rw [h1, h2]
          cases u1 <;> cases u2 <;> try (exfalso; simp [canon] at hc; done)
          all_goals try rfl
          next fsa fsb =>
          have hsf : sortCF fsa = sortCF fsb := by
            simpa [canon, sortCF] using hc
          have hlenf : fsa.length = fsb.length := by
            rw [← sortCF_length fsa, ← sortCF_length fsb, hsf]
          show decide (fsa.length = 0) = decide (fsb.length = 0)
          rw [hlenf]
      have hG : ∀ k, (match lookupV (.vobj fs1) k with
            | some (.varr _) =>
              k ++ cfg.arraySizeMarker ++ cfg.fieldsOpen ++ cfg.fieldsClose
            | _ => k : Str)
          = (match lookupV (.vobj fs2) k with
            | some (.varr _) =>
              k ++ cfg.arraySizeMarker ++ cfg.fieldsOpen ++ cfg.fieldsClose
            | _ => k : Str) := by
        intro k
        rcases hlk k with ⟨h1, h2⟩ | ⟨u1, u2, h1, h2, hc⟩
        · rw [h1, h2]
        · rw [h1, h2]
          cases u1 <;> cases u2 <;> try (exfalso; simp [canon] at hc; done)
          all_goals rfl
      have hH : ∀ k, (match lookupV (.vobj fs1) k with
            | some (.varr l) => generateNestedArraySchemaF fuel k l false cfg
            | some (.vobj fs) => generateNestedObjectSchemaF fuel k fs false cfg
            | _ => [] : Str)
          = (match lookupV (.vobj fs2) k with
            | some (.varr l) => generateNestedArraySchemaF fuel k l false cfg
            | some (.vobj fs) => generateNestedObjectSchemaF fuel k fs false cfg
            | _ => [] : Str) := by
        intro k
        rcases hlk k with ⟨h1, h2⟩ | ⟨u1, u2, h1, h2, hc⟩
        · rw [h1, h2]
        · rw [h1, h2]
          cases u1 <;> cases u2 <;> try (exfalso; simp [canon] at hc; done)
          all_goals try rfl
          next la lb =>
            have hm : List.map canon la = List.map canon lb := by
              simpa [canon, canonList_eq_map] using hc
            exact ihNA k la lb false (forall2_of_map_eq canon la lb hm)
              (wfvList_mem la (by simpa [wfv] using wfv_lookup hwv1 h1))
              (wfvList_mem lb (by simpa [wfv] using wfv_lookup hwv2 h2))
          next fsa fsb =>
            have hsf : sortCF fsa = sortCF fsb := by
              simpa [canon, sortCF] using hc
            exact ihNO k fsa fsb false hsf (wfv_lookup hwv1 h1) (wfv_lookup hwv2 h2)
      have hI : ∀ k, (match lookupV (.vobj fs1) k with
            | some (.varr l) => generateNestedArraySchemaF fuel k l true cfg
            | some (.vobj fs) => generateNestedObjectSchemaF fuel k fs true cfg
            | _ => [] : Str)
          = (match lookupV (.vobj fs2) k with
            | some (.varr l) => generateNestedArraySchemaF fuel k l true cfg
            | some (.vobj fs) => generateNestedObjectSchemaF fuel k fs true cfg
            | _ => [] : Str) := by
        intro k
        rcases hlk k with ⟨h1, h2⟩ | ⟨u1, u2, h1, h2, hc⟩
        · rw [h1, h2]
        · rw [h1, h2]
          cases u1 <;> cases u2 <;> try (exfalso; simp [canon] at hc; done)
          all_goals try rfl
          next la lb =>
            have hm : List.map canon la = List.map canon lb := by
              simpa [canon, canonList_eq_map] using hc
            exact ihNA k la lb true (forall2_of_map_eq canon la lb hm)
              (wfvList_mem la (by simpa [wfv] using wfv_lookup hwv1 h1))
              (wfvList_mem lb (by simpa [wfv] using wfv_lookup hwv2 h2))
          next fsa fsb =>
            have hsf : sortCF fsa = sortCF fsb := by
              simpa [canon, sortCF] using hc
            exact ihNO k fsa fsb true hsf (wfv_lookup hwv1 h1) (wfv_lookup hwv2 h2)
      show formatFieldName name opt cfg ++ [lbrace]
            ++ joinSep cfg.schemaFieldSeparator
              ((((sortKeys (fs1.map Prod.fst)).filter (fun key =>
              match lookupV (.vobj fs1) key with
              | some (.varr l) => l.length = 0 ∨ ¬isArrayOfObjects l
              | some (.vobj _) => false
              | _ => true)).map (fun key =>
              match lookupV (.vobj fs1) key with
              | some (.varr _) =>
                key ++ cfg.arraySizeMarker ++ cfg.fieldsOpen ++ cfg.fieldsClose
              | _ => key))
                ++ (((sortKeys (fs1.map Prod.fst)).filter (fun key =>
              match lookupV (.vobj fs1) key with
              | some (.varr l) => l.length ≠ 0 ∧ isArrayOfObjects l
              | some (.vobj fs) => fs.length ≠ 0
              | _ => false)).map (fun key =>
              match lookupV (.vobj fs1) key with
              | some (.varr l) => generateNestedArraySchemaF fuel key l false cfg
              | some (.vobj fs) => generateNestedObjectSchemaF fuel key fs false cfg
              | _ => []))
                ++ (((sortKeys (fs1.map Prod.fst)).filter (fun key =>
              match lookupV (.vobj fs1) key with
              | some (.vobj fs) => fs.length = 0
              | _ => false)).map (fun key =>
              match lookupV (.vobj fs1) key with
              | some (.varr l) => generateNestedArraySchemaF fuel key l true cfg
              | some (.vobj fs) => generateNestedObjectSchemaF fuel key fs true cfg
              | _ => [])))
            ++ [rbrace]
        = formatFieldName name opt cfg ++ [lbrace]
            ++ joinSep cfg.schemaFieldSeparator
              ((((sortKeys (fs2.map Prod.fst)).filter (fun key =>
              match lookupV (.vobj fs2) key with
              | some (.varr l) => l.length = 0 ∨ ¬isArrayOfObjects l
              | some (.vobj _) => false
              | _ => true)).map (fun key =>
              match lookupV (.vobj fs2) key with
              | some (.varr _) =>
                key ++ cfg.arraySizeMarker ++ cfg.fieldsOpen ++ cfg.fieldsClose
              | _ => key))
                ++ (((sortKeys (fs2.map Prod.fst)).filter (fun key =>
              match lookupV (.vobj fs2) key with
              | some (.varr l) => l.length ≠ 0 ∧ isArrayOfObjects l
              | some (.vobj fs) => fs.length ≠ 0
              | _ => false)).map (fun key =>
              match lookupV (.vobj fs2) key with
              | some (.varr l) => generateNestedArraySchemaF fuel key l false cfg
              | some (.vobj fs) => generateNestedObjectSchemaF fuel key fs false cfg
              | _ => []))
                ++ (((sortKeys (fs2.map Prod.fst)).filter (fun key =>
              match lookupV (.vobj fs2) key with
              | some (.vobj fs) => fs.length = 0
              | _ => false)).map (fun key =>
              match lookupV (.vobj fs2) key with
              | some (.varr l) => generateNestedArraySchemaF fuel key l true cfg
              | some (.vobj fs) => generateNestedObjectSchemaF fuel key fs true cfg
              | _ => [])))
            ++ [rbrace]
      rw [hkeys]
      rw [List.filter_congr (fun k _ => hP k), List.filter_congr (fun k _ => hQ k),
        List.filter_congr (fun k _ => hR k)]
      rw [List.map_congr_left (fun k _ => hG k), List.map_congr_left (fun k _ => hH k),
        List.map_congr_left (fun k _ => hI k)]

/-- C5 counterexample input: a root object with two array-valued
properties, `x` first. -/
def c5A : Value := .vobj [("x".toList, .varr [.vobj [("p".toList, .vnum 1)]]),
                          ("y".toList, .varr [.vobj [("q".toList, .vnum 2)]])]

/-- The same logical data with the two root entries swapped. -/
def c5B : Value := .vobj [("y".toList, .varr [.vobj [("q".toList, .vnum 2)]]),
                          ("x".toList, .varr [.vobj [("p".toList, .vnum 1)]])]

/-- C5, counterexample: two well-formed inputs that are deep-equal up to
map key order produce different schema headers — `findRootArray` takes
the first array-valued property of the root object, which depends on key
insertion order, so the generated headers name different roots. -/
theorem c5_root_key_order_changes_header :
    wfv c5A = true ∧ wfv c5B = true ∧ veq c5A c5B = true ∧
      generateSchema c5A PLOON_STANDARD = .ok "[x#1](p)".toList ∧
      generateSchema c5B PLOON_STANDARD = .ok "[y#1](q)".toList ∧
      ("[x#1](p)".toList : Str) ≠ "[y#1](q)".toList :=
  ⟨by decide, by decide, by decide, rfl, rfl, by decide⟩

/-- C5 (amended).  Schema-header determinism holds whenever the root of
the data is itself an array: for any two well-formed root arrays that
are deep-equal up to map key order (`veq`), the generated schema strings
are byte-identical.  (The root-object case fails only through
`findRootArray`'s key-order-dependent choice of the root array; see the
counterexample.) -/
theorem c5_schema_header_deterministic (a b : List Value) (cfg : PloonConfig)
    (ha : wfv (.varr a) = true) (hb : wfv (.varr b) = true)
    (h : veq (.varr a) (.varr b) = true) :
    generateSchema (.varr a) cfg = generateSchema (.varr b) cfg := by
  have hc : canon (.varr a) = canon (.varr b) := vbeq_sound _ _ h
  have hcl : canonList a = canonList b := by
    simpa [canon] using hc
  have hm : List.map canon a = List.map canon b := by
    rw [← canonList_eq_map, ← canonList_eq_map, hcl]
  have hf := forall2_of_map_eq canon a b hm
  have hw1 : ∀ v ∈ a, wfv v = true := wfvList_mem a (by simpa [wfv] using ha)
  have hw2 : ∀ v ∈ b, wfv v = true := wfvList_mem b (by simpa [wfv] using hb)
  have hsz : vsizeList a = vsizeList b := by
    rw [← vsizeList_canon a, ← vsizeList_canon b, hcl]
  show Except.ok (generateArraySchemaF (vsize (.varr a) + 1) "root".toList a cfg)
      = Except.ok (generateArraySchemaF (vsize (.varr b) + 1) "root".toList b cfg)
  rw [show vsize (.varr a) = 1 + vsizeList a from rfl,
    show vsize (.varr b) = 1 + vsizeList b from rfl, hsz]
  exact congrArg Except.ok
    ((genSchema_rel cfg (1 + vsizeList b + 1)).1 "root".toList a b hf hw1 hw2)

/-- Witness root array for C5, keys in one order. -/
def c5W1 : List Value := [.vobj [("b".toList, .vnum 1), ("a".toList, .vnum 2)]]

/-- Witness root array for C5, keys swapped. -/
def c5W2 : List Value := [.vobj [("a".toList, .vnum 2), ("b".toList, .vnum 1)]]

/-- C5 witness: the amended determinism theorem applied to a concrete
pair of key-reordered root arrays. -/
theorem c5_schema_header_deterministic_witness :
    veq (.varr c5W1) (.varr c5W2) = true ∧
      generateSchema (.varr c5W1) PLOON_STANDARD
        = generateSchema (.varr c5W2) PLOON_STANDARD :=
  ⟨by decide, c5_schema_header_deterministic c5W1 c5W2 PLOON_STANDARD
    (by decide) (by decide) (by decide)⟩

end Ploon
